import Mathlib

/-! marocco: L1 routes, address assignment and input placement.

A shallow embedding of `marocco/coordinates/L1Route.cpp`,
`marocco/placement/internal/L1AddressAssignment.cpp`,
`marocco/placement/MergerRouting.cpp` and
`marocco/placement/InputPlacement.cpp`, followed by theorems about them.

Iterators into a segment sequence are modelled by their index; `end` is the
length of the sequence.  C++ exceptions are modelled by `Except`.
-/

namespace marocco

/-! ## Coordinates -/

/-- Chip coordinate on the wafer (`HMF::Coordinate::HICANNOnWafer`). The default
value is the chip with `x = 0`, `y = 0`. -/
structure HICANNOnWafer where
  x : Nat
  y : Nat
deriving DecidableEq, Repr, Inhabited

/-- Horizontal bus on a chip, 64 per chip. -/
abbrev HLineOnHICANN := Fin 64

/-- Vertical bus on a chip, 256 per chip. -/
abbrev VLineOnHICANN := Fin 256

/-- One of the eight DNC mergers of a chip. -/
abbrev DNCMergerOnHICANN := Fin 8

/-- One of the eight gbit links of a chip. -/
abbrev GbitLinkOnHICANN := Fin 8

/-- First layer of the merger tree, eight mergers. -/
abbrev Merger0OnHICANN := Fin 8

/-- Second layer of the merger tree, four mergers. -/
abbrev Merger1OnHICANN := Fin 4

/-- Third layer of the merger tree, two mergers. -/
abbrev Merger2OnHICANN := Fin 2

/-- Fourth layer of the merger tree, a single merger. -/
abbrev Merger3OnHICANN := Fin 1

/-- One of the eight neuron blocks of a chip. -/
abbrev NeuronBlockOnHICANN := Fin 8

/-- Synapse driver coordinate: side `x` and row `y`. -/
structure SynapseDriverOnHICANN where
  x : Nat
  y : Nat
deriving DecidableEq, Repr

/-- Synapse coordinate: column `x` and row `y`. -/
structure SynapseOnHICANN where
  x : Nat
  y : Nat
deriving DecidableEq, Repr

/-- The tagged variant `L1Route::segment_type`. Its first alternative is the
chip id, so a default-constructed segment is a chip id. -/
inductive segment_type where
  | HICANNOnWafer (h : HICANNOnWafer)
  | Merger0OnHICANN (m : Merger0OnHICANN)
  | Merger1OnHICANN (m : Merger1OnHICANN)
  | Merger2OnHICANN (m : Merger2OnHICANN)
  | Merger3OnHICANN (m : Merger3OnHICANN)
  | GbitLinkOnHICANN (g : GbitLinkOnHICANN)
  | DNCMergerOnHICANN (d : DNCMergerOnHICANN)
  | HLineOnHICANN (h : HLineOnHICANN)
  | VLineOnHICANN (v : VLineOnHICANN)
  | SynapseDriverOnHICANN (d : SynapseDriverOnHICANN)
  | SynapseOnHICANN (s : SynapseOnHICANN)
deriving DecidableEq, Repr

instance : Inhabited segment_type := ⟨segment_type.HICANNOnWafer default⟩

/-- The functions of the hardware coordinate library that the successor table
calls: continuation lines across chip boundaries, the HLine of a DNC merger's
sending repeater, and the static existence tables of crossbar and synapse
switches. They are parameters of the embedding. -/
structure Topology where
  east : HLineOnHICANN → HLineOnHICANN
  west : HLineOnHICANN → HLineOnHICANN
  south : VLineOnHICANN → VLineOnHICANN
  north : VLineOnHICANN → VLineOnHICANN
  toSendingRepeaterHLine : DNCMergerOnHICANN → HLineOnHICANN
  crossbar_exists : VLineOnHICANN → HLineOnHICANN → Bool
  toSynapseSwitchRowY : SynapseDriverOnHICANN → Nat
  synapse_switch_exists : VLineOnHICANN → Nat → Bool

/-- A concrete topology used to evaluate the definitions on examples: lines
continue shifted by two across a chip boundary, DNC merger `d` sends on HLine
`8 * d + 6`, and every crossbar and synapse switch exists. -/
def sampleTopology : Topology where
  east := fun h => h + 2
  west := fun h => h - 2
  south := fun v => v + 2
  north := fun v => v - 2
  toSendingRepeaterHLine := fun d => ⟨8 * d.val + 6, by omega⟩
  crossbar_exists := fun _ _ => true
  toSynapseSwitchRowY := fun d => d.y
  synapse_switch_exists := fun _ _ => true

/-- Whether a segment is a chip id (`is_hicann`). -/
def is_hicann : segment_type → Bool
  | .HICANNOnWafer _ => true
  | _ => false

/-! ## The successor table -/

/-- State of the visitor `IsValidSuccessor`: the current chip and the line
expected after the last chip boundary. -/
structure IsValidSuccessor where
  m_current_hicann : HICANNOnWafer
  m_expected_line : segment_type
deriving DecidableEq, Repr

namespace IsValidSuccessor

/-- Constructor `IsValidSuccessor(hicann)`: the expected line is
default-constructed. -/
def init (hicann : HICANNOnWafer) : IsValidSuccessor := ⟨hicann, default⟩

/-- Accessor `current_hicann()`. -/
def current_hicann (v : IsValidSuccessor) : HICANNOnWafer := v.m_current_hicann

/-- Overload `operator()(HLineOnHICANN, HICANNOnWafer)`. -/
def call_hline_hicann (T : Topology) (v : IsValidSuccessor) (current : HLineOnHICANN)
    (next : HICANNOnWafer) : Bool × IsValidSuccessor :=
  let diff : Int := (v.m_current_hicann.x : Int) - (next.x : Int)
  if diff = 0 then (false, v)
  else (true, ⟨next, .HLineOnHICANN (if diff < 0 then T.east current else T.west current)⟩)

/-- Overload `operator()(VLineOnHICANN, HICANNOnWafer)`. -/
def call_vline_hicann (T : Topology) (v : IsValidSuccessor) (current : VLineOnHICANN)
    (next : HICANNOnWafer) : Bool × IsValidSuccessor :=
  let diff : Int := (v.m_current_hicann.y : Int) - (next.y : Int)
  if diff = 0 then (false, v)
  else (true, ⟨next, .VLineOnHICANN (if diff < 0 then T.south current else T.north current)⟩)

/-- The visitor applied to a pair of segments (`boost::apply_visitor(visitor,
current, next)`): the verdict and the visitor state afterwards. Every pair
without an overload of its own is rejected. -/
def call (T : Topology) (v : IsValidSuccessor) :
    segment_type → segment_type → Bool × IsValidSuccessor
  | .HLineOnHICANN current, .HICANNOnWafer next => call_hline_hicann T v current next
  | .VLineOnHICANN current, .HICANNOnWafer next => call_vline_hicann T v current next
  | .DNCMergerOnHICANN current, .HICANNOnWafer next =>
      if v.m_current_hicann.x ≤ next.x then (false, v)
      else call_hline_hicann T v (T.toSendingRepeaterHLine current) next
  | .HICANNOnWafer current, .HLineOnHICANN next =>
      (match v.m_expected_line with
        | .HLineOnHICANN expected =>
            decide (current = v.m_current_hicann) && decide (next = expected)
        | _ => false, v)
  | .HICANNOnWafer current, .VLineOnHICANN next =>
      (match v.m_expected_line with
        | .VLineOnHICANN expected =>
            decide (current = v.m_current_hicann) && decide (next = expected)
        | _ => false, v)
  | .Merger0OnHICANN current, .Merger1OnHICANN next =>
      let id := current.val
      let next_id := next.val
      ((next_id == 0 && decide (id < 2)) ||
       (next_id == 1 && decide (id ≥ 2) && decide (id < 4)) ||
       (next_id == 2 && decide (id ≥ 4) && decide (id < 6)) ||
       (next_id == 3 && decide (id ≥ 6)), v)
  | .Merger1OnHICANN current, .Merger2OnHICANN next =>
      let id := current.val
      let next_id := next.val
      ((next_id == 0 && decide (id < 2)) || (next_id == 1 && decide (id ≥ 2)), v)
  | .Merger2OnHICANN _, .Merger3OnHICANN _ => (true, v)
  | .Merger0OnHICANN current, .DNCMergerOnHICANN next =>
      let id := current.val
      (id == next.val && (id == 0 || id == 2 || id == 4 || id == 7), v)
  | .Merger1OnHICANN current, .DNCMergerOnHICANN next =>
      ((current.val == 0 && next.val == 1) || (current.val == 3 && next.val == 6), v)
  | .Merger2OnHICANN current, .DNCMergerOnHICANN next =>
      (current.val == 1 && next.val == 5, v)
  | .Merger3OnHICANN _, .DNCMergerOnHICANN next => (next.val == 3, v)
  | .DNCMergerOnHICANN current, .GbitLinkOnHICANN next => (current.val == next.val, v)
  | .GbitLinkOnHICANN current, .DNCMergerOnHICANN next => (current.val == next.val, v)
  | .DNCMergerOnHICANN current, .HLineOnHICANN next =>
      (decide (T.toSendingRepeaterHLine current = next), v)
  | .VLineOnHICANN current, .HLineOnHICANN next => (T.crossbar_exists current next, v)
  | .HLineOnHICANN current, .VLineOnHICANN next => (T.crossbar_exists next current, v)
  | .VLineOnHICANN current, .SynapseDriverOnHICANN next =>
      (T.synapse_switch_exists current (T.toSynapseSwitchRowY next), v)
  | .SynapseDriverOnHICANN current, .SynapseDriverOnHICANN next =>
      (decide (current.x = next.x) &&
        decide (((current.y : Int) - (next.y : Int)).natAbs = 2), v)
  | .SynapseDriverOnHICANN _, .SynapseOnHICANN _ => (true, v)
  | _, _ => (false, v)

/-- Method `IsValidSuccessor::find_invalid(it, end)` on the segments from `it`
to `end`: the offset (counted from `it`) of the first segment that is not an
admissible successor of its predecessor, or the length of the list when there
is none, and the visitor state afterwards. -/
def find_invalid (T : Topology) :
    IsValidSuccessor → List segment_type → Nat × IsValidSuccessor
  | v, [] => (0, v)
  | v, [_] => (1, v)
  | v, it :: next :: rest =>
      match call T v it next with
      | (false, v1) => (1, v1)
      | (true, v1) =>
          let r := find_invalid T v1 (next :: rest)
          (r.1 + 1, r.2)

end IsValidSuccessor

/-! ## L1Route -/

/-- The exceptions the route operations raise; `undefined_behaviour` stands for
dereferencing an iterator that is not dereferenceable and `assertion_failed`
for a failed `assert`. -/
inductive RouteError where
  | InvalidRouteError
  | runtime_error
  | logic_error
  | assertion_failed
  | undefined_behaviour
deriving DecidableEq, Repr

/-- The class `L1Route`: the segment sequence and the cached target chip. -/
structure L1Route where
  m_segments : List segment_type
  m_last_hicann : HICANNOnWafer
deriving DecidableEq, Repr

namespace L1Route

/-- Default constructor `L1Route()`. -/
def empty_route : L1Route := ⟨[], default⟩

/-- Method `empty()`. -/
def empty (r : L1Route) : Bool := r.m_segments.isEmpty

/-- Method `size()`. -/
def size (r : L1Route) : Nat := r.m_segments.length

/-- Method `source_hicann()`. -/
def source_hicann (r : L1Route) : Except RouteError HICANNOnWafer :=
  match r.m_segments with
  | [] => .error .runtime_error
  | .HICANNOnWafer hicann :: _ => .ok hicann
  | _ :: _ => .error .logic_error

/-- Method `target_hicann()`. -/
def target_hicann (r : L1Route) : Except RouteError HICANNOnWafer :=
  if r.m_segments.isEmpty then .error .runtime_error else .ok r.m_last_hicann

/-- Method `front()`: the element after the first one. -/
def front (r : L1Route) : Except RouteError segment_type :=
  match r.m_segments with
  | [] => .error .runtime_error
  | [_] => .error .undefined_behaviour
  | _ :: s :: _ => .ok s

/-- Static method `L1Route::find_invalid(beg, end, store_last_hicann)`: the
index of the first invalid segment (`end` is the length) and the chip written
through `store_last_hicann`, if any is written. -/
def find_invalid (T : Topology) : List segment_type → Nat × Option HICANNOnWafer
  | [] => (0, none)
  | .HICANNOnWafer starting_hicann :: rest =>
      if rest.isEmpty then (0, none)
      else
        let r := IsValidSuccessor.find_invalid T (IsValidSuccessor.init starting_hicann) rest
        (r.1 + 1, some r.2.current_hicann)
  | _ :: _ => (0, none)

/-- Method `verify()`. -/
def verify (T : Topology) (r : L1Route) : Except RouteError L1Route :=
  let res := find_invalid T r.m_segments
  if res.1 ≠ r.m_segments.length then .error .InvalidRouteError
  else .ok ⟨r.m_segments, res.2.getD r.m_last_hicann⟩

/-- Method `update_target_hicann()`. -/
def update_target_hicann (r : L1Route) : L1Route :=
  match r.m_segments.reverse.find? is_hicann with
  | some (.HICANNOnWafer hicann) => ⟨r.m_segments, hicann⟩
  | _ => r

/-- The verifying constructors `L1Route(segments)`. -/
def of_segments (T : Topology) (segments : List segment_type) : Except RouteError L1Route :=
  verify T ⟨segments, default⟩

/-- The constructors `L1Route(segments, no_verify_tag)`. -/
def of_segments_no_verify (segments : List segment_type) : L1Route :=
  update_target_hicann ⟨segments, default⟩

/-- Method `append(segment)`. -/
def append (T : Topology) (r : L1Route) (segment : segment_type) : Except RouteError L1Route :=
  if is_hicann segment then .error .InvalidRouteError
  else
    match r.m_segments.getLast? with
    | none => .error .InvalidRouteError
    | some back =>
        if (IsValidSuccessor.call T (IsValidSuccessor.init r.m_last_hicann) back segment).1 then
          .ok ⟨r.m_segments ++ [segment], r.m_last_hicann⟩
        else .error .InvalidRouteError

/-- Method `append(hicann, segment)`. -/
def append_hicann (T : Topology) (r : L1Route) (hicann : HICANNOnWafer)
    (segment : segment_type) : Except RouteError L1Route :=
  if is_hicann segment then .error .InvalidRouteError
  else
    let visitor := IsValidSuccessor.init r.m_last_hicann
    let hicann_segment := segment_type.HICANNOnWafer hicann
    let invalid : Bool :=
      match r.m_segments.getLast? with
      | none => false
      | some back =>
          let first := IsValidSuccessor.call T visitor back hicann_segment
          !first.1 || !(IsValidSuccessor.call T first.2 hicann_segment segment).1
    if invalid then .error .InvalidRouteError
    else .ok ⟨r.m_segments ++ [hicann_segment, segment], hicann⟩

/-- Method `extend(other)`. -/
def extend (T : Topology) (r other : L1Route) : Except RouteError L1Route :=
  if r.empty then .ok other
  else if other.empty then .ok r
  else
    match other.source_hicann, r.m_segments.getLast?, other.m_segments with
    | .error e, _, _ => .error e
    | .ok _, _, [] => .error .runtime_error
    | .ok _, none, _ => .error .undefined_behaviour
    | .ok _, some _, [_] => .error .undefined_behaviour
    | .ok hicann, some last_segment, it :: next :: rest =>
        let visitor := IsValidSuccessor.init r.m_last_hicann
        if hicann = r.m_last_hicann ∧ (IsValidSuccessor.call T visitor last_segment next).1 then
          .ok ⟨r.m_segments ++ next :: rest, other.m_last_hicann⟩
        else
          let first := IsValidSuccessor.call T visitor last_segment it
          if hicann ≠ r.m_last_hicann ∧ first.1 ∧ (IsValidSuccessor.call T first.2 it next).1 then
            .ok ⟨r.m_segments ++ it :: next :: rest, other.m_last_hicann⟩
          else .error .InvalidRouteError

/-- Method `merge(other)`. -/
def merge (r other : L1Route) : Except RouteError L1Route :=
  if r.empty then .ok other
  else if other.empty then .ok r
  else
    match other.source_hicann, r.m_segments.getLast?, other.m_segments with
    | .error e, _, _ => .error e
    | .ok _, _, [] => .error .runtime_error
    | .ok _, none, _ => .error .undefined_behaviour
    | .ok hicann, some last_segment, _ :: tail =>
        if r.m_last_hicann ≠ hicann then .error .InvalidRouteError
        else
          match tail with
          | [] => .error .undefined_behaviour
          | it :: rest =>
              if last_segment ≠ it then .error .InvalidRouteError
              else .ok ⟨r.m_segments ++ rest, other.m_last_hicann⟩

/-- Method `split(it)`, with the iterator `it` given by its index. -/
def split (r : L1Route) (it : Nat) : Except RouteError (L1Route × L1Route) :=
  if it = 0 then .ok (empty_route, r)
  else if it = r.m_segments.length then .ok (r, empty_route)
  else if r.m_segments.length < it then .error .undefined_behaviour
  else
    let it1 := if (r.m_segments.get? (it - 1)).any is_hicann then it - 1 else it
    let first := r.m_segments.take it1
    if (r.m_segments.get? it1).any is_hicann then
      .ok (of_segments_no_verify first, of_segments_no_verify (r.m_segments.drop it1))
    else
      match first.reverse.find? is_hicann with
      | none => .error .assertion_failed
      | some rit =>
          .ok (of_segments_no_verify first, of_segments_no_verify (rit :: r.m_segments.drop it1))

/-- The route object after a call of a mutating method: the new state when the
call returned, the old state when it threw an exception (every mutating method
of `L1Route` throws before it writes a member), and nothing when the behaviour
is undefined or an assertion failed: the program guarantees no state then. -/
def after (r : L1Route) (result : Except RouteError L1Route) : Option L1Route :=
  match result with
  | .ok r1 => some r1
  | .error .undefined_behaviour => none
  | .error .assertion_failed => none
  | .error _ => some r

end L1Route

/-! ## The merger tree in the words of the specification -/

/-- Whether a segment is of one of the kinds Merger0, Merger1, Merger2, Merger3
or DNCMerger. -/
def is_merger_tree_kind : segment_type → Bool
  | .Merger0OnHICANN _ => true
  | .Merger1OnHICANN _ => true
  | .Merger2OnHICANN _ => true
  | .Merger3OnHICANN _ => true
  | .DNCMergerOnHICANN _ => true
  | _ => false

/-- The merger-tree successor table as the specification lists it:
Merger0(i) -> Merger1(i div 2); Merger1(i) -> Merger2(i div 2); Merger2(i) ->
Merger3; Merger0(i) -> DNCMerger(i) for i in 0, 2, 4, 7; Merger1(0) ->
DNCMerger(1); Merger1(3) -> DNCMerger(6); Merger2(1) -> DNCMerger(5);
Merger3 -> DNCMerger(3); nothing else. -/
def merger_tree_table : segment_type → segment_type → Bool
  | .Merger0OnHICANN i, .Merger1OnHICANN j => decide (j.val = i.val / 2)
  | .Merger1OnHICANN i, .Merger2OnHICANN j => decide (j.val = i.val / 2)
  | .Merger2OnHICANN _, .Merger3OnHICANN _ => true
  | .Merger0OnHICANN i, .DNCMergerOnHICANN n =>
      decide (n.val = i.val ∧ (i.val = 0 ∨ i.val = 2 ∨ i.val = 4 ∨ i.val = 7))
  | .Merger1OnHICANN i, .DNCMergerOnHICANN n =>
      decide ((i.val = 0 ∧ n.val = 1) ∨ (i.val = 3 ∧ n.val = 6))
  | .Merger2OnHICANN i, .DNCMergerOnHICANN n => decide (i.val = 1 ∧ n.val = 5)
  | .Merger3OnHICANN _, .DNCMergerOnHICANN n => decide (n.val = 3)
  | _, _ => false

/-! ## Acceptance of a run of segments, and routes built through the checking interface -/

namespace IsValidSuccessor

/-- The visitor started in state `v` accepts every adjacent pair of `l`:
`find_invalid` returns `end`. -/
def accepts (T : Topology) (v : IsValidSuccessor) (l : List segment_type) : Prop :=
  (find_invalid T v l).1 = l.length

/-- The visitor state after `find_invalid` ran over `l` from state `v`. -/
def final (T : Topology) (v : IsValidSuccessor) (l : List segment_type) : IsValidSuccessor :=
  (find_invalid T v l).2

end IsValidSuccessor

namespace L1Route

/-- A segment sequence passes verification: `L1Route::find_invalid` returns
`end`. -/
def valid (T : Topology) (segments : List segment_type) : Prop :=
  (find_invalid T segments).1 = segments.length

instance (T : Topology) (segments : List segment_type) : Decidable (valid T segments) := by
  unfold valid
  infer_instance

/-- The cached target chip agrees with the chip the verifying visitor ends on,
for routes whose last segment is not a chip id. -/
def tracked (T : Topology) (r : L1Route) : Prop :=
  ∀ c rest back, r.m_segments = .HICANNOnWafer c :: rest → rest.getLast? = some back →
    is_hicann back = false →
    r.m_last_hicann = (IsValidSuccessor.final T (IsValidSuccessor.init c) rest).m_current_hicann

/-- Routes that start empty or from a verifying constructor and are then
changed only by successful calls of `append(segment)`, `append(chip, segment)`,
`extend(other)` and `merge(other)`, where `other` is such a route itself. -/
inductive Reachable (T : Topology) : L1Route → Prop
  | default_constructed : Reachable T empty_route
  | verified (segments : List segment_type) (r : L1Route) :
      of_segments T segments = .ok r → Reachable T r
  | append (r : L1Route) (segment : segment_type) (r1 : L1Route) :
      Reachable T r → r.append T segment = .ok r1 → Reachable T r1
  | append_hicann (r : L1Route) (hicann : HICANNOnWafer) (segment : segment_type)
      (r1 : L1Route) :
      Reachable T r → r.append_hicann T hicann segment = .ok r1 → Reachable T r1
  | extend (r other r1 : L1Route) :
      Reachable T r → Reachable T other → r.extend T other = .ok r1 → Reachable T r1
  | merge (r other r1 : L1Route) :
      Reachable T r → Reachable T other → r.merge other = .ok r1 → Reachable T r1

end L1Route

/-! ## The target chip in the words of the specification -/

/-- The last chip id that occurs in a segment sequence, if there is one. -/
def last_chip_id : List segment_type → Option HICANNOnWafer
  | [] => none
  | .HICANNOnWafer h :: rest =>
      match last_chip_id rest with
      | some later => some later
      | none => some h
  | _ :: rest => last_chip_id rest

/-! ## Address pools and the address assignment of a chip -/

namespace placement

/-- Errors raised during placement. -/
inductive PlacementError where
  | runtime_error
  | out_of_range
deriving DecidableEq, Repr

/-- Modelled from the spec: the address-assignment strategy of
`l1_address_assignment.strategy` (its declaration is not among the sources):
sequential from the lowest available address, or pseudo-random, where the
generator is a function that picks a position in the list of available
addresses. -/
inductive Strategy where
  | sequential
  | pseudo_random (choose : List Nat → Nat)

/-- Modelled from the spec: `L1AddressPool`
(`marocco/placement/internal/L1AddressPool.h` is not among the sources): the
available 6-bit addresses of one DNC merger. A new pool holds the addresses
1 to 63; address 0 is reserved and never part of a pool. -/
structure L1AddressPool where
  addresses : List Nat
deriving DecidableEq, Repr

namespace L1AddressPool

/-- Modelled from the spec: a new pool is full, it holds 1, 2, ..., 63. -/
def full : L1AddressPool := ⟨List.range' 1 63⟩

/-- Modelled from the spec: number of available addresses. -/
def size (pool : L1AddressPool) : Nat := pool.addresses.length

/-- Modelled from the spec: `pop(strategy)` draws one available address and
removes it from the pool; it fails on an empty pool. -/
def pop (pool : L1AddressPool) (strategy : Strategy) :
    Except PlacementError (Nat × L1AddressPool) :=
  match pool.addresses with
  | [] => .error .runtime_error
  | a :: rest =>
      match strategy with
      | .sequential => .ok (a, ⟨rest⟩)
      | .pseudo_random choose =>
          let drawn := (a :: rest).getD (choose (a :: rest) % (rest.length + 1)) a
          .ok (drawn, ⟨(a :: rest).erase drawn⟩)

end L1AddressPool

/-- The enumeration `L1AddressAssignment::Mode`. -/
inductive Mode where
  | input
  | output
  | unused
deriving DecidableEq, Repr

/-- The class `L1AddressAssignment`: mode and address pool of each of the eight
DNC mergers of one chip. -/
structure L1AddressAssignment where
  m_mode : DNCMergerOnHICANN → Mode
  m_address_pools : DNCMergerOnHICANN → L1AddressPool

namespace L1AddressAssignment

/-- Constructor: every mode is `unused`, every pool is new. -/
def init : L1AddressAssignment := ⟨fun _ => Mode.unused, fun _ => L1AddressPool.full⟩

/-- Method `available_addresses(merger)`. -/
def available_addresses (a : L1AddressAssignment) (merger : DNCMergerOnHICANN) :
    L1AddressPool := a.m_address_pools merger

/-- Writing through the reference returned by `available_addresses(merger)`. -/
def set_available_addresses (a : L1AddressAssignment) (merger : DNCMergerOnHICANN)
    (pool : L1AddressPool) : L1AddressAssignment :=
  ⟨a.m_mode, Function.update a.m_address_pools merger pool⟩

/-- Method `set_mode(merger, value)`. -/
def set_mode (a : L1AddressAssignment) (merger : DNCMergerOnHICANN) (value : Mode) :
    L1AddressAssignment :=
  ⟨Function.update a.m_mode merger value, a.m_address_pools⟩

/-- Method `mode(merger)`. -/
def mode (a : L1AddressAssignment) (merger : DNCMergerOnHICANN) : Mode := a.m_mode merger

/-- Method `has_output()`. -/
def has_output (a : L1AddressAssignment) : Bool :=
  (List.finRange 8).any fun merger => decide (a.m_mode merger = Mode.output)

end L1AddressAssignment

/-! ## Placement items -/

/-- Neuron block on the wafer: block and chip. -/
structure NeuronBlockOnWafer where
  block : NeuronBlockOnHICANN
  hicann : HICANNOnWafer
deriving DecidableEq, Repr

/-- DNC merger on the wafer: merger and chip. -/
structure DNCMergerOnWafer where
  dnc : DNCMergerOnHICANN
  hicann : HICANNOnWafer
deriving DecidableEq, Repr

/-- L1 address on the wafer: DNC merger on the wafer and 6-bit address. -/
structure L1AddressOnWafer where
  merger : DNCMergerOnWafer
  address : Nat
deriving DecidableEq, Repr

/-- Biological neuron: population and index in the population. -/
structure BioNeuron where
  population : Nat
  neuron_index : Nat
deriving DecidableEq, Repr

/-- Logical neuron: external (source id and neuron index) or on a neuron block
of a chip (with its position among the neurons of the block). -/
inductive LogicalNeuron where
  | external (id : Nat) (neuron_index : Nat)
  | on_chip (block : NeuronBlockOnWafer) (position : Nat)
deriving DecidableEq, Repr

/-- Modelled from the spec: a placement item of `results::Placement` (not among
the sources): a biological neuron, its logical neuron and the L1 address it was
given, if any. -/
structure PlacementItem where
  bio_neuron : BioNeuron
  logical_neuron : LogicalNeuron
  address : Option L1AddressOnWafer
deriving DecidableEq, Repr

/-- The neuron block of an item, for on-chip logical neurons. -/
def PlacementItem.neuron_block (item : PlacementItem) : Option NeuronBlockOnWafer :=
  match item.logical_neuron with
  | .on_chip block _ => some block
  | .external _ _ => none

/-- Modelled from the spec: `results::Placement::find(NeuronBlockOnWafer)`, the
items placed on a neuron block. -/
def find_neuron_block (neuron_placement : List PlacementItem) (block : NeuronBlockOnWafer) :
    List PlacementItem :=
  neuron_placement.filter fun item => decide (item.neuron_block = some block)

/-- Modelled from the spec: `results::Placement::add(bio_neuron, logical_neuron)`
followed by `set_address(logical_neuron, address)`: one item carrying the
address is appended. -/
def add_with_address (neuron_placement : List PlacementItem) (bio_neuron : BioNeuron)
    (logical_neuron : LogicalNeuron) (address : L1AddressOnWafer) : List PlacementItem :=
  neuron_placement ++ [⟨bio_neuron, logical_neuron, some address⟩]

/-- The addresses carried by the placement items of one DNC merger of one chip,
in the order of the items. -/
def addresses_on (neuron_placement : List PlacementItem) (hicann : HICANNOnWafer)
    (dnc : DNCMergerOnHICANN) : List Nat :=
  neuron_placement.filterMap fun item =>
    match item.address with
    | some a => if a.merger = ⟨dnc, hicann⟩ then some a.address else none
    | none => none

/-- Modelled from the spec: `assignment::PopulationSlice` (not among the
sources): `size` neurons of a population starting at index `offset`. -/
structure PopulationSlice where
  population : Nat
  offset : Nat
  size : Nat
deriving DecidableEq, Repr

/-- Modelled from the spec: `slice_back(n)` cuts the last `n` neurons off the
slice: the slice that was cut off and the remaining slice. -/
def PopulationSlice.slice_back (bio : PopulationSlice) (n : Nat) :
    PopulationSlice × PopulationSlice :=
  (⟨bio.population, bio.offset + (bio.size - n), n⟩, ⟨bio.population, bio.offset, bio.size - n⟩)

end placement

/-! ## Input placement -/

namespace placement

/-- Modelled from the spec: the resource manager (not among the sources) tracks
which chips are present and which are allocated; a chip is available when it is
present and not yet allocated. -/
structure ResourceManager where
  present : List HICANNOnWafer
  allocated : List HICANNOnWafer
deriving DecidableEq, Repr

/-- Modelled from the spec: `available(hicann)`. -/
def ResourceManager.available (mgr : ResourceManager) (hicann : HICANNOnWafer) : Bool :=
  decide (hicann ∈ mgr.present) && !decide (hicann ∈ mgr.allocated)

/-- Modelled from the spec: `allocate(hicann)`. -/
def ResourceManager.allocate (mgr : ResourceManager) (hicann : HICANNOnWafer) :
    ResourceManager :=
  ⟨mgr.present, mgr.allocated ++ [hicann]⟩

/-- The arithmetic of `rate_type` (`double`) as far as input placement uses it:
a parameter of the embedding. `ofNat` converts an integer-valued literal. -/
structure RateOps (R : Type) where
  ofNat : Nat → R
  add : R → R → R
  sub : R → R → R
  mul : R → R → R
  lt : R → R → Bool

/-- Function `std::min` on rates. -/
def RateOps.min {R : Type} (A : RateOps R) (a b : R) : R := if A.lt b a then b else a

/-- The members of `InputPlacement` that input placement only reads, together
with the functions it calls on the graph and the coordinates: the firing rate
the rate visitor extracts for a neuron of a population, the id of a population,
and the FPGA of a chip. The merger-routing result maps a chip to its mapping
from neuron blocks to DNC mergers, if the chip has an entry; the declaration
of that mapping is not among the sources, and following the specification
(per chip, a mapping from neuron blocks to DNC mergers) it is a function on the
eight neuron blocks. -/
structure InputPlacement (R : Type) where
  arith : RateOps R
  consider_firing_rate : Bool
  bandwidth_utilization : R
  strategy : Strategy
  m_merger_routing : HICANNOnWafer → Option (NeuronBlockOnHICANN → DNCMergerOnHICANN)
  toFPGAOnWafer : HICANNOnWafer → Nat
  firing_rate : Nat → Nat → R
  population_id : Nat → Nat

/-- What `insertInput` reads and writes: the placement, the address assignment
of the target chip, the slice still to place, the allocated rates and the
resource manager. -/
structure InsertState (R : Type) where
  neuron_placement : List PlacementItem
  address_assignment : L1AddressAssignment
  bio : PopulationSlice
  mUsedRateHICANN : HICANNOnWafer → R
  mUsedRateFPGA : Nat → R
  mMgr : ResourceManager

/-- How one pass through a loop body ends: with the next iteration or by
returning from the function. -/
inductive LoopControl (σ : Type) where
  | next (s : σ)
  | done (s : σ)

namespace InputPlacement

variable {R : Type}

/-- Constant `max_rate_HICANN`, 1.78e7 Hz. -/
def max_rate_HICANN (P : InputPlacement R) : R := P.arith.ofNat 17800000

/-- Constant `max_rate_FPGA`, 1.25e8 Hz. -/
def max_rate_FPGA (P : InputPlacement R) : R := P.arith.ofNat 125000000

/-- Method `availableRate(h)`; the assertion on the result is not modelled. -/
def availableRate (P : InputPlacement R) (st : InsertState R) (h : HICANNOnWafer) : R :=
  let fpga := P.toFPGAOnWafer h
  let util := P.bandwidth_utilization
  let avail_HICANN := P.arith.sub (P.arith.mul util P.max_rate_HICANN) (st.mUsedRateHICANN h)
  let avail_FPGA := P.arith.sub (P.arith.mul util P.max_rate_FPGA) (st.mUsedRateFPGA fpga)
  P.arith.min avail_HICANN avail_FPGA

/-- Method `allocateRate(hicann, rate)`. -/
def allocateRate (P : InputPlacement R) (st : InsertState R) (hicann : HICANNOnWafer)
    (rate : R) : InsertState R :=
  let fpga := P.toFPGAOnWafer hicann
  { st with
    mUsedRateHICANN :=
      Function.update st.mUsedRateHICANN hicann (P.arith.add (st.mUsedRateHICANN hicann) rate)
    mUsedRateFPGA :=
      Function.update st.mUsedRateFPGA fpga (P.arith.add (st.mUsedRateFPGA fpga) rate) }

/-- The loop of `neuronsFittingIntoAvailableRate` with `remaining` iterations
left before `i` reaches `max_neurons`. -/
def neuronsFittingIntoAvailableRate_loop (P : InputPlacement R) (bio : PopulationSlice)
    (available_rate : R) : Nat → Nat → R → Nat × R
  | 0, i, summed_rate => (i, summed_rate)
  | remaining + 1, i, summed_rate =>
      let id_in_slice := bio.size - i - 1
      let rate := P.firing_rate bio.population (bio.offset + id_in_slice)
      if P.arith.lt (P.arith.add rate summed_rate) available_rate then
        neuronsFittingIntoAvailableRate_loop P bio available_rate remaining (i + 1)
          (P.arith.add summed_rate rate)
      else (i, summed_rate)

/-- Method `neuronsFittingIntoAvailableRate(bio, max_neurons, available_rate)`. -/
def neuronsFittingIntoAvailableRate (P : InputPlacement R) (bio : PopulationSlice)
    (max_neurons : Nat) (available_rate : R) : Nat × R :=
  neuronsFittingIntoAvailableRate_loop P bio available_rate max_neurons 0 (P.arith.ofNat 0)

/-- The merger mapping `insertInput` works with: the entry of the chip in the
merger-routing result, or the identity mapping when the chip has none. -/
def merger_mapping (P : InputPlacement R) (target_hicann : HICANNOnWafer) :
    NeuronBlockOnHICANN → DNCMergerOnHICANN :=
  match P.m_merger_routing target_hicann with
  | some mapping => mapping
  | none => fun nb => nb

/-- The address loop of `insertInput`: `neuron_count - ii` more neurons of the
slice that was cut off get an address from the pool of `dnc`. -/
def insertInput_addresses (P : InputPlacement R) (target_hicann : HICANNOnWafer)
    (dnc : DNCMergerOnHICANN) (population_slice : PopulationSlice) :
    Nat → Nat → List PlacementItem → L1AddressAssignment →
      Except PlacementError (List PlacementItem × L1AddressAssignment)
  | 0, _, neuron_placement, address_assignment => .ok (neuron_placement, address_assignment)
  | remaining + 1, ii, neuron_placement, address_assignment =>
      match (address_assignment.available_addresses dnc).pop P.strategy with
      | .error e => .error e
      | .ok (address, pool) =>
          let neuron_index := population_slice.offset + ii
          let logical_neuron :=
            LogicalNeuron.external (P.population_id population_slice.population) neuron_index
          let bio_neuron : BioNeuron := ⟨population_slice.population, neuron_index⟩
          insertInput_addresses P target_hicann dnc population_slice remaining (ii + 1)
            (add_with_address neuron_placement bio_neuron logical_neuron
              ⟨⟨dnc, target_hicann⟩, address⟩)
            (address_assignment.set_available_addresses dnc pool)

/-- The bandwidth check in the loop body of `insertInput`: the number of neurons
to place and the state after the rate was allocated, or nothing when no neuron
fits and `insertInput` returns. Without `consider_firing_rate` the count is
left as it is. -/
def insertInput_rate (P : InputPlacement R) (target_hicann : HICANNOnWafer)
    (neuron_count : Nat) (st : InsertState R) : Option (Nat × InsertState R) :=
  if P.consider_firing_rate then
    let available_rate := P.availableRate st target_hicann
    let fit := P.neuronsFittingIntoAvailableRate st.bio neuron_count available_rate
    if fit.1 = 0 then none
    else some (fit.1, P.allocateRate st target_hicann fit.2)
  else some (neuron_count, st)

/-- The end of the loop body of `insertInput`, once an insertion point is found:
the chip is tagged as used, the merger is set to mode input, `neuron_count`
neurons are cut off the back of the slice and given addresses. -/
def insertInput_place (P : InputPlacement R) (target_hicann : HICANNOnWafer)
    (dnc : DNCMergerOnHICANN) (neuron_count : Nat) (st1 : InsertState R) :
    Except PlacementError (LoopControl (InsertState R)) :=
  let mgr :=
    if st1.mMgr.available target_hicann then st1.mMgr.allocate target_hicann
    else st1.mMgr
  let assignment := st1.address_assignment.set_mode dnc Mode.input
  let slices := st1.bio.slice_back neuron_count
  match insertInput_addresses P target_hicann dnc slices.1 neuron_count 0
      st1.neuron_placement assignment with
  | .error e => .error e
  | .ok (neuron_placement, assignment1) =>
      let st2 : InsertState R :=
        { st1 with
          neuron_placement := neuron_placement
          address_assignment := assignment1
          bio := slices.2
          mMgr := mgr }
      if st2.bio.size = 0 then .ok (.done st2) else .ok (.next st2)

/-- The body of the loop over the DNC mergers in `insertInput`. -/
def insertInput_body (P : InputPlacement R) (target_hicann : HICANNOnWafer)
    (dnc : DNCMergerOnHICANN) (st : InsertState R) :
    Except PlacementError (LoopControl (InsertState R)) :=
  if st.address_assignment.mode dnc = Mode.output then .ok (.next st)
  else
    let pool := st.address_assignment.available_addresses dnc
    let left_space := pool.size
    if left_space = 0 then .ok (.next st)
    else
      let bg_block : NeuronBlockOnHICANN := dnc
      if P.merger_mapping target_hicann bg_block ≠ dnc then .ok (.next st)
      else if ¬ (find_neuron_block st.neuron_placement ⟨bg_block, target_hicann⟩).isEmpty then
        .ok (.next st)
      else
        match P.insertInput_rate target_hicann (Nat.min st.bio.size left_space) st with
        | none => .ok (.done st)
        | some (neuron_count, st1) => P.insertInput_place target_hicann dnc neuron_count st1

/-- The loop over the DNC mergers in `insertInput`. -/
def insertInput_loop (P : InputPlacement R) (target_hicann : HICANNOnWafer) :
    List DNCMergerOnHICANN → InsertState R → Except PlacementError (InsertState R)
  | [], st => .ok st
  | dnc :: rest, st =>
      match insertInput_body P target_hicann dnc st with
      | .error e => .error e
      | .ok (.done st1) => .ok st1
      | .ok (.next st1) => insertInput_loop P target_hicann rest st1

/-- Method `insertInput(target_hicann, neuron_placement, address_assignment, bio)`:
the DNC mergers are tried in the order 7, 6, ..., 0. -/
def insertInput (P : InputPlacement R) (target_hicann : HICANNOnWafer) (st : InsertState R) :
    Except PlacementError (InsertState R) :=
  insertInput_loop P target_hicann [7, 6, 5, 4, 3, 2, 1, 0] st

end InputPlacement

end placement

/-! ## Merger routing and the placement state of the wafer -/

namespace placement

/-- The enumeration `pymarocco::Routing::MergerTreeStrategy`. -/
inductive MergerTreeStrategy where
  | minSPL1
  | maxSPL1
deriving DecidableEq, Repr

/-- An assignment of a population slice to a neuron block, as
`MergerRouting::run` reads it: the slice and the hardware neuron size. -/
structure NeuronPlacement where
  population_slice : PopulationSlice
  neuron_size : Nat
deriving DecidableEq, Repr

/-- What `MergerRouting` reads: the strategies, and the result of the merger tree
router (not among the sources), a list of pairs (neuron block, DNC merger) in
the order of iteration. -/
structure MergerRouting where
  merger_tree_strategy : MergerTreeStrategy
  l1_address_assignment : Strategy
  merger_tree_result :
    HICANNOnWafer → (NeuronBlockOnHICANN → List NeuronPlacement) →
      List (NeuronBlockOnHICANN × DNCMergerOnHICANN)

/-- Modelled from the spec: `popAddresses(dnc, n, strategy)` of the output
mapping (not among the sources) draws `n` addresses from the pool of `dnc`, one
after the other. -/
def popAddresses (dnc : DNCMergerOnHICANN) (strategy : Strategy) :
    Nat → L1AddressAssignment → Except PlacementError (List Nat × L1AddressAssignment)
  | 0, assignment => .ok ([], assignment)
  | n + 1, assignment =>
      match (assignment.available_addresses dnc).pop strategy with
      | .error e => .error e
      | .ok (address, pool) =>
          match popAddresses dnc strategy n (assignment.set_available_addresses dnc pool) with
          | .error e => .error e
          | .ok (rest, assignment1) => .ok (address :: rest, assignment1)

/-- Modelled from the spec: `insert(dnc, AddressMapping(bio, addresses))` of the
output mapping (not among the sources): the neuron at position `k` of the slice
is annotated with the address at position `k`; one placement item per
address, starting at position `k`. -/
def insert_address_mapping (hicann : HICANNOnWafer) (nb : NeuronBlockOnHICANN)
    (dnc : DNCMergerOnHICANN) (bio : PopulationSlice) :
    List Nat → Nat → List PlacementItem → List PlacementItem
  | [], _, neuron_placement => neuron_placement
  | address :: rest, k, neuron_placement =>
      insert_address_mapping hicann nb dnc bio rest (k + 1)
        (add_with_address neuron_placement ⟨bio.population, bio.offset + k⟩
          (.on_chip ⟨nb, hicann⟩ (bio.offset + k)) ⟨⟨dnc, hicann⟩, address⟩)

namespace MergerRouting

/-- The loop over the populations assigned to a neuron block in
`MergerRouting::run`; the writes to the hardware neurons are not modelled. -/
def run_populations (M : MergerRouting) (hicann : HICANNOnWafer) (nb : NeuronBlockOnHICANN)
    (dnc : DNCMergerOnHICANN) :
    List NeuronPlacement → List PlacementItem → L1AddressAssignment →
      Except PlacementError (List PlacementItem × L1AddressAssignment)
  | [], neuron_placement, assignment => .ok (neuron_placement, assignment)
  | assign :: rest, neuron_placement, assignment =>
      let bio := assign.population_slice
      match popAddresses dnc M.l1_address_assignment bio.size assignment with
      | .error e => .error e
      | .ok (addresses, assignment1) =>
          run_populations M hicann nb dnc rest
            (insert_address_mapping hicann nb dnc bio addresses 0 neuron_placement) assignment1

/-- The loop over the mapped neuron blocks in `MergerRouting::run`. -/
def run_mapping (M : MergerRouting) (hicann : HICANNOnWafer)
    (nbmap : NeuronBlockOnHICANN → List NeuronPlacement) :
    List (NeuronBlockOnHICANN × DNCMergerOnHICANN) → List PlacementItem →
      L1AddressAssignment → Except PlacementError (List PlacementItem × L1AddressAssignment)
  | [], neuron_placement, assignment => .ok (neuron_placement, assignment)
  | (nb, dnc) :: rest, neuron_placement, assignment =>
      match run_populations M hicann nb dnc (nbmap nb) neuron_placement
          (assignment.set_mode dnc Mode.output) with
      | .error e => .error e
      | .ok (neuron_placement1, assignment1) =>
          run_mapping M hicann nbmap rest neuron_placement1 assignment1

/-- The merger mapping chosen by the strategy switch of `MergerRouting::run`. -/
def chosen_mapping (M : MergerRouting) (hicann : HICANNOnWafer)
    (nbmap : NeuronBlockOnHICANN → List NeuronPlacement) :
    List (NeuronBlockOnHICANN × DNCMergerOnHICANN) :=
  match M.merger_tree_strategy with
  | .minSPL1 => M.merger_tree_result hicann nbmap
  | .maxSPL1 => [(0, 0), (1, 1), (2, 2), (3, 3), (4, 4), (5, 5), (6, 6)]

/-- Method `MergerRouting::run(hicann, nbmap, local_output_mapping)`. -/
def run (M : MergerRouting) (hicann : HICANNOnWafer)
    (nbmap : NeuronBlockOnHICANN → List NeuronPlacement)
    (neuron_placement : List PlacementItem) (assignment : L1AddressAssignment) :
    Except PlacementError (List PlacementItem × L1AddressAssignment) :=
  run_mapping M hicann nbmap (M.chosen_mapping hicann nbmap) neuron_placement assignment

end MergerRouting

/-- The placement state of the wafer: the placement, the address assignment of
every chip, the allocated rates and the resource manager. -/
structure WaferState (R : Type) where
  neuron_placement : List PlacementItem
  address_assignment : HICANNOnWafer → L1AddressAssignment
  mUsedRateHICANN : HICANNOnWafer → R
  mUsedRateFPGA : Nat → R
  mMgr : ResourceManager

namespace WaferState

variable {R : Type}

/-- Merger routing of one chip on the wafer state. -/
def merger_routing (M : MergerRouting) (hicann : HICANNOnWafer)
    (nbmap : NeuronBlockOnHICANN → List NeuronPlacement) (w : WaferState R) :
    Except PlacementError (WaferState R) :=
  match M.run hicann nbmap w.neuron_placement (w.address_assignment hicann) with
  | .error e => .error e
  | .ok (neuron_placement, assignment) =>
      .ok { w with
            neuron_placement := neuron_placement
            address_assignment := Function.update w.address_assignment hicann assignment }

/-- The call `insertInput(target_hicann, neuron_placement,
address_assignment[target_hicann], bio)` on the wafer state: the state and the
slice afterwards. -/
def insertInput (P : InputPlacement R) (target_hicann : HICANNOnWafer) (bio : PopulationSlice)
    (w : WaferState R) : Except PlacementError (WaferState R × PopulationSlice) :=
  match P.insertInput target_hicann
      ⟨w.neuron_placement, w.address_assignment target_hicann, bio, w.mUsedRateHICANN,
        w.mUsedRateFPGA, w.mMgr⟩ with
  | .error e => .error e
  | .ok st =>
      .ok (⟨st.neuron_placement,
            Function.update w.address_assignment target_hicann st.address_assignment,
            st.mUsedRateHICANN, st.mUsedRateFPGA, st.mMgr⟩, st.bio)

/-- The wafer states that merger routing and input placement produce: at the
start no item carries an address, every chip has a new address assignment and no
rate is allocated; then merger routing of a chip and `insertInput` are applied
in any order. -/
inductive Placed (P : InputPlacement R) (M : MergerRouting) : WaferState R → Prop
  | start (neuron_placement : List PlacementItem) (mgr : ResourceManager) :
      (∀ item ∈ neuron_placement, item.address = none) →
      Placed P M ⟨neuron_placement, fun _ => L1AddressAssignment.init,
        fun _ => P.arith.ofNat 0, fun _ => P.arith.ofNat 0, mgr⟩
  | merger_routing (w w1 : WaferState R) (hicann : HICANNOnWafer)
      (nbmap : NeuronBlockOnHICANN → List NeuronPlacement) :
      Placed P M w → w.merger_routing M hicann nbmap = .ok w1 → Placed P M w1
  | insert_input (w w1 : WaferState R) (target_hicann : HICANNOnWafer)
      (bio bio1 : PopulationSlice) :
      Placed P M w → w.insertInput P target_hicann bio = .ok (w1, bio1) → Placed P M w1

end WaferState

end placement

/-! ## Invariants of address assignment -/

namespace placement

/-- The placement `p1` and assignment `a1` arise from `p` and `a` by handing out
addresses of chip `hicann`: on other chips no item changed, and on every DNC
merger of the chip the addresses carried by items together with the pool are
the same as before, up to order. -/
def handed_out (hicann : HICANNOnWafer) (p : List PlacementItem) (a : L1AddressAssignment)
    (p1 : List PlacementItem) (a1 : L1AddressAssignment) : Prop :=
  (∀ h1 d, h1 ≠ hicann → addresses_on p1 h1 d = addresses_on p h1 d) ∧
  (∀ d, (addresses_on p1 hicann d ++ (a1.m_address_pools d).addresses).Perm
    (addresses_on p hicann d ++ (a.m_address_pools d).addresses))

/-- On every DNC merger of the wafer, the addresses carried by items and the
addresses left in the pool are pairwise different and lie between 1 and 63. -/
def addresses_consistent {R : Type} (w : WaferState R) : Prop :=
  ∀ h d,
    (addresses_on w.neuron_placement h d ++ ((w.address_assignment h).m_address_pools d).addresses).Nodup ∧
    ∀ x ∈ addresses_on w.neuron_placement h d ++
        ((w.address_assignment h).m_address_pools d).addresses, 1 ≤ x ∧ x ≤ 63

end placement

/-! ## A small placement run used to evaluate the definitions -/

namespace placement

/-- Rate arithmetic on natural numbers, for evaluating examples. -/
def natRateOps : RateOps Nat where
  ofNat := fun n => n
  add := fun a b => a + b
  sub := fun a b => a - b
  mul := fun a b => a * b
  lt := fun a b => decide (a < b)

/-- Input placement without bandwidth check, sequential addresses and no
merger-routing entries. -/
def sampleInputPlacement : InputPlacement Nat where
  arith := natRateOps
  consider_firing_rate := false
  bandwidth_utilization := 1
  strategy := Strategy.sequential
  m_merger_routing := fun _ => none
  toFPGAOnWafer := fun h => h.x
  firing_rate := fun _ _ => 10
  population_id := fun p => p

/-- Merger routing with the one-to-one strategy and sequential addresses. -/
def sampleMergerRouting : MergerRouting where
  merger_tree_strategy := MergerTreeStrategy.maxSPL1
  l1_address_assignment := Strategy.sequential
  merger_tree_result := fun _ _ => []

/-- The wafer before placement: no item, chip (0,0) present. -/
def sampleStart : WaferState Nat :=
  ⟨[], fun _ => L1AddressAssignment.init, fun _ => natRateOps.ofNat 0,
    fun _ => natRateOps.ofNat 0, ⟨[⟨0, 0⟩], []⟩⟩

/-- The wafer after a source population of two neurons was inserted on chip
(0,0). -/
def sampleInserted : WaferState Nat :=
  match sampleStart.insertInput sampleInputPlacement ⟨0, 0⟩ ⟨0, 0, 2⟩ with
  | .ok (w, _) => w
  | .error _ => sampleStart

end placement

/-! ## Bandwidth -/

namespace placement

/-- Exact rational arithmetic for `rate_type`. On integers below 2^53 the
additions, subtractions and comparisons of `double` are exact and are these;
elsewhere `double` rounds and this arithmetic does not. -/
def ratRateOps : RateOps ℚ where
  ofNat := fun n => (n : ℚ)
  add := fun a b => a + b
  sub := fun a b => a - b
  mul := fun a b => a * b
  lt := fun a b => decide (a < b)

/-- The allocated rate of every chip is at most `u * 1.78e7` and that of every
FPGA at most `u * 1.25e8`, where `u` is `bandwidth_utilization`. -/
def rates_within (P : InputPlacement ℚ) (usedHICANN : HICANNOnWafer → ℚ)
    (usedFPGA : Nat → ℚ) : Prop :=
  (∀ h, usedHICANN h ≤ P.bandwidth_utilization * 17800000) ∧
  (∀ f, usedFPGA f ≤ P.bandwidth_utilization * 125000000)

/-- Bandwidth-aware input placement in exact arithmetic: utilization one half,
10 Hz per neuron, sequential addresses, no merger-routing entries. -/
def sampleRatedPlacement : InputPlacement ℚ where
  arith := ratRateOps
  consider_firing_rate := true
  bandwidth_utilization := 1 / 2
  strategy := Strategy.sequential
  m_merger_routing := fun _ => none
  toFPGAOnWafer := fun h => h.x
  firing_rate := fun _ _ => 10
  population_id := fun p => p

/-- The wafer before bandwidth-aware placement: no item, chip (0,0) present,
no rate allocated. -/
def sampleRatedStart : WaferState ℚ :=
  ⟨[], fun _ => L1AddressAssignment.init, fun _ => ratRateOps.ofNat 0,
    fun _ => ratRateOps.ofNat 0, ⟨[⟨0, 0⟩], []⟩⟩

end placement

/-- A concrete topology with a sparse crossbar, used to evaluate the definitions
on examples: as `sampleTopology`, except that the crossbar switch between a
VLine `v` and an HLine `h` exists only when `v mod 32 = h div 2`. -/
def sparseTopology : Topology where
  east := fun h => h + 2
  west := fun h => h - 2
  south := fun v => v + 2
  north := fun v => v - 2
  toSendingRepeaterHLine := fun d => ⟨8 * d.val + 6, by omega⟩
  crossbar_exists := fun v h => decide (v.val % 32 = h.val / 2)
  toSynapseSwitchRowY := fun d => d.y
  synapse_switch_exists := fun _ _ => true

/-- The route of seed scenario 5: from chip (0,0) on HLine `h` east to chip (1,0),
there onto VLine `v` and to synapse driver `d`. -/
def scenario5_route (T : Topology) (h : HLineOnHICANN) (v : VLineOnHICANN)
    (d : SynapseDriverOnHICANN) : List segment_type :=
  [.HICANNOnWafer ⟨0, 0⟩, .HLineOnHICANN h, .HICANNOnWafer ⟨1, 0⟩, .HLineOnHICANN (T.east h),
    .VLineOnHICANN v, .SynapseDriverOnHICANN d]

/-! ## Gbit links -/

namespace placement

/-- The enumeration `HMF::HICANN::GbitLink::Direction`. -/
inductive Direction where
  | OFF
  | TO_HICANN
  | TO_DNC
deriving DecidableEq, Repr

/-- The configurations of a merger: `LEFT_ONLY`, `RIGHT_ONLY`, `MERGE`. -/
inductive MergerConfig where
  | LEFT_ONLY
  | RIGHT_ONLY
  | MERGE
deriving DecidableEq, Repr

/-- A merger of the hardware description (`HMF::HICANN::Merger` and
`HMF::HICANN::DNCMerger`): its configuration and the slow flag. -/
structure Merger where
  config : MergerConfig
  slow : Bool
deriving DecidableEq, Repr

/-- Assigning a configuration constant to a merger: the merger built from the
constant, with the slow flag off. -/
def Merger.of_config (config : MergerConfig) : Merger := ⟨config, false⟩

/-- The part of `chip.layer1` that `configureGbitLinks` writes: the directions
of the gbit links, the DNC mergers and the first layer of the merger tree. -/
structure Layer1 where
  gbit_link : GbitLinkOnHICANN → Direction
  dnc_merger : DNCMergerOnHICANN → Merger
  merger0 : Merger0OnHICANN → Merger

/-- The body of the loop over the DNC mergers in `configureGbitLinks`. The three
branches cover the enumeration `Mode`, so the final `throw` is not reached. -/
def configureGbitLinks_body (address_assignment : L1AddressAssignment)
    (dnc : DNCMergerOnHICANN) (layer1 : Layer1) : Layer1 :=
  let gbit_link : GbitLinkOnHICANN := dnc
  match address_assignment.mode dnc with
  | Mode.output =>
      { layer1 with
        gbit_link := Function.update layer1.gbit_link gbit_link Direction.TO_DNC
        dnc_merger :=
          Function.update layer1.dnc_merger dnc
            { Merger.of_config MergerConfig.MERGE with slow := true } }
  | Mode.input =>
      let m : Merger0OnHICANN := dnc
      { gbit_link := Function.update layer1.gbit_link gbit_link Direction.TO_HICANN
        merger0 := Function.update layer1.merger0 m (Merger.of_config MergerConfig.LEFT_ONLY)
        dnc_merger :=
          Function.update layer1.dnc_merger dnc
            { Merger.of_config MergerConfig.MERGE with slow := true } }
  | Mode.unused =>
      { layer1 with
        gbit_link := Function.update layer1.gbit_link gbit_link Direction.TO_HICANN
        dnc_merger :=
          Function.update layer1.dnc_merger dnc
            { Merger.of_config MergerConfig.LEFT_ONLY with slow := false } }

/-- The loop of `configureGbitLinks` over a list of DNC mergers. -/
def configureGbitLinks_loop (address_assignment : L1AddressAssignment) :
    List DNCMergerOnHICANN → Layer1 → Layer1
  | [], layer1 => layer1
  | dnc :: rest, layer1 =>
      configureGbitLinks_loop address_assignment rest
        (configureGbitLinks_body address_assignment dnc layer1)

/-- Method `configureGbitLinks(hicann, address_assignment)` on the layer-1
configuration of the chip: all DNC mergers in ascending order. -/
def configureGbitLinks (address_assignment : L1AddressAssignment) (layer1 : Layer1) : Layer1 :=
  configureGbitLinks_loop address_assignment (List.finRange 8) layer1

end placement

/-! ## Unused mergers -/

namespace placement

/-- The assignment `a1` arose from `a` without touching an unused merger: every
merger that is in mode unused in `a1` was so in `a` and has the pool it had. -/
def unused_kept (a a1 : L1AddressAssignment) : Prop :=
  ∀ d, a1.mode d = Mode.unused →
    a.mode d = Mode.unused ∧ a1.available_addresses d = a.available_addresses d

end placement

namespace placement

/-- A neuron placement with one neuron of hardware size 4 on neuron block 7 and
nothing on the other blocks. -/
def sampleBlock7 : NeuronBlockOnHICANN → List NeuronPlacement :=
  fun nb => if nb = 7 then [⟨⟨0, 0, 1⟩, 4⟩] else []

/-- A neuron placement with one neuron of hardware size 4 on neuron block 2 and
nothing on the other blocks. -/
def sampleBlock2 : NeuronBlockOnHICANN → List NeuronPlacement :=
  fun nb => if nb = 2 then [⟨⟨0, 0, 1⟩, 4⟩] else []

end placement

/-! ## Eligible mergers -/

namespace placement

/-- DNC merger `n` of the target chip can take external input in state `st`: it
is not in mode output, its pool is not empty, and the merger mapping of the chip
sends neuron block `n` to DNC merger `n`. -/
def eligible {R : Type} (P : InputPlacement R) (target_hicann : HICANNOnWafer)
    (st : InsertState R) (n : DNCMergerOnHICANN) : Prop :=
  st.address_assignment.mode n ≠ Mode.output ∧
  (st.address_assignment.available_addresses n).size ≠ 0 ∧
  P.merger_mapping target_hicann n = n

/-- The state in which `insertInput` is called for a slice of two neurons on a
wafer without placement. -/
def sampleInsertStart : InsertState Nat :=
  ⟨[], L1AddressAssignment.init, ⟨0, 0, 2⟩, fun _ => 0, fun _ => 0, ⟨[⟨0, 0⟩], []⟩⟩

/-- The state after that call of `insertInput` on chip (0,0). -/
def sampleInsertDone : InsertState Nat :=
  match sampleInputPlacement.insertInput ⟨0, 0⟩ sampleInsertStart with
  | .ok st => st
  | .error _ => sampleInsertStart

end placement


/-! ## Manual placement of external input -/

namespace placement

/-- The `locations` of a manual placement entry, a variant: a list of chips, or
another alternative (the declaration of the variant is not among the sources). -/
inductive Locations where
  | hicanns (locations : List HICANNOnWafer)
  | other
deriving DecidableEq, Repr

/-- How the manual branch of `InputPlacement::run` fails: with an error raised
inside `insertInput`, with `std::runtime_error("out of resources for manually
placed external inputs")`, or with `std::runtime_error("manual placement of
external input only implemented for non-empty list of HICANNOnWafer
coordinates.")`. -/
inductive RunError where
  | insert_input (e : PlacementError)
  | out_of_resources
  | not_implemented
deriving DecidableEq, Repr

namespace InputPlacement

variable {R : Type}

/-- The loop `for (auto const& target_hicann : *locations)` of `run`: the slice
`bio` is passed on from one call of `insertInput` to the next. -/
def run_manual_loop (P : InputPlacement R) :
    List HICANNOnWafer → PopulationSlice → WaferState R →
      Except PlacementError (WaferState R × PopulationSlice)
  | [], bio, w => .ok (w, bio)
  | target_hicann :: rest, bio, w =>
      match w.insertInput P target_hicann bio with
      | .error e => .error e
      | .ok (w1, bio1) => run_manual_loop P rest bio1 w1

/-- The branch of `run` for a source population with a manual placement
entry. -/
def run_manual (P : InputPlacement R) (locations : Locations) (bio : PopulationSlice)
    (w : WaferState R) : Except RunError (WaferState R) :=
  match locations with
  | .hicanns l =>
      if l ≠ [] then
        match P.run_manual_loop l bio w with
        | .error e => .error (.insert_input e)
        | .ok (w1, bio1) =>
            if bio1.size ≠ 0 then .error .out_of_resources else .ok w1
      else .error .not_implemented
  | .other => .error .not_implemented

end InputPlacement

end placement


namespace placement

/-- A wafer on which every DNC merger of every chip is in mode output. -/
def sampleAllOutput : WaferState Nat :=
  ⟨[], fun _ => ⟨fun _ => Mode.output, fun _ => L1AddressPool.full⟩,
    fun _ => natRateOps.ofNat 0, fun _ => natRateOps.ofNat 0, ⟨[⟨0, 0⟩], []⟩⟩

end placement


/-! ## Seed scenario 4: manual placement on two chips -/

namespace placement

/-- The neuron indices of the placement items that carry an address of one DNC
merger of one chip, in the order of the items. -/
def neurons_on (neuron_placement : List PlacementItem) (hicann : HICANNOnWafer)
    (dnc : DNCMergerOnHICANN) : List Nat :=
  neuron_placement.filterMap fun item =>
    match item.address with
    | some a => if a.merger = ⟨dnc, hicann⟩ then some item.bio_neuron.neuron_index else none
    | none => none

/-- The wafer of scenario 4 before placement: no item, chips (0,0) and (1,0)
present, every pool new, no merger in mode output. -/
def scenario4_start : WaferState Nat :=
  ⟨[], fun _ => L1AddressAssignment.init, fun _ => natRateOps.ofNat 0,
    fun _ => natRateOps.ofNat 0, ⟨[⟨0, 0⟩, ⟨1, 0⟩], []⟩⟩

/-- The manual chip list of scenario 4. -/
def scenario4_chips : List HICANNOnWafer := [⟨0, 0⟩, ⟨1, 0⟩]

/-- The placement of scenario 4 for a source population of `n` neurons, without
bandwidth check; the placement before the run if the run fails. -/
def scenario4_placement (n : Nat) : List PlacementItem :=
  match sampleInputPlacement.run_manual (.hicanns scenario4_chips) ⟨0, 0, n⟩
      scenario4_start with
  | .ok w => w.neuron_placement
  | .error _ => scenario4_start.neuron_placement

end placement


/-! ## Shared neuron parameters -/

namespace parameter

/-- Conversion of a `double` to `int`: the fractional part is discarded
(truncation toward zero); the behaviour is undefined when the result does not
fit into 32 bits. Values of type `double` are taken as exact rationals. -/
def double_to_int (x : ℚ) : Option Int :=
  let t : Int := if 0 ≤ x then Int.floor x else Int.ceil x
  if -2147483648 ≤ t ∧ t ≤ 2147483647 then some t else none

/-- The call `std::accumulate(vals.begin(), vals.end(), 0)`: the accumulator has
the type of the initial value `0`, which is `int`, so each step computes
`init + x` as a `double` and converts it back to `int`. -/
def accumulate : List ℚ → Int → Option Int
  | [], init => some init
  | x :: rest, init =>
      match double_to_int ((init : ℚ) + x) with
      | none => none
      | some init1 => accumulate rest init1

/-- Conversion of an `int` to `size_t` (64 bits, unsigned). -/
def int_to_size_t (n : Int) : Nat := (n % 18446744073709551616).toNat

/-- Method `NeuronSharedParameterRequirements::get_mean_v_reset(g)` on the
values `vals` recorded for the block `g`: the `int` sum is converted to `size_t`
for the division by `vals.size()`, an unsigned integer division, and the
quotient is returned as a `double` (that last conversion is taken as exact).
The behaviour is undefined for an empty list (division by zero). -/
def get_mean_v_reset (vals : List ℚ) : Option ℚ :=
  match accumulate vals 0 with
  | none => none
  | some sum =>
      if vals.length = 0 then none
      else some ((int_to_size_t sum / vals.length : Nat) : ℚ)

/-- The arithmetic mean of the specification: the exact sum divided by the
count. -/
def arithmetic_mean (vals : List ℚ) : ℚ := vals.sum / vals.length

end parameter


/-! ## Weight scale -/

namespace parameter

open placement

/-- Coordinate `NeuronOnHICANN`: a denmem, column `x` in the top (`y = 0`) or
bottom (`y = 1`) half of the chip. -/
structure NeuronOnHICANN where
  x : Fin 256
  y : Fin 2
deriving DecidableEq, Repr

/-- What `HICANNParameters::weight_scale_array` reads besides the placement:
the chip, the speedup, the two capacitances of `HMF::NeuronCalibration`, the
big-capacitor setting of the two halves of the chip, the cell capacitance the
visitor extracts for a neuron of a population, and the denmems of a logical
neuron in the order of iteration (the declarations of the last two are not
among the sources). Values of type `double` are taken as exact rationals. -/
structure HICANNParameters where
  m_chip : HICANNOnWafer
  speedup : ℚ
  big_cap : ℚ
  small_cap : ℚ
  use_bigcap : Fin 2 → Bool
  cm_bio : Nat → Nat → ℚ
  denmems : LogicalNeuron → List NeuronOnHICANN

/-- Modelled from the spec: `results::Placement::find(HICANNOnWafer)`, the items
whose logical neuron is placed on a neuron block of the chip. -/
def find_hicann (neuron_placement : List PlacementItem) (hicann : HICANNOnWafer) :
    List PlacementItem :=
  neuron_placement.filter fun item =>
    match item.neuron_block with
    | some block => decide (block.hicann = hicann)
    | none => false

namespace HICANNParameters

/-- The capacitance of one denmem: `use_bigcap[nrn.y()] ? big_cap : small_cap`. -/
def cap (H : HICANNParameters) (nrn : NeuronOnHICANN) : ℚ :=
  if H.use_bigcap nrn.y then H.big_cap else H.small_cap

/-- The sum `cm_hw` over the denmems of the logical neuron of an item, as the
inner loop computes it. -/
def cm_hw (H : HICANNParameters) (item : PlacementItem) : ℚ :=
  (H.denmems item.logical_neuron).foldl (fun acc nrn => acc + H.cap nrn) 0

/-- The value `scale` of an item. -/
def scale (H : HICANNParameters) (item : PlacementItem) : ℚ :=
  H.speedup * H.cm_hw item
    / H.cm_bio item.bio_neuron.population item.bio_neuron.neuron_index

/-- One pass through the loop over the items: `rv[cnrn] = scale` for every
connected denmem. -/
def weight_scale_item (H : HICANNParameters) (rv : NeuronOnHICANN → ℚ)
    (item : PlacementItem) : NeuronOnHICANN → ℚ :=
  (H.denmems item.logical_neuron).foldl
    (fun rv1 cnrn => Function.update rv1 cnrn (H.scale item)) rv

/-- Method `weight_scale_array(neuron_placement)`: all values start at 0. -/
def weight_scale_array (H : HICANNParameters) (neuron_placement : List PlacementItem) :
    NeuronOnHICANN → ℚ :=
  (find_hicann neuron_placement H.m_chip).foldl H.weight_scale_item fun _ => 0

end HICANNParameters

/-- No denmem belongs to the logical neurons of two items of the list. -/
def denmems_disjoint (H : HICANNParameters) (items : List PlacementItem) : Prop :=
  items.Pairwise fun i j =>
    ∀ nrn ∈ H.denmems i.logical_neuron, nrn ∉ H.denmems j.logical_neuron

/-- A chip with small capacitors and speedup 10000: the logical neuron at
position `p` of a block consists of the four denmems `4 p, ..., 4 p + 3` of the
top half. -/
def sampleParameters : HICANNParameters where
  m_chip := ⟨0, 0⟩
  speedup := 10000
  big_cap := 2
  small_cap := 1
  use_bigcap := fun _ => false
  cm_bio := fun _ _ => 1
  denmems := fun l =>
    match l with
    | .on_chip _ p =>
        [⟨Fin.ofNat (4 * p), 0⟩, ⟨Fin.ofNat (4 * p + 1), 0⟩, ⟨Fin.ofNat (4 * p + 2), 0⟩,
          ⟨Fin.ofNat (4 * p + 3), 0⟩]
    | .external _ _ => []

/-- Two neurons of population 0 placed on neuron block 0 of chip (0,0). -/
def sampleOnChip : List PlacementItem :=
  [⟨⟨0, 0⟩, .on_chip ⟨0, ⟨0, 0⟩⟩ 0, none⟩, ⟨⟨0, 1⟩, .on_chip ⟨0, ⟨0, 0⟩⟩ 1, none⟩]

end parameter


namespace parameter

end parameter


/-! ## Parameter transformation of one chip: calibration -/

namespace parameter

open placement

/-- The enumeration `PyMarocco::Backend`. -/
inductive Backend where
  | None
  | Hardware
  | ESS
deriving DecidableEq, Repr

/-- The enumeration `PyMarocco::CalibBackend`; `other` stands for any further
value, which the `switch` statements send to their `default` label. -/
inductive CalibBackend where
  | XML
  | Default
  | other
deriving DecidableEq, Repr

/-- The members of `PyMarocco` that `HICANNParameters::run` reads before the
calibration is used. -/
structure PyMarocco where
  backend : Backend
  calib_backend : CalibBackend
  calib_path : String
  bkg_gen_isi : Nat
deriving DecidableEq, Repr

/-- Constructor `PyMarocco()`. -/
def PyMarocco.init : PyMarocco := ⟨Backend.None, CalibBackend.Default, "", 500⟩

/-- How obtaining the calibration fails; every case is a `std::runtime_error`
in the code, except `load_failed`, which stands for whatever the calibration
library throws when the file is missing or cannot be parsed. -/
inductive CalibrationError where
  | ess_with_calib_backend
  | unknown_calibration_backend
  | unknown_backend_type
  | unable_to_load_backend
  | colliding_settings
  | load_failed
deriving DecidableEq, Repr

/-- The calibration library and the process environment, as far as
`getCalibrationData` and `getCalibticBackend` use them (they are outside the
repository): the value of the environment variable `MAROCCO_CALIB_PATH`,
whether `loadBackend` returns a backend, what `backend->load` yields for a
search path and a file name (nothing when it throws), and the default
calibration. -/
structure Calibtic (Calib : Type) where
  getenv_MAROCCO_CALIB_PATH : Option String
  loadBackend : Bool
  load : String → String → Option Calib
  setDefaults : Calib

/-- Method `getCalibticBackend()`: the search path the backend is configured
with. -/
def getCalibticBackend {Calib : Type} (m_pymarocco : PyMarocco) (lib : Calibtic Calib) :
    Except CalibrationError String :=
  match m_pymarocco.calib_backend with
  | .XML =>
      if !lib.loadBackend then .error .unable_to_load_backend
      else
        match lib.getenv_MAROCCO_CALIB_PATH with
        | some env =>
            if !m_pymarocco.calib_path.isEmpty then .error .colliding_settings
            else .ok env
        | none => .ok m_pymarocco.calib_path
  | _ => .error .unknown_backend_type

/-- Method `getCalibrationData()`; `calib_file_string` is the file name built
from the wafer and the chip. The comparison of the PLL frequencies only logs a
warning. -/
def getCalibrationData {Calib : Type} (m_pymarocco : PyMarocco) (lib : Calibtic Calib)
    (calib_file_string : String) : Except CalibrationError Calib :=
  if m_pymarocco.backend = Backend.ESS ∧ m_pymarocco.calib_backend ≠ CalibBackend.Default then
    .error .ess_with_calib_backend
  else
    match m_pymarocco.calib_backend with
    | .XML =>
        match getCalibticBackend m_pymarocco lib with
        | .error e => .error e
        | .ok path =>
            match lib.load path calib_file_string with
            | none => .error .load_failed
            | some calib => .ok calib
    | .Default => .ok lib.setDefaults
    | .other => .error .unknown_calibration_backend

/-- The type `HMF::HICANN::BackgroundGenerator`, as far as it is set here. -/
structure BackgroundGenerator where
  enable : Bool
  seed : Nat
  address : Nat
  random : Bool
  isi : Nat
deriving DecidableEq, Repr

/-- What `run` writes: the eight background generators of the chip descriptor
`m_chip`, and every other setting in `other`: the spike lists `m_spikes` and the
neuron, floating-gate and synapse settings of the chip. -/
structure RunState (D : Type) where
  layer1 : Fin 8 → BackgroundGenerator
  other : D

/-- Method `background_generators(isi)`: all background generators are enabled
with seed 0, address 0 and a fixed period. -/
def background_generators {D : Type} (isi : Nat) (s : RunState D) : RunState D :=
  (List.finRange 8).foldl
    (fun s1 addr => { s1 with layer1 := Function.update s1.layer1 addr ⟨true, 0, 0, false, isi⟩ })
    s

/-- Modelled from the spec: `results::Placement::find(DNCMergerOnWafer)`, the
items whose address is on the DNC merger. -/
def find_dnc_merger (neuron_placement : List PlacementItem) (merger : DNCMergerOnWafer) :
    List PlacementItem :=
  neuron_placement.filter fun item =>
    match item.address with
    | some a => decide (a.merger = merger)
    | none => false

/-- What `run` calls and reads besides the calibration: whether a population
is a source, the function `transform_input_spikes` (outside the repository;
it gets the population, the L1 address, the neuron index and the DNC merger
whose spike list the visitor writes), the flags `local_neurons` and
`local_routes`, and the three stages that use the calibration, `neurons`
(which returns the shared reset voltage), `synapses` and `shared_parameters`,
taken as functions on the state. -/
structure Stages (D Calib : Type) where
  m_chip_index : HICANNOnWafer
  is_source : Nat → Bool
  transform_input_spikes : Nat → Nat → Nat → DNCMergerOnHICANN → RunState D → RunState D
  local_neurons : Bool
  local_routes : Bool
  neurons : Calib → RunState D → RunState D × ℚ
  synapses : Calib → RunState D → RunState D
  shared_parameters : Calib → ℚ → RunState D → RunState D

end parameter


namespace parameter

open placement

/-- The class `pymarocco::ParamTrafo`; values of type `double` are taken as
exact rationals. -/
structure ParamTrafo where
  use_big_capacitors : Bool
  alpha_v : ℚ
  shift_v : ℚ

/-- Constructor `ParamTrafo()`. -/
def ParamTrafo.init : ParamTrafo := ⟨false, 10, 1200⟩

/-- The argument that `run` hands to `shared_parameters`: the reset voltage
in mV is scaled with `alpha_v`, converted to Volt and shifted,
`v_reset * alpha_v * mV_to_V + shift_v` with `mV_to_V = 1/1000.`. -/
def shared_v_reset (param_trafo : ParamTrafo) (v_reset : ℚ) : ℚ :=
  let mV_to_V : ℚ := 1 / 1000
  v_reset * param_trafo.alpha_v * mV_to_V + param_trafo.shift_v

/-- Method `spike_input(neuron_placement)`: for every DNC merger, the input
spikes of every source item found on the merger are transformed. -/
def spike_input {D Calib : Type} (T : Stages D Calib) (neuron_placement : List PlacementItem)
    (s : RunState D) : RunState D :=
  (List.finRange 8).foldl
    (fun s1 dnc_merger =>
      (find_dnc_merger neuron_placement ⟨dnc_merger, T.m_chip_index⟩).foldl
        (fun s2 item =>
          if !T.is_source item.bio_neuron.population then s2
          else
            match item.address with
            | none => s2
            | some address =>
                T.transform_input_spikes item.bio_neuron.population address.address
                  item.bio_neuron.neuron_index dnc_merger s2)
        s1)
    s

/-- The part of `run` that uses the calibration. -/
def run_calibrated {D Calib : Type} (T : Stages D Calib) (param_trafo : ParamTrafo)
    (calib : Calib) (s : RunState D) : RunState D :=
  let r : RunState D × ℚ := if T.local_neurons then
      let n := T.neurons calib s
      (if T.local_routes then T.synapses calib n.1 else n.1, n.2)
    else (s, 0)
  if T.local_neurons || T.local_routes then
    T.shared_parameters calib (shared_v_reset param_trafo r.2) r.1
  else r.1

/-- Method `HICANNParameters::run()`: the state it leaves behind, and the error
it raises, if any. Spike input and background generators are configured before
the calibration is obtained. -/
def run {D Calib : Type} (T : Stages D Calib) (m_pymarocco : PyMarocco)
    (param_trafo : ParamTrafo) (lib : Calibtic Calib) (calib_file_string : String)
    (neuron_placement : List PlacementItem) (s : RunState D) :
    Option CalibrationError × RunState D :=
  let s1 := spike_input T neuron_placement s
  let s2 := background_generators m_pymarocco.bkg_gen_isi s1
  match getCalibrationData m_pymarocco lib calib_file_string with
  | .error e => (some e, s2)
  | .ok calib => (none, run_calibrated T param_trafo calib s2)

/-- A chip descriptor whose background generators are all switched off. -/
def sampleChipState : RunState Unit := ⟨fun _ => ⟨false, 0, 0, false, 0⟩, ()⟩

/-- Stages that leave the state as it is, on chip (0,0). -/
def sampleStages : Stages Unit Unit :=
  ⟨⟨0, 0⟩, fun _ => true, fun _ _ _ _ s => s, true, true, fun _ s => (s, 0), fun _ s => s,
    fun _ _ s => s⟩

/-- A calibration library whose backend loads and finds every file; the
environment variable is not set. -/
def sampleCalibtic : Calibtic Unit := ⟨none, true, fun _ _ => some (), ()⟩

/-- The ESS backend combined with the XML calibration backend. -/
def sampleEssXml : PyMarocco := ⟨Backend.ESS, CalibBackend.XML, "", 500⟩

end parameter


namespace parameter

/-- The name of the calibration file of chip 0 on wafer 0. -/
def sampleCalibFile : String := "w0-h0"

/-- The state that `run` leaves behind on the sample chip, without placement,
for the ESS backend combined with the XML calibration backend. -/
def sampleFailedRun : Option CalibrationError × RunState Unit :=
  run sampleStages sampleEssXml ParamTrafo.init sampleCalibtic sampleCalibFile []
    sampleChipState

end parameter


/-! ## Parameters of neuron placement -/

namespace placement

namespace parameters

/-- Exception `std::invalid_argument`. -/
inductive ParameterError where
  | invalid_argument
deriving DecidableEq, Repr

/-- Modelled from the spec: the constant
`HMF::Coordinate::NeuronOnNeuronBlock::enum_type::size` (its declaration is not
among the sources), the number of denmems of a neuron block, 64. -/
def NeuronOnNeuronBlock_size : Nat := 64

/-- Function `check_neuron_size(size)`. -/
def check_neuron_size (size : Nat) : Except ParameterError Unit :=
  if size % 2 ≠ 0 ∨ size > NeuronOnNeuronBlock_size then .error .invalid_argument
  else .ok ()

/-- The class `parameters::NeuronPlacement`. -/
structure NeuronPlacement where
  m_default_neuron_size : Nat
  m_restrict_rightmost_neuron_blocks : Bool
  m_minimize_number_of_sending_repeaters : Bool
deriving DecidableEq, Repr

namespace NeuronPlacement

/-- Constructor `NeuronPlacement()`. -/
def init : NeuronPlacement := ⟨4, false, true⟩

/-- Setter `default_neuron_size(size)`: what it raises, if anything, and the
object afterwards. -/
def set_default_neuron_size (p : NeuronPlacement) (size : Nat) :
    Except ParameterError Unit × NeuronPlacement :=
  match check_neuron_size size with
  | .error e => (.error e, p)
  | .ok _ => (.ok (), { p with m_default_neuron_size := size })

/-- Getter `default_neuron_size()`. -/
def default_neuron_size (p : NeuronPlacement) : Nat := p.m_default_neuron_size

end NeuronPlacement

end parameters

end placement


/-! ## Synapse target mapping -/

namespace routing

open placement parameter

/-- Coordinate `SideHorizontal`. -/
inductive SideHorizontal where
  | left
  | right
deriving DecidableEq, Repr

/-- How `map_targets` and `simple_mapping` fail: the three messages of
`std::runtime_error`, and the undefined behaviour of dereferencing `cbegin()`
of an empty set. -/
inductive MappingError where
  | not_a_connected_block
  | more_time_constants_than_provided
  | more_than_four_targets
  | undefined_behaviour
deriving DecidableEq, Repr

/-- The class `SynapseTargetMapping`: the synapse type of the left and of the
right synaptic input of every denmem. The type `S` of synapse types
(`SynapseType`, outside the repository) is a parameter. -/
def SynapseTargetMapping (S : Type) : Type := NeuronOnHICANN → SideHorizontal → S

namespace SynapseTargetMapping

variable {S : Type}

/-- Constructor: every synapse target is `SynapseType::None`. -/
def init (None : S) : SynapseTargetMapping S := fun _ _ => None

/-- The assignments `target_mapping[nrn][left] = l; target_mapping[nrn][right] = r`. -/
def assign (m : SynapseTargetMapping S) (nrn : NeuronOnHICANN) (l r : S) :
    SynapseTargetMapping S :=
  Function.update m nrn fun side =>
    match side with
    | .left => l
    | .right => r

/-- The columns of the denmems of one half (`y`) among `neurons`. -/
def columns (neurons : List NeuronOnHICANN) (y : Fin 2) : List Nat :=
  (neurons.filter fun nrn => decide (nrn.y = y)).map fun nrn => nrn.x.val

/-- The last loop of `map_targets`: odd columns get the odd targets, even
columns the even ones. -/
def map_targets_assign (target_even_left target_even_right target_odd_left
    target_odd_right : S) (neurons : List NeuronOnHICANN) (m : SynapseTargetMapping S) :
    SynapseTargetMapping S :=
  neurons.foldl
    (fun m1 nrn =>
      if nrn.x.val % 2 ≠ 0 then m1.assign nrn target_odd_left target_odd_right
      else m1.assign nrn target_even_left target_even_right)
    m

/-- The check in `map_targets` that the denmems build a connected block: as
many columns in the top as in the bottom half, the same first and last column,
and no gap. The sets `top_neurons` and `bot_neurons` are read through their size
and the columns of their first and last element; the result is the size of
`top_neurons`. -/
def check_connected_block (neurons : List NeuronOnHICANN) : Except MappingError Nat :=
  let top := columns neurons 0
  let bot := columns neurons 1
  let top_size := top.dedup.length
  if top_size ≠ bot.dedup.length then .error .not_a_connected_block
  else
    match top.min?, bot.min?, top.max?, bot.max? with
    | some top_first, some bot_first, some top_last, some bot_last =>
        if top_first ≠ bot_first ∨ top_last ≠ bot_last ∨
            top_last - top_first ≠ top_size - 1 then
          .error .not_a_connected_block
        else .ok top_size
    | _, _, _, _ => .error .undefined_behaviour

/-- The `switch` over the number of required targets in `map_targets`: the
targets of the even columns (left, right) and of the odd columns (left,
right). -/
def choose_targets (required_targets : List S) : Except MappingError (S × S × S × S) :=
  match required_targets with
  | [t0] => .ok (t0, t0, t0, t0)
  | [t0, t1] => .ok (t0, t1, t0, t1)
  | [t0, t1, t2] => .ok (t0, t1, t0, t2)
  | [t0, t1, t2, t3] => .ok (t0, t1, t2, t3)
  | _ => .error .more_than_four_targets

/-- Function `map_targets(required_targets, neurons, target_mapping)`. -/
def map_targets (required_targets : List S) (neurons : List NeuronOnHICANN)
    (m : SynapseTargetMapping S) : Except MappingError (SynapseTargetMapping S) :=
  if required_targets.length = 0 then .ok m
  else
    match check_connected_block neurons with
    | .error e => .error e
    | .ok top_size =>
        if required_targets.length > top_size * 2 then
          .error .more_time_constants_than_provided
        else
          match choose_targets required_targets with
          | .error e => .error e
          | .ok (target_even_left, target_even_right, target_odd_left, target_odd_right) =>
              .ok (map_targets_assign target_even_left target_even_right target_odd_left
                target_odd_right neurons m)

/-- What `simple_mapping` reads: the chip, the synapse targets the visitor
extracts for a neuron of a population, and the denmems of a logical neuron in
the order of iteration. -/
structure Parameters (S : Type) where
  hicann : HICANNOnWafer
  synapse_targets : Nat → Nat → List S
  denmems : LogicalNeuron → List NeuronOnHICANN

/-- One pass through the loop of `simple_mapping`; the assertions are not
modelled. -/
def simple_mapping_item (P : Parameters S) (item : PlacementItem)
    (m : SynapseTargetMapping S) : Except MappingError (SynapseTargetMapping S) :=
  let synapse_targets :=
    P.synapse_targets item.bio_neuron.population item.bio_neuron.neuron_index
  let neuron_width := (P.denmems item.logical_neuron).length / 2
  if synapse_targets.length > neuron_width * 2 then .error .more_time_constants_than_provided
  else map_targets synapse_targets (P.denmems item.logical_neuron) m

/-- The loop of `simple_mapping` over the items found on the chip. -/
def simple_mapping_loop (P : Parameters S) :
    List PlacementItem → SynapseTargetMapping S → Except MappingError (SynapseTargetMapping S)
  | [], m => .ok m
  | item :: rest, m =>
      match simple_mapping_item P item m with
      | .error e => .error e
      | .ok m1 => simple_mapping_loop P rest m1

/-- Method `simple_mapping(hicann, neuron_placement, graph)`. -/
def simple_mapping (P : Parameters S) (neuron_placement : List PlacementItem)
    (m : SynapseTargetMapping S) : Except MappingError (SynapseTargetMapping S) :=
  simple_mapping_loop P (find_hicann neuron_placement P.hicann) m

/-- Method `check_top_and_bottom_are_equal()`. -/
def check_top_and_bottom_are_equal [DecidableEq S] (m : SynapseTargetMapping S) : Bool :=
  (List.finRange 256).all fun xx =>
    !(decide (m ⟨xx, 0⟩ .left ≠ m ⟨xx, 1⟩ .left) || decide (m ⟨xx, 0⟩ .right ≠ m ⟨xx, 1⟩ .right))

end SynapseTargetMapping

end routing


namespace routing

open placement parameter

namespace SynapseTargetMapping

variable {S : Type}

/-- The pair of synapse types that the last loop of `map_targets` writes to a
denmem: chosen by the parity of its column. -/
def targets_of_column (target_even_left target_even_right target_odd_left
    target_odd_right : S) (nrn : NeuronOnHICANN) : SideHorizontal → S :=
  fun side =>
    match side with
    | .left => if nrn.x.val % 2 ≠ 0 then target_odd_left else target_even_left
    | .right => if nrn.x.val % 2 ≠ 0 then target_odd_right else target_even_right

/-- The logical neuron of an item spans both rows: with a denmem it contains
the denmem of the same column in the other half. -/
def spans_both_rows (P : Parameters S) (item : PlacementItem) : Prop :=
  ∀ nrn ∈ P.denmems item.logical_neuron, ∀ y : Fin 2,
    (⟨nrn.x, y⟩ : NeuronOnHICANN) ∈ P.denmems item.logical_neuron

/-- No denmem belongs to the logical neurons of two items of the list. -/
def logical_neurons_disjoint (P : Parameters S) (items : List PlacementItem) : Prop :=
  items.Pairwise fun i j =>
    ∀ nrn ∈ P.denmems i.logical_neuron, nrn ∉ P.denmems j.logical_neuron

/-- The denmems of the block of `width` columns starting at column `first`, top
row first. -/
def block (first width : Nat) : List NeuronOnHICANN :=
  ((List.range' first width).map fun x => (⟨Fin.ofNat x, 0⟩ : NeuronOnHICANN)) ++
    (List.range' first width).map fun x => (⟨Fin.ofNat x, 1⟩ : NeuronOnHICANN)

end SynapseTargetMapping

/-- Two populations on chip (0,0): the neurons of population 0 have one
synapse target, those of population 1 have three; the logical neuron at
position `p` of a block is the block of two columns starting at column
`2 p`. -/
def sampleMappingParameters : SynapseTargetMapping.Parameters Nat :=
  ⟨⟨0, 0⟩, fun population _ => if population = 0 then [1] else [1, 2, 3],
    fun l =>
      match l with
      | .on_chip _ p => SynapseTargetMapping.block (2 * p) 2
      | .external _ _ => []⟩

/-- One neuron of population 0 and one of population 1 placed on neuron block
0 of chip (0,0). -/
def sampleMappedPlacement : List PlacementItem :=
  [⟨⟨0, 0⟩, .on_chip ⟨0, ⟨0, 0⟩⟩ 0, none⟩, ⟨⟨1, 0⟩, .on_chip ⟨0, ⟨0, 0⟩⟩ 1, none⟩]

/-- The mapping that `simple_mapping` computes for the sample placement from a
new mapping (synapse type 0 stands for `None`); the new mapping if it fails. -/
def sampleMapping : SynapseTargetMapping Nat :=
  match SynapseTargetMapping.simple_mapping sampleMappingParameters sampleMappedPlacement
      (SynapseTargetMapping.init 0) with
  | .ok m => m
  | .error _ => SynapseTargetMapping.init 0

end routing


/-! ## Greedy rate admission -/

namespace placement

/-- Bandwidth-aware input placement at the default utilization 1 with
1.78 MHz per neuron: sequential addresses, no merger-routing entries. -/
def sampleFullRatePlacement : InputPlacement ℚ :=
  { sampleRatedPlacement with
    bandwidth_utilization := 1
    firing_rate := fun _ _ => 1780000 }

/-- What `insertInput` starts from on chip (0,0) of the wafer before
bandwidth-aware placement, with a slice of ten sources to place. -/
def sampleFullRateState : InsertState ℚ :=
  ⟨sampleRatedStart.neuron_placement, sampleRatedStart.address_assignment ⟨0, 0⟩, ⟨0, 0, 10⟩,
    sampleRatedStart.mUsedRateHICANN, sampleRatedStart.mUsedRateFPGA, sampleRatedStart.mMgr⟩

end placement


namespace placement

/-- The summed rate of the last `k` neurons of a slice, the neurons
`offset + size - k` to `offset + size - 1`, as the specification words it. -/
def rate_of_last (P : InputPlacement ℚ) (bio : PopulationSlice) (k : Nat) : ℚ :=
  ((List.range' (bio.offset + (bio.size - k)) k).map (P.firing_rate bio.population)).sum

end placement


/-! ## Input placement that skips a DNC merger without bandwidth -/

namespace placement

namespace InputPlacement

variable {R : Type}

/-- The loop body of `insertInput` as the specification words it: when no
neuron fits the available rate, the DNC merger is skipped and the next one is
checked. Everything else is as in `insertInput_body`. -/
def insertInput_body_skip (P : InputPlacement R) (target_hicann : HICANNOnWafer)
    (dnc : DNCMergerOnHICANN) (st : InsertState R) :
    Except PlacementError (LoopControl (InsertState R)) :=
  if st.address_assignment.mode dnc = Mode.output then .ok (.next st)
  else
    let pool := st.address_assignment.available_addresses dnc
    let left_space := pool.size
    if left_space = 0 then .ok (.next st)
    else
      let bg_block : NeuronBlockOnHICANN := dnc
      if P.merger_mapping target_hicann bg_block ≠ dnc then .ok (.next st)
      else if ¬ (find_neuron_block st.neuron_placement ⟨bg_block, target_hicann⟩).isEmpty then
        .ok (.next st)
      else
        match P.insertInput_rate target_hicann (Nat.min st.bio.size left_space) st with
        | none => .ok (.next st)
        | some (neuron_count, st1) => P.insertInput_place target_hicann dnc neuron_count st1

/-- The loop over the DNC mergers with the skipping body. -/
def insertInput_loop_skip (P : InputPlacement R) (target_hicann : HICANNOnWafer) :
    List DNCMergerOnHICANN → InsertState R → Except PlacementError (InsertState R)
  | [], st => .ok st
  | dnc :: rest, st =>
      match insertInput_body_skip P target_hicann dnc st with
      | .error e => .error e
      | .ok (.done st1) => .ok st1
      | .ok (.next st1) => insertInput_loop_skip P target_hicann rest st1

/-- The skipping variant of `insertInput`. -/
def insertInput_skip (P : InputPlacement R) (target_hicann : HICANNOnWafer)
    (st : InsertState R) : Except PlacementError (InsertState R) :=
  insertInput_loop_skip P target_hicann [7, 6, 5, 4, 3, 2, 1, 0] st

end InputPlacement

end placement


namespace placement

/-- The state before `insertInput` is called on chip (1,0) with an empty slice:
no item, a new address assignment, chips (0,0) and (1,0) present and none
allocated. -/
def sampleEmptySliceStart : InsertState Nat :=
  ⟨[], L1AddressAssignment.init, ⟨0, 0, 0⟩, fun _ => 0, fun _ => 0,
    ⟨[⟨0, 0⟩, ⟨1, 0⟩], []⟩⟩

/-- The state after `insertInput` on chip (1,0) with an empty slice, without
bandwidth check. -/
def sampleEmptySliceDone : InsertState Nat :=
  match sampleInputPlacement.insertInput ⟨1, 0⟩ sampleEmptySliceStart with
  | .ok st => st
  | .error _ => sampleEmptySliceStart

/-- The wafer after the manual placement of a source population of two neurons
with the chip list of scenario 4. -/
def sampleTwoOnTwoChips : WaferState Nat :=
  match sampleInputPlacement.run_manual (.hicanns scenario4_chips) ⟨0, 0, 2⟩
      scenario4_start with
  | .ok w => w
  | .error _ => scenario4_start

end placement


/-! ## Membrane voltage conversion -/

namespace experiment

open parameter

/-- The voltage conversion in `Experiment::extract_membrane`: a recorded voltage
in Volt becomes a biological voltage in mV, `(v - shift_v) * V_to_mV / alpha_v`
with `V_to_mV = 1e3`. Values of type `double` are taken as exact rationals. -/
def extract_membrane_voltage (param_trafo : ParamTrafo) (v : ℚ) : ℚ :=
  let V_to_mV : ℚ := 1000
  (v - param_trafo.shift_v) * V_to_mV / param_trafo.alpha_v

end experiment


namespace placement

/-- The wafer after a source population of two neurons of 10 Hz each was
inserted on chip (0,0) with the bandwidth check, at utilization one half. -/
def sampleRatedInserted : WaferState ℚ :=
  match sampleRatedStart.insertInput sampleRatedPlacement ⟨0, 0⟩ ⟨0, 0, 2⟩ with
  | .ok (w, _) => w
  | .error _ => sampleRatedStart

end placement


namespace placement

end placement

end marocco

/-! # Theorems -/

namespace marocco

open IsValidSuccessor

/-! ## Single-step route operations -/

/-- C5: `append(segment)` fails with `InvalidRouteError` exactly when the segment
is a chip id, or the route is empty, or the pair (last segment, segment) is
rejected by the successor table started at the route's target chip; it raises
no other error; on success the new sequence is the old one followed by the
segment, and on failure the route is unchanged. -/
theorem append_segment_contract (T : Topology) (r : L1Route) (segment : segment_type) :
    (r.append T segment = .error .InvalidRouteError ↔
      (is_hicann segment = true ∨ r.m_segments = [] ∨
        ∃ back, r.m_segments.getLast? = some back ∧
          (call T (init r.m_last_hicann) back segment).1 = false)) ∧
    (∀ e, r.append T segment = .error e →
      e = .InvalidRouteError ∧ L1Route.after r (r.append T segment) = some r) ∧
    (∀ r1, r.append T segment = .ok r1 →
      r1.m_segments = r.m_segments ++ [segment] ∧
      L1Route.after r (r.append T segment) = some r1) := by
  unfold L1Route.append
  cases hs : is_hicann segment
  · cases hb : r.m_segments.getLast? with
    | none =>
        have hnil : r.m_segments = [] := List.getLast?_eq_none_iff.mp hb
        simp [hnil, L1Route.after]
    | some back =>
        have hne : r.m_segments ≠ [] := by
          intro h
          rw [h] at hb
          simp at hb
        cases hc : (call T (init r.m_last_hicann) back segment).1
        · simp [hc, hne, L1Route.after]
        · simp [hc, hne, L1Route.after]
  · simp [L1Route.after]

/-- C6: on a non-empty route `append(chip, segment)` succeeds exactly when the
segment is not a chip id, the pair (last segment, chip) is admissible at the
target chip and the pair (chip, segment) is admissible in the visitor state the
first check left behind; on success exactly the chip and the segment are
appended and the target chip becomes the chip; on failure the error is
`InvalidRouteError` and segments and target chip are unchanged. -/
theorem append_hicann_contract (T : Topology) (r : L1Route) (hicann : HICANNOnWafer)
    (segment back : segment_type) (hback : r.m_segments.getLast? = some back) :
    ((∃ r1, r.append_hicann T hicann segment = .ok r1) ↔
      (is_hicann segment = false ∧
        (call T (init r.m_last_hicann) back (.HICANNOnWafer hicann)).1 = true ∧
        (call T (call T (init r.m_last_hicann) back (.HICANNOnWafer hicann)).2
          (.HICANNOnWafer hicann) segment).1 = true)) ∧
    (∀ r1, r.append_hicann T hicann segment = .ok r1 →
      r1.m_segments = r.m_segments ++ [.HICANNOnWafer hicann, segment] ∧
      r1.target_hicann = .ok hicann ∧
      L1Route.after r (r.append_hicann T hicann segment) = some r1) ∧
    (∀ e, r.append_hicann T hicann segment = .error e →
      e = .InvalidRouteError ∧ L1Route.after r (r.append_hicann T hicann segment) = some r) := by
  unfold L1Route.append_hicann
  cases hs : is_hicann segment
  · simp only [hback]
    cases h1 : (call T (init r.m_last_hicann) back (.HICANNOnWafer hicann)).1
    · simp [L1Route.after]
    · cases h2 : (call T (call T (init r.m_last_hicann) back (.HICANNOnWafer hicann)).2
          (.HICANNOnWafer hicann) segment).1
      · simp [L1Route.after]
      · simp [L1Route.after, L1Route.target_hicann]
  · simp [L1Route.after]

/-- Witness for C6: crossing from chip (0,0) to chip (1,0) on HLine 0, which
continues as HLine 2 in the sample topology. -/
theorem append_hicann_contract_witness :
    (L1Route.mk [.HICANNOnWafer ⟨0, 0⟩, .HLineOnHICANN 0] ⟨0, 0⟩).m_segments.getLast?
      = some (.HLineOnHICANN 0) ∧
    ∃ r1, (L1Route.mk [.HICANNOnWafer ⟨0, 0⟩, .HLineOnHICANN 0] ⟨0, 0⟩).append_hicann
      sampleTopology ⟨1, 0⟩ (.HLineOnHICANN 2) = .ok r1 :=
  ⟨by decide,
   (append_hicann_contract sampleTopology
      (L1Route.mk [.HICANNOnWafer ⟨0, 0⟩, .HLineOnHICANN 0] ⟨0, 0⟩) ⟨1, 0⟩
      (.HLineOnHICANN 2) (.HLineOnHICANN 0) (by decide)).1.mpr
      ⟨by decide, by decide, by decide⟩⟩

/-! ## The merger tree -/

/-- C10: on segments of the kinds Merger0, Merger1, Merger2, Merger3 and
DNCMerger the successor table of the code accepts exactly the pairs of the
merger-tree table of the specification, whatever the visitor state, and leaves
the visitor state as it was. -/
theorem merger_tree_successor_table (T : Topology) (v : IsValidSuccessor)
    (current next : segment_type) (hc : is_merger_tree_kind current = true)
    (hn : is_merger_tree_kind next = true) :
    call T v current next = (merger_tree_table current next, v) := by
  cases current <;> cases next <;> simp [is_merger_tree_kind] at hc hn <;>
    simp only [call, merger_tree_table, Prod.mk.injEq, and_true]
  all_goals first
    | rfl
    | (rename_i i j; revert i j; decide)

/-- Witness for C10: Merger0(5) feeds Merger1(2). -/
theorem merger_tree_successor_table_witness :
    is_merger_tree_kind (.Merger0OnHICANN 5) = true ∧
    is_merger_tree_kind (.Merger1OnHICANN 2) = true ∧
    call sampleTopology (init ⟨0, 0⟩) (.Merger0OnHICANN 5) (.Merger1OnHICANN 2)
      = (true, init ⟨0, 0⟩) :=
  ⟨by decide, by decide,
   merger_tree_successor_table sampleTopology (init ⟨0, 0⟩) (.Merger0OnHICANN 5)
     (.Merger1OnHICANN 2) (by decide) (by decide)⟩

/-! ## The visitor on single pairs -/

theorem call_snd_of_not_hicann (T : Topology) (v : IsValidSuccessor) (a b : segment_type)
    (hb : is_hicann b = false) : (call T v a b).2 = v := by
  cases a <;> cases b <;> simp [is_hicann] at hb <;> rfl

theorem call_fst_of_not_hicann (T : Topology) (v w : IsValidSuccessor) (a b : segment_type)
    (ha : is_hicann a = false) (hb : is_hicann b = false) :
    (call T v a b).1 = (call T w a b).1 := by
  cases a <;> cases b <;> simp [is_hicann] at ha hb <;> rfl

theorem call_to_hicann (T : Topology) (v w : IsValidSuccessor) (a : segment_type)
    (h : HICANNOnWafer) (hcur : v.m_current_hicann = w.m_current_hicann) :
    call T v a (.HICANNOnWafer h) = call T w a (.HICANNOnWafer h) ∨
    ((call T v a (.HICANNOnWafer h)).1 = false ∧ (call T w a (.HICANNOnWafer h)).1 = false) := by
  cases a <;> simp only [call, call_hline_hicann, call_vline_hicann, hcur] <;>
    first
      | (right; exact ⟨trivial, trivial⟩)
      | (split_ifs <;> first | (left; rfl) | (right; exact ⟨rfl, rfl⟩))

theorem call_to_hicann_current (T : Topology) (v : IsValidSuccessor) (a : segment_type)
    (h : HICANNOnWafer) (hok : (call T v a (.HICANNOnWafer h)).1 = true) :
    (call T v a (.HICANNOnWafer h)).2.m_current_hicann = h := by
  cases a <;> simp [call, call_hline_hicann, call_vline_hicann] at hok ⊢
  all_goals split_ifs at hok ⊢ <;> simp_all

theorem call_from_hicann_init (T : Topology) (c h : HICANNOnWafer) (b : segment_type) :
    (call T (init c) (.HICANNOnWafer h) b).1 = false := by
  cases b <;> rfl

theorem call_hicann_hicann (T : Topology) (v : IsValidSuccessor) (a b : HICANNOnWafer) :
    (call T v (.HICANNOnWafer a) (.HICANNOnWafer b)).1 = false := rfl

/-! ## The visitor on runs of segments -/

theorem accepts_single (T : Topology) (v : IsValidSuccessor) (a : segment_type) :
    accepts T v [a] := rfl

theorem final_single (T : Topology) (v : IsValidSuccessor) (a : segment_type) :
    final T v [a] = v := rfl

theorem accepts_cons_cons (T : Topology) (v : IsValidSuccessor) (a b : segment_type)
    (l : List segment_type) :
    accepts T v (a :: b :: l) ↔
      (call T v a b).1 = true ∧ accepts T (call T v a b).2 (b :: l) := by
  unfold accepts
  simp only [find_invalid]
  cases h : call T v a b with
  | mk verdict v1 =>
      cases verdict
      · simp
      · simp

theorem final_cons_cons (T : Topology) (v : IsValidSuccessor) (a b : segment_type)
    (l : List segment_type) (h : (call T v a b).1 = true) :
    final T v (a :: b :: l) = final T (call T v a b).2 (b :: l) := by
  unfold final
  simp only [find_invalid]
  cases hc : call T v a b with
  | mk verdict v1 =>
      rw [hc] at h
      simp only at h
      subst h
      simp

/-- Splitting a run at its element `a`: the pairs up to `a`, then the pairs from
`a` on, checked in the state the first part left behind. -/
theorem accepts_append (T : Topology) (a : segment_type) (ys : List segment_type) :
    ∀ (xs : List segment_type) (v : IsValidSuccessor), accepts T v (xs ++ [a]) →
      ((accepts T v (xs ++ a :: ys) ↔ accepts T (final T v (xs ++ [a])) (a :: ys)) ∧
        final T v (xs ++ a :: ys) = final T (final T v (xs ++ [a])) (a :: ys)) := by
  intro xs
  induction xs with
  | nil =>
      intro v _
      simp [final_single]
  | cons b xs ih =>
      intro v hacc
      cases xs with
      | nil =>
          simp only [List.cons_append, List.nil_append] at hacc ⊢
          rw [accepts_cons_cons] at hacc
          rw [accepts_cons_cons, final_cons_cons T v b a ys hacc.1,
            final_cons_cons T v b a [] hacc.1, final_single]
          simp [hacc.1]
      | cons c xs =>
          simp only [List.cons_append] at hacc ih ⊢
          rw [accepts_cons_cons] at hacc
          rw [accepts_cons_cons, final_cons_cons T v b c _ hacc.1,
            final_cons_cons T v b c _ hacc.1]
          have h := ih (call T v b c).2 hacc.2
          simp [hacc.1, h.1, h.2]

/-- From a segment that is not a chip id on, acceptance and the chip the visitor
ends on depend on the current chip only, not on the expected line. -/
theorem accepts_of_same_hicann (T : Topology) :
    ∀ (l : List segment_type) (a : segment_type) (v w : IsValidSuccessor),
      is_hicann a = false → v.m_current_hicann = w.m_current_hicann →
      ((accepts T v (a :: l) ↔ accepts T w (a :: l)) ∧
        (accepts T v (a :: l) →
          (final T v (a :: l)).m_current_hicann = (final T w (a :: l)).m_current_hicann)) := by
  intro l
  induction l with
  | nil =>
      intro a v w _ hcur
      simp [accepts_single, final_single, hcur]
  | cons b l ih =>
      intro a v w ha hcur
      rw [accepts_cons_cons, accepts_cons_cons]
      cases hb : is_hicann b with
      | false =>
          have h1 := call_fst_of_not_hicann T v w a b ha hb
          have h2 := call_snd_of_not_hicann T v a b hb
          have h3 := call_snd_of_not_hicann T w a b hb
          have h := ih b v w hb hcur
          rw [h2, h3, h1]
          refine ⟨by rw [h.1], ?_⟩
          intro hacc
          rw [final_cons_cons T v a b l (by rw [h1]; exact hacc.1),
            final_cons_cons T w a b l hacc.1, h2, h3]
          exact h.2 hacc.2
      | true =>
          cases b with
          | HICANNOnWafer hb2 =>
              rcases call_to_hicann T v w a hb2 hcur with heq | ⟨hv, hw⟩
              · rw [heq]
                refine ⟨Iff.rfl, ?_⟩
                intro hacc
                rw [final_cons_cons T v a _ l (by rw [heq]; exact hacc.1),
                  final_cons_cons T w a _ l hacc.1, heq]
              · simp [hv, hw]
          | _ => simp [is_hicann] at hb

/-- Gluing a run `back :: ys` onto an accepted run that ends in `back`. -/
theorem accepts_glue (T : Topology) (c : HICANNOnWafer) (xs ys : List segment_type)
    (back : segment_type) (w : IsValidSuccessor)
    (hacc : accepts T (init c) (xs ++ [back])) (hback : is_hicann back = false)
    (hw : w.m_current_hicann = (final T (init c) (xs ++ [back])).m_current_hicann)
    (hys : accepts T w (back :: ys)) :
    accepts T (init c) (xs ++ back :: ys) ∧
      (final T (init c) (xs ++ back :: ys)).m_current_hicann
        = (final T w (back :: ys)).m_current_hicann := by
  have h := accepts_append T back ys xs (init c) hacc
  have h2 := accepts_of_same_hicann T ys back w (final T (init c) (xs ++ [back])) hback hw
  refine ⟨h.1.mpr (h2.1.mp hys), ?_⟩
  rw [h.2]
  exact (h2.2 hys).symm

/-! ## Verified routes -/

theorem getLast?_cons_of_ne_nil {α : Type} (a : α) (l : List α) (h : l ≠ []) :
    (a :: l).getLast? = l.getLast? := by
  cases l with
  | nil => exact absurd rfl h
  | cons b l => simp

namespace L1Route

theorem valid_nil (T : Topology) : valid T [] := rfl

theorem valid_cons (T : Topology) (c : HICANNOnWafer) (rest : List segment_type) :
    valid T (.HICANNOnWafer c :: rest) ↔ rest ≠ [] ∧ accepts T (init c) rest := by
  unfold valid find_invalid accepts
  cases rest with
  | nil => simp
  | cons b l => simp

theorem valid_cases (T : Topology) (segments : List segment_type) (h : valid T segments) :
    segments = [] ∨ ∃ c rest, segments = .HICANNOnWafer c :: rest ∧ rest ≠ [] ∧
      accepts T (init c) rest := by
  cases segments with
  | nil => exact Or.inl rfl
  | cons a l =>
      right
      cases a with
      | HICANNOnWafer c => exact ⟨c, l, rfl, (valid_cons T c l).mp h⟩
      | _ => simp [valid, find_invalid] at h

/-- In an accepted run that starts right after the first chip id, a chip id is
never followed by anything when it is the head of the run. -/
theorem accepts_init_hicann (T : Topology) (c n : HICANNOnWafer) (l : List segment_type)
    (h : accepts T (init c) (.HICANNOnWafer n :: l)) : l = [] := by
  cases l with
  | nil => rfl
  | cons b l =>
      rw [accepts_cons_cons, call_from_hicann_init] at h
      simp at h

theorem of_segments_valid (T : Topology) (segments : List segment_type) (r : L1Route)
    (h : of_segments T segments = .ok r) : valid T r.m_segments ∧ tracked T r := by
  unfold of_segments verify at h
  simp only at h
  split_ifs at h with hv
  simp only [Except.ok.injEq] at h
  subst h
  simp only [ne_eq, Decidable.not_not] at hv
  refine ⟨hv, ?_⟩
  intro c rest back hseg hback _
  simp only at hseg
  subst hseg
  have hne : rest ≠ [] := by
    intro h0
    rw [h0] at hback
    simp at hback
  cases rest with
  | nil => exact absurd rfl hne
  | cons b l => simp [find_invalid, final, current_hicann]

theorem empty_route_valid (T : Topology) :
    valid T empty_route.m_segments ∧ tracked T empty_route := by
  refine ⟨rfl, ?_⟩
  intro c rest back hseg
  simp [empty_route] at hseg

theorem append_valid (T : Topology) (r r1 : L1Route) (segment : segment_type)
    (hv : valid T r.m_segments) (ht : tracked T r) (h : r.append T segment = .ok r1) :
    valid T r1.m_segments ∧ tracked T r1 := by
  unfold append at h
  cases hs : is_hicann segment with
  | true => simp [hs] at h
  | false =>
      simp only [hs] at h
      cases hb : r.m_segments.getLast? with
      | none => simp [hb] at h
      | some back =>
          simp only [hb] at h
          cases hc : (call T (init r.m_last_hicann) back segment).1 with
          | false => simp [hc] at h
          | true =>
              simp only [hc, if_true, Bool.false_eq_true, if_false, Except.ok.injEq] at h
              subst h
              have hbk : is_hicann back = false := by
                cases back with
                | HICANNOnWafer n =>
                    rw [call_from_hicann_init] at hc
                    simp at hc
                | _ => rfl
              rcases valid_cases T _ hv with hnil | ⟨c, rest, hseg, hne, hacc⟩
              · rw [hnil] at hb
                simp at hb
              · rw [hseg, getLast?_cons_of_ne_nil _ _ hne] at hb
                obtain ⟨xs, hxs⟩ := List.getLast?_eq_some_iff.mp hb
                subst hxs
                have hm := ht c (xs ++ [back]) back hseg (List.getLast?_concat xs) hbk
                have hys : accepts T (init r.m_last_hicann) [back, segment] := by
                  rw [accepts_cons_cons]
                  exact ⟨hc, accepts_single T _ _⟩
                have hg := accepts_glue T c xs [segment] back (init r.m_last_hicann) hacc hbk
                  hm hys
                have hfin : final T (init r.m_last_hicann) [back, segment]
                    = init r.m_last_hicann := by
                  rw [final_cons_cons T _ back segment [] hc, final_single,
                    call_snd_of_not_hicann T _ back segment hs]
                simp only [hseg]
                refine ⟨?_, ?_⟩
                · rw [List.cons_append, valid_cons, List.append_assoc]
                  exact ⟨by simp, hg.1⟩
                · intro c2 rest2 back2 hseg2 _ _
                  simp only [List.cons_append, List.cons.injEq, segment_type.HICANNOnWafer.injEq]
                    at hseg2
                  obtain ⟨hc2, hr2⟩ := hseg2
                  subst hc2
                  subst hr2
                  rw [List.append_assoc]
                  simp only [List.singleton_append]
                  rw [hg.2, hfin]
                  rfl

/-- Appending `ys` to a verified route whose last segment `back` is not a chip
id, when the run `back :: ys` is accepted from the route's target chip. -/
theorem glue_valid (T : Topology) (r : L1Route) (ys : List segment_type) (back : segment_type)
    (m : HICANNOnWafer) (w : IsValidSuccessor)
    (hv : valid T r.m_segments) (ht : tracked T r)
    (hb : r.m_segments.getLast? = some back) (hbk : is_hicann back = false)
    (hw : w.m_current_hicann = r.m_last_hicann) (hys : accepts T w (back :: ys))
    (hm : ∀ back2, (back :: ys).getLast? = some back2 → is_hicann back2 = false →
      m = (final T w (back :: ys)).m_current_hicann) :
    valid T (r.m_segments ++ ys) ∧ tracked T ⟨r.m_segments ++ ys, m⟩ := by
  rcases valid_cases T _ hv with hnil | ⟨c, rest, hseg, hne, hacc⟩
  · rw [hnil] at hb
    simp at hb
  · rw [hseg, getLast?_cons_of_ne_nil _ _ hne] at hb
    obtain ⟨xs, hxs⟩ := List.getLast?_eq_some_iff.mp hb
    subst hxs
    have hcur := ht c (xs ++ [back]) back hseg (List.getLast?_concat xs) hbk
    have hg := accepts_glue T c xs ys back w hacc hbk (hw.trans hcur) hys
    rw [hseg]
    refine ⟨?_, ?_⟩
    · rw [List.cons_append, valid_cons, List.append_assoc]
      exact ⟨by simp, hg.1⟩
    · intro c2 rest2 back2 hseg2 hback2 hnh
      simp only [List.cons_append, List.cons.injEq, segment_type.HICANNOnWafer.injEq] at hseg2
      obtain ⟨hc2, hr2⟩ := hseg2
      subst hc2
      subst hr2
      rw [List.append_assoc] at hback2 ⊢
      simp only [List.singleton_append] at hback2 ⊢
      rw [hg.2]
      apply hm back2 _ hnh
      rw [← hback2, List.getLast?_append_cons]

theorem append_hicann_valid (T : Topology) (r r1 : L1Route) (hicann : HICANNOnWafer)
    (segment : segment_type) (hv : valid T r.m_segments) (ht : tracked T r)
    (h : r.append_hicann T hicann segment = .ok r1) :
    valid T r1.m_segments ∧ tracked T r1 := by
  unfold append_hicann at h
  cases hs : is_hicann segment with
  | true => simp [hs] at h
  | false =>
      simp only [hs] at h
      cases hb : r.m_segments.getLast? with
      | none =>
          have hnil : r.m_segments = [] := List.getLast?_eq_none_iff.mp hb
          simp [hnil] at h
          subst h
          refine ⟨?_, ?_⟩
          · rw [valid_cons]
            exact ⟨by simp, accepts_single T _ _⟩
          · intro c rest back hseg _ _
            simp only [List.cons.injEq, segment_type.HICANNOnWafer.injEq] at hseg
            obtain ⟨hc, hr⟩ := hseg
            subst hc
            subst hr
            rfl
      | some back =>
          simp only [hb] at h
          cases h1 : (call T (init r.m_last_hicann) back (.HICANNOnWafer hicann)).1 with
          | false => simp [h1] at h
          | true =>
              cases h2 : (call T (call T (init r.m_last_hicann) back
                  (.HICANNOnWafer hicann)).2 (.HICANNOnWafer hicann) segment).1 with
              | false => simp [h1, h2] at h
              | true =>
                  simp only [h1, h2, Bool.not_true, Bool.or_self, Bool.false_eq_true, if_false,
                    Except.ok.injEq] at h
                  subst h
                  have hbk : is_hicann back = false := by
                    cases back with
                    | HICANNOnWafer n =>
                        rw [call_hicann_hicann] at h1
                        simp at h1
                    | _ => rfl
                  have hys : accepts T (init r.m_last_hicann)
                      [back, .HICANNOnWafer hicann, segment] := by
                    rw [accepts_cons_cons, accepts_cons_cons]
                    exact ⟨h1, h2, accepts_single T _ _⟩
                  apply glue_valid T r _ back hicann (init r.m_last_hicann) hv ht hb hbk rfl hys
                  intro back2 _ _
                  rw [final_cons_cons T _ _ _ _ h1, final_cons_cons T _ _ _ _ h2, final_single,
                    call_snd_of_not_hicann T _ _ segment hs,
                    call_to_hicann_current T _ back hicann h1]

theorem getLast?_of_empty_false (r : L1Route) (h : r.empty = false) :
    ∃ back, r.m_segments.getLast? = some back := by
  cases hb : r.m_segments.getLast? with
  | none =>
      have hnil : r.m_segments = [] := List.getLast?_eq_none_iff.mp hb
      simp [empty, hnil] at h
  | some back => exact ⟨back, rfl⟩

theorem valid_of_empty_false (T : Topology) (r : L1Route) (h : r.empty = false)
    (hv : valid T r.m_segments) :
    ∃ c next rest, r.m_segments = .HICANNOnWafer c :: next :: rest ∧
      accepts T (init c) (next :: rest) := by
  rcases valid_cases T _ hv with hnil | ⟨c, rest, hseg, hne, hacc⟩
  · simp [empty, hnil] at h
  · cases rest with
    | nil => exact absurd rfl hne
    | cons next rest => exact ⟨c, next, rest, hseg, hacc⟩

theorem extend_valid (T : Topology) (r other r1 : L1Route)
    (hv : valid T r.m_segments) (ht : tracked T r)
    (hvo : valid T other.m_segments) (hto : tracked T other)
    (h : r.extend T other = .ok r1) :
    valid T r1.m_segments ∧ tracked T r1 := by
  unfold extend at h
  cases he : r.empty with
  | true =>
      simp only [he, if_true, Except.ok.injEq] at h
      subst h
      exact ⟨hvo, hto⟩
  | false =>
      cases heo : other.empty with
      | true =>
          simp only [he, heo, if_true, Bool.false_eq_true, if_false, Except.ok.injEq] at h
          subst h
          exact ⟨hv, ht⟩
      | false =>
          obtain ⟨back, hb⟩ := getLast?_of_empty_false r he
          obtain ⟨hc, next, rest, hoseg, hoacc⟩ := valid_of_empty_false T other heo hvo
          simp only [he, heo, Bool.false_eq_true, if_false, source_hicann, hoseg, hb] at h
          split_ifs at h with hA hB
          · simp only [Except.ok.injEq] at h
            subst h
            have hbk : is_hicann back = false := by
              cases back with
              | HICANNOnWafer n =>
                  rw [call_from_hicann_init] at hA
                  simp at hA
              | _ => rfl
            cases hn : is_hicann next with
            | false =>
                have hys : accepts T (init r.m_last_hicann) (back :: next :: rest) := by
                  rw [accepts_cons_cons, call_snd_of_not_hicann T _ back next hn, ← hA.1]
                  exact ⟨hA.1 ▸ hA.2, hoacc⟩
                apply glue_valid T r _ back other.m_last_hicann (init r.m_last_hicann) hv ht hb
                  hbk rfl hys
                intro back2 hb2 hnh
                rw [final_cons_cons T _ back next rest hA.2,
                  call_snd_of_not_hicann T _ back next hn, ← hA.1]
                rw [List.getLast?_cons_cons] at hb2
                exact hto hc (next :: rest) back2 hoseg hb2 hnh
            | true =>
                cases next with
                | HICANNOnWafer n =>
                    have hrest := accepts_init_hicann T hc n rest hoacc
                    subst hrest
                    have hys : accepts T (init r.m_last_hicann) [back, .HICANNOnWafer n] := by
                      rw [accepts_cons_cons]
                      exact ⟨hA.2, accepts_single T _ _⟩
                    apply glue_valid T r _ back other.m_last_hicann (init r.m_last_hicann) hv ht
                      hb hbk rfl hys
                    intro back2 hb2 hnh
                    simp only [List.getLast?_cons_cons, List.getLast?_singleton,
                      Option.some.injEq] at hb2
                    subst hb2
                    simp [is_hicann] at hnh
                | _ => simp [is_hicann] at hn
          · simp only [Except.ok.injEq] at h
            subst h
            obtain ⟨_, h1, h2⟩ := hB
            have hbk : is_hicann back = false := by
              cases back with
              | HICANNOnWafer n =>
                  rw [call_hicann_hicann] at h1
                  simp at h1
              | _ => rfl
            have hn : is_hicann next = false := by
              cases next with
              | HICANNOnWafer n =>
                  rw [call_hicann_hicann] at h2
                  simp at h2
              | _ => rfl
            have hcur := call_to_hicann_current T _ back hc h1
            have hsame := accepts_of_same_hicann T rest next
              (call T (init r.m_last_hicann) back (.HICANNOnWafer hc)).2 (init hc) hn hcur
            have hys : accepts T (init r.m_last_hicann)
                (back :: .HICANNOnWafer hc :: next :: rest) := by
              rw [accepts_cons_cons, accepts_cons_cons,
                call_snd_of_not_hicann T _ (.HICANNOnWafer hc) next hn]
              exact ⟨h1, h2, hsame.1.mpr hoacc⟩
            apply glue_valid T r _ back other.m_last_hicann (init r.m_last_hicann) hv ht hb
              hbk rfl hys
            intro back2 hb2 hnh
            rw [final_cons_cons T _ back _ _ h1, final_cons_cons T _ _ next rest h2,
              call_snd_of_not_hicann T _ (.HICANNOnWafer hc) next hn,
              hsame.2 (hsame.1.mpr hoacc)]
            rw [List.getLast?_cons_cons, List.getLast?_cons_cons] at hb2
            exact hto hc (next :: rest) back2 hoseg hb2 hnh

theorem merge_valid (T : Topology) (r other r1 : L1Route)
    (hv : valid T r.m_segments) (ht : tracked T r)
    (hvo : valid T other.m_segments) (hto : tracked T other)
    (h : r.merge other = .ok r1) :
    valid T r1.m_segments ∧ tracked T r1 := by
  unfold merge at h
  cases he : r.empty with
  | true =>
      simp only [he, if_true, Except.ok.injEq] at h
      subst h
      exact ⟨hvo, hto⟩
  | false =>
      cases heo : other.empty with
      | true =>
          simp only [he, heo, if_true, Bool.false_eq_true, if_false, Except.ok.injEq] at h
          subst h
          exact ⟨hv, ht⟩
      | false =>
          obtain ⟨back, hb⟩ := getLast?_of_empty_false r he
          obtain ⟨hc, next, rest, hoseg, hoacc⟩ := valid_of_empty_false T other heo hvo
          simp only [he, heo, Bool.false_eq_true, if_false, source_hicann, hoseg, hb] at h
          split_ifs at h with h1 h2
          simp only [Except.ok.injEq] at h
          subst h
          simp only [ne_eq, Decidable.not_not] at h1 h2
          subst h2
          cases rest with
          | nil =>
              simp only [List.append_nil]
              refine ⟨hv, ?_⟩
              intro c rest2 back2 hseg hb2 hnh
              simp only at hseg
              have hlast : back2 = back := by
                have hne : rest2 ≠ [] := by
                  intro h0
                  rw [h0] at hb2
                  simp at hb2
                rw [hseg, getLast?_cons_of_ne_nil _ _ hne, hb2] at hb
                exact Option.some.inj hb
              subst hlast
              have ho := hto hc [back2] back2 hoseg rfl hnh
              have hr := ht c rest2 back2 hseg hb2 hnh
              simp only
              rw [ho, ← hr, h1]
              rfl
          | cons n2 rest =>
              have hbk : is_hicann back = false := by
                cases back with
                | HICANNOnWafer n =>
                    have := accepts_init_hicann T hc n _ hoacc
                    simp at this
                | _ => rfl
              apply glue_valid T r _ back other.m_last_hicann (init hc) hv ht hb hbk h1.symm
                hoacc
              intro back2 hb2 hnh
              exact hto hc (back :: n2 :: rest) back2 hoseg hb2 hnh

/-- Every route built through the checking interface is verified and its cached
target chip is tracked. -/
theorem reachable_invariant (T : Topology) (r : L1Route) (h : Reachable T r) :
    valid T r.m_segments ∧ tracked T r := by
  induction h with
  | default_constructed => exact empty_route_valid T
  | verified segments r h => exact of_segments_valid T segments r h
  | append r segment r1 _ h ih => exact append_valid T r r1 segment ih.1 ih.2 h
  | append_hicann r hicann segment r1 _ h ih =>
      exact append_hicann_valid T r r1 hicann segment ih.1 ih.2 h
  | extend r other r1 _ _ h ih iho => exact extend_valid T r other r1 ih.1 ih.2 iho.1 iho.2 h
  | merge r other r1 _ _ h ih iho => exact merge_valid T r other r1 ih.1 ih.2 iho.1 iho.2 h

end L1Route

/-! ## Route validity -/

/-- C1: every route that starts empty or from the verifying constructor and is
then changed only by successful calls of `append(segment)`,
`append(chip, segment)`, `extend(other)` and `merge(other)`, with `other` such a
route itself, passes verification: `find_invalid` returns `end`, so the route
is empty or it is a chip id followed by at least one segment and a run of
segments all of whose adjacent pairs the successor table accepts. -/
theorem route_validity (T : Topology) (r : L1Route) (h : L1Route.Reachable T r) :
    (L1Route.find_invalid T r.m_segments).1 = r.m_segments.length ∧
    (r.m_segments = [] ∨ ∃ c rest, r.m_segments = .HICANNOnWafer c :: rest ∧ rest ≠ [] ∧
      (find_invalid T (init c) rest).1 = rest.length) :=
  ⟨(L1Route.reachable_invariant T r h).1,
   L1Route.valid_cases T r.m_segments (L1Route.reachable_invariant T r h).1⟩

/-- Witness for C1: the verified route chip (0,0), DNC merger 0, HLine 6 extended
by a crossbar switch onto VLine 3. -/
theorem route_validity_witness :
    L1Route.Reachable sampleTopology
      ⟨[.HICANNOnWafer ⟨0, 0⟩, .DNCMergerOnHICANN 0, .HLineOnHICANN 6, .VLineOnHICANN 3],
        ⟨0, 0⟩⟩ ∧
    (L1Route.find_invalid sampleTopology
      [.HICANNOnWafer ⟨0, 0⟩, .DNCMergerOnHICANN 0, .HLineOnHICANN 6, .VLineOnHICANN 3]).1
      = 4 :=
  have hr : L1Route.Reachable sampleTopology
      ⟨[.HICANNOnWafer ⟨0, 0⟩, .DNCMergerOnHICANN 0, .HLineOnHICANN 6, .VLineOnHICANN 3],
        ⟨0, 0⟩⟩ :=
    L1Route.Reachable.append
      ⟨[.HICANNOnWafer ⟨0, 0⟩, .DNCMergerOnHICANN 0, .HLineOnHICANN 6], ⟨0, 0⟩⟩
      (.VLineOnHICANN 3) _
      (L1Route.Reachable.verified
        [.HICANNOnWafer ⟨0, 0⟩, .DNCMergerOnHICANN 0, .HLineOnHICANN 6] _ rfl)
      rfl
  ⟨hr, (route_validity sampleTopology _ hr).1⟩

/-! ## Merging routes -/

theorem L1Route.merge_of_two_or_more (a b : L1Route) (ha : a.empty = false)
    (hb : b.empty = false) (hsize : b.m_segments.length ≠ 1) :
    ((∃ a1, a.merge b = .ok a1) ↔
      ((∃ h, b.source_hicann = .ok h ∧ a.target_hicann = .ok h) ∧
        ∃ s, b.front = .ok s ∧ a.m_segments.getLast? = some s)) ∧
    (∀ a1, a.merge b = .ok a1 →
      a1.m_segments = a.m_segments ++ b.m_segments.drop 2 ∧
      a1.size = a.size + b.size - 2 ∧
      a1.target_hicann = b.target_hicann ∧
      L1Route.after a (a.merge b) = some a1) ∧
    (∀ e, a.merge b = .error e →
      (e = .InvalidRouteError ∨ e = .logic_error) ∧
      L1Route.after a (a.merge b) = some a) := by
  obtain ⟨sa, la⟩ := a
  obtain ⟨sb, lb⟩ := b
  cases sa with
  | nil => simp [L1Route.empty] at ha
  | cons x l =>
      obtain ⟨back, hback⟩ := L1Route.getLast?_of_empty_false ⟨x :: l, la⟩ ha
      simp only at hback
      cases sb with
      | nil => simp [L1Route.empty] at hb
      | cons y tail =>
          cases y with
          | HICANNOnWafer hc =>
              cases tail with
              | nil => simp at hsize
              | cons it rest =>
                  by_cases hl : la = hc
                  · by_cases hs : back = it
                    · simp [L1Route.merge, L1Route.empty, L1Route.source_hicann,
                        L1Route.target_hicann, L1Route.front, L1Route.after, L1Route.size,
                        hback, hl, hs]
                      omega
                    · have hs2 : ¬ it = back := fun h => hs h.symm
                      simp [L1Route.merge, L1Route.empty, L1Route.source_hicann,
                        L1Route.target_hicann, L1Route.front, L1Route.after, hback, hl, hs,
                        hs2]
                  · have hl2 : ¬ hc = la := fun h => hl h.symm
                    simp [L1Route.merge, L1Route.empty, L1Route.source_hicann,
                      L1Route.target_hicann, L1Route.front, L1Route.after, hback, hl, hl2]
          | _ =>
              simp [L1Route.merge, L1Route.empty, L1Route.source_hicann,
                L1Route.target_hicann, L1Route.front, L1Route.after, hback]

/-- C8: `merge` on a one-element route does not fail cleanly. The verified route
chip (0,0), HLine 0, chip (1,0) split in front of its last element gives as
second route `b` the single chip id (1,0), a non-empty route whose source chip
is (1,0); the verifying constructor accepts the route `c` = chip (1,0), HLine 0,
whose target chip is (1,0). In `c.merge(b)` the chips agree, so `merge` compares
the last segment of `c` with the element after the chip id of `b`, which does
not exist: the behaviour is undefined, and no state of `c` is guaranteed
afterwards. -/
theorem merge_after_split_undefined (T : Topology) :
    ∃ r a b c,
      L1Route.of_segments T [.HICANNOnWafer ⟨0, 0⟩, .HLineOnHICANN 0, .HICANNOnWafer ⟨1, 0⟩]
        = .ok r ∧
      r.split 2 = .ok (a, b) ∧
      b.m_segments = [.HICANNOnWafer ⟨1, 0⟩] ∧
      b.empty = false ∧
      b.source_hicann = .ok ⟨1, 0⟩ ∧
      L1Route.of_segments T [.HICANNOnWafer ⟨1, 0⟩, .HLineOnHICANN 0] = .ok c ∧
      c.empty = false ∧
      c.target_hicann = .ok ⟨1, 0⟩ ∧
      c.merge b = .error .undefined_behaviour ∧
      L1Route.after c (c.merge b) = none :=
  ⟨⟨[.HICANNOnWafer ⟨0, 0⟩, .HLineOnHICANN 0, .HICANNOnWafer ⟨1, 0⟩], ⟨1, 0⟩⟩,
   ⟨[.HICANNOnWafer ⟨0, 0⟩, .HLineOnHICANN 0], ⟨0, 0⟩⟩,
   ⟨[.HICANNOnWafer ⟨1, 0⟩], ⟨1, 0⟩⟩,
   ⟨[.HICANNOnWafer ⟨1, 0⟩, .HLineOnHICANN 0], ⟨1, 0⟩⟩,
   rfl, rfl, rfl, rfl, rfl, rfl, rfl, rfl, rfl, rfl⟩

/-! ## Routes with a chip id in second or in last position -/

/-- C9: the verifying constructor accepts a sequence of two chip ids, because
`find_invalid` never visits the pair (first, second), and then
`target_hicann()` is the first chip id although the last chip id that occurs in
the sequence is the second one. -/
theorem target_hicann_of_two_chips (T : Topology) :
    ∃ r, L1Route.of_segments T [.HICANNOnWafer ⟨0, 0⟩, .HICANNOnWafer ⟨1, 0⟩] = .ok r ∧
      r.target_hicann = .ok ⟨0, 0⟩ ∧
      last_chip_id r.m_segments = some ⟨1, 0⟩ :=
  ⟨⟨[.HICANNOnWafer ⟨0, 0⟩, .HICANNOnWafer ⟨1, 0⟩], ⟨0, 0⟩⟩, rfl, rfl, rfl⟩

/-- C7: the sequence chip (0,0), HLine 0, chip (1,0) is accepted by the verifying
constructor, and splitting it in front of its last element returns as second
route the single chip id (1,0), which `find_invalid` rejects at its first
element. -/
theorem split_before_trailing_chip (T : Topology) :
    ∃ r a b,
      L1Route.of_segments T [.HICANNOnWafer ⟨0, 0⟩, .HLineOnHICANN 0, .HICANNOnWafer ⟨1, 0⟩]
        = .ok r ∧
      r.split 2 = .ok (a, b) ∧
      a.m_segments = [.HICANNOnWafer ⟨0, 0⟩, .HLineOnHICANN 0] ∧
      b.m_segments = [.HICANNOnWafer ⟨1, 0⟩] ∧
      (L1Route.find_invalid T b.m_segments).1 = 0 ∧
      (L1Route.find_invalid T b.m_segments).1 ≠ b.m_segments.length :=
  ⟨⟨[.HICANNOnWafer ⟨0, 0⟩, .HLineOnHICANN 0, .HICANNOnWafer ⟨1, 0⟩], ⟨1, 0⟩⟩,
   ⟨[.HICANNOnWafer ⟨0, 0⟩, .HLineOnHICANN 0], ⟨0, 0⟩⟩,
   ⟨[.HICANNOnWafer ⟨1, 0⟩], ⟨1, 0⟩⟩,
   rfl, rfl, rfl, rfl, rfl, by simp [L1Route.find_invalid]⟩

/-- C2: for the verified route chip (0,0), HLine 0, chip (1,0) cut in front of its
last element, `extend` of the two routes returned by `split` does not succeed:
the second route has one element only and `extend` dereferences the element
after it. -/
theorem split_extend_before_trailing_chip (T : Topology) :
    ∃ r a b,
      L1Route.of_segments T [.HICANNOnWafer ⟨0, 0⟩, .HLineOnHICANN 0, .HICANNOnWafer ⟨1, 0⟩]
        = .ok r ∧
      r.split 2 = .ok (a, b) ∧
      a.extend T b = .error .undefined_behaviour :=
  ⟨⟨[.HICANNOnWafer ⟨0, 0⟩, .HLineOnHICANN 0, .HICANNOnWafer ⟨1, 0⟩], ⟨1, 0⟩⟩,
   ⟨[.HICANNOnWafer ⟨0, 0⟩, .HLineOnHICANN 0], ⟨0, 0⟩⟩,
   ⟨[.HICANNOnWafer ⟨1, 0⟩], ⟨1, 0⟩⟩,
   rfl, rfl, rfl⟩

/-! ## Address assignment -/

namespace placement

theorem L1AddressPool.pop_perm (pool pool1 : L1AddressPool) (strategy : Strategy) (x : Nat)
    (h : pool.pop strategy = .ok (x, pool1)) :
    (x :: pool1.addresses).Perm pool.addresses := by
  unfold L1AddressPool.pop at h
  cases hp : pool.addresses with
  | nil => simp [hp] at h
  | cons a rest =>
      simp only [hp] at h
      cases strategy with
      | sequential =>
          simp only [Except.ok.injEq, Prod.mk.injEq] at h
          obtain ⟨h1, h2⟩ := h
          subst h1
          subst h2
          exact List.Perm.refl _
      | pseudo_random choose =>
          simp only [Except.ok.injEq, Prod.mk.injEq] at h
          obtain ⟨h1, h2⟩ := h
          subst h2
          have hlt : choose (a :: rest) % (rest.length + 1) < (a :: rest).length := by
            simp only [List.length_cons]
            exact Nat.mod_lt _ (Nat.succ_pos _)
          have hmem : x ∈ a :: rest := by
            rw [← h1, List.getD_eq_getElem _ _ hlt]
            exact List.getElem_mem hlt
          simp only [h1]
          exact (List.perm_cons_erase hmem).symm

theorem addresses_on_append (p q : List PlacementItem) (h : HICANNOnWafer)
    (d : DNCMergerOnHICANN) :
    addresses_on (p ++ q) h d = addresses_on p h d ++ addresses_on q h d := by
  simp [addresses_on, List.filterMap_append]

theorem addresses_on_add (p : List PlacementItem) (b : BioNeuron) (l : LogicalNeuron)
    (h h1 : HICANNOnWafer) (d d1 : DNCMergerOnHICANN) (x : Nat) :
    addresses_on (add_with_address p b l ⟨⟨d, h⟩, x⟩) h1 d1
      = addresses_on p h1 d1 ++ (if h1 = h ∧ d1 = d then [x] else []) := by
  unfold add_with_address
  rw [addresses_on_append]
  congr 1
  by_cases hc : h1 = h ∧ d1 = d
  · obtain ⟨hh, hd⟩ := hc
    subst hh
    subst hd
    simp [addresses_on]
  · have hne : ¬ (DNCMergerOnWafer.mk d h = ⟨d1, h1⟩) := by
      intro he
      injection he with hd hh
      exact hc ⟨hh.symm, hd.symm⟩
    simp [addresses_on, hc, hne]

theorem handed_out_refl (h : HICANNOnWafer) (p : List PlacementItem) (a : L1AddressAssignment) :
    handed_out h p a p a :=
  ⟨fun _ _ _ => rfl, fun _ => List.Perm.refl _⟩

theorem handed_out_trans (h : HICANNOnWafer) (p p1 p2 : List PlacementItem)
    (a a1 a2 : L1AddressAssignment) (h1 : handed_out h p a p1 a1)
    (h2 : handed_out h p1 a1 p2 a2) : handed_out h p a p2 a2 :=
  ⟨fun c d hc => (h2.1 c d hc).trans (h1.1 c d hc), fun d => (h2.2 d).trans (h1.2 d)⟩

theorem handed_out_set_mode (h : HICANNOnWafer) (p : List PlacementItem)
    (a : L1AddressAssignment) (d : DNCMergerOnHICANN) (m : Mode) :
    handed_out h p a p (a.set_mode d m) :=
  ⟨fun _ _ _ => rfl, fun _ => List.Perm.refl _⟩

/-- One draw: an address popped from the pool of `d` and given to a new item. -/
theorem handed_out_draw (h : HICANNOnWafer) (p : List PlacementItem) (a : L1AddressAssignment)
    (d : DNCMergerOnHICANN) (strategy : Strategy) (x : Nat) (pool : L1AddressPool)
    (b : BioNeuron) (l : LogicalNeuron)
    (hpop : (a.available_addresses d).pop strategy = .ok (x, pool)) :
    handed_out h p a (add_with_address p b l ⟨⟨d, h⟩, x⟩) (a.set_available_addresses d pool) := by
  have hperm := L1AddressPool.pop_perm _ _ _ _ hpop
  refine ⟨?_, ?_⟩
  · intro h1 d1 hne
    rw [addresses_on_add]
    simp [hne]
  · intro d1
    rw [addresses_on_add]
    by_cases hd : d1 = d
    · subst hd
      simp only [true_and, if_true, L1AddressAssignment.set_available_addresses,
        Function.update_same, List.append_assoc, List.singleton_append]
      exact List.Perm.append_left _ hperm
    · simp [hd, L1AddressAssignment.set_available_addresses, Function.update_noteq hd]

end placement

namespace placement

theorem insertInput_addresses_handed_out {R : Type} (P : InputPlacement R)
    (h : HICANNOnWafer) (d : DNCMergerOnHICANN) (slice : PopulationSlice) :
    ∀ (remaining ii : Nat) (p : List PlacementItem) (a : L1AddressAssignment)
      (p1 : List PlacementItem) (a1 : L1AddressAssignment),
      P.insertInput_addresses h d slice remaining ii p a = .ok (p1, a1) →
      handed_out h p a p1 a1 := by
  intro remaining
  induction remaining with
  | zero =>
      intro ii p a p1 a1 hrun
      simp only [InputPlacement.insertInput_addresses, Except.ok.injEq, Prod.mk.injEq] at hrun
      obtain ⟨hp, ha⟩ := hrun
      subst hp
      subst ha
      exact handed_out_refl h p a
  | succ n ih =>
      intro ii p a p1 a1 hrun
      simp only [InputPlacement.insertInput_addresses] at hrun
      cases hpop : (a.available_addresses d).pop P.strategy with
      | error e => simp [hpop] at hrun
      | ok res =>
          obtain ⟨x, pool⟩ := res
          simp only [hpop] at hrun
          exact handed_out_trans h _ _ _ _ _ _
            (handed_out_draw h p a d P.strategy x pool _ _ hpop) (ih _ _ _ _ _ hrun)

theorem insertInput_rate_frame {R : Type} (P : InputPlacement R) (h : HICANNOnWafer)
    (n n1 : Nat) (st st1 : InsertState R) (hr : P.insertInput_rate h n st = some (n1, st1)) :
    st1.neuron_placement = st.neuron_placement ∧
      st1.address_assignment = st.address_assignment ∧ st1.bio = st.bio := by
  unfold InputPlacement.insertInput_rate at hr
  by_cases hc : P.consider_firing_rate = true
  · simp only [hc, if_true] at hr
    split_ifs at hr
    simp only [Option.some.injEq, Prod.mk.injEq] at hr
    rw [← hr.2]
    exact ⟨rfl, rfl, rfl⟩
  · simp only [hc, Bool.false_eq_true, if_false, Option.some.injEq, Prod.mk.injEq] at hr
    rw [← hr.2]
    exact ⟨rfl, rfl, rfl⟩

theorem insertInput_place_handed_out {R : Type} (P : InputPlacement R) (h : HICANNOnWafer)
    (d : DNCMergerOnHICANN) (n : Nat) (st st1 : InsertState R)
    (hrun : P.insertInput_place h d n st = .ok (.next st1) ∨
      P.insertInput_place h d n st = .ok (.done st1)) :
    handed_out h st.neuron_placement st.address_assignment st1.neuron_placement
      st1.address_assignment := by
  unfold InputPlacement.insertInput_place at hrun
  simp only at hrun
  cases hadd : P.insertInput_addresses h d (st.bio.slice_back n).1 n 0 st.neuron_placement
      (st.address_assignment.set_mode d Mode.input) with
  | error e =>
      rw [hadd] at hrun
      rcases hrun with hr | hr <;> simp at hr
  | ok res =>
      obtain ⟨p1, a1⟩ := res
      rw [hadd] at hrun
      have hd := insertInput_addresses_handed_out P h d _ _ _ _ _ _ _ hadd
      have hm := handed_out_set_mode h st.neuron_placement st.address_assignment d Mode.input
      have hall := handed_out_trans h _ _ _ _ _ _ hm hd
      simp only at hrun
      split_ifs at hrun
      all_goals
        rcases hrun with hr | hr <;> simp at hr
        subst hr
        exact hall

/-- Whatever way one pass through the loop body of `insertInput` ends, it only
handed out addresses of the target chip. -/
theorem insertInput_body_handed_out {R : Type} (P : InputPlacement R) (h : HICANNOnWafer)
    (d : DNCMergerOnHICANN) (st st1 : InsertState R)
    (hrun : P.insertInput_body h d st = .ok (.next st1) ∨
      P.insertInput_body h d st = .ok (.done st1)) :
    handed_out h st.neuron_placement st.address_assignment st1.neuron_placement
      st1.address_assignment := by
  unfold InputPlacement.insertInput_body at hrun
  simp only at hrun
  have hstay : ∀ s : InsertState R,
      (Except.ok (LoopControl.next s) = (Except.ok (LoopControl.next st1) :
          Except PlacementError (LoopControl (InsertState R))) ∨
        Except.ok (LoopControl.next s) = (Except.ok (LoopControl.done st1) :
          Except PlacementError (LoopControl (InsertState R)))) → s = st1 := by
    intro s hs
    rcases hs with hr | hr <;> simp at hr
    exact hr
  split_ifs at hrun with h1 h2 h3 h4
  all_goals first
    | (rw [← hstay st hrun]
       exact handed_out_refl _ _ _)
    | (split at hrun
       · rcases hrun with hr | hr <;> simp at hr
         subst hr
         exact handed_out_refl _ _ _
       · rename_i neuron_count st0 hrated
         have hf := insertInput_rate_frame P h _ _ _ _ hrated
         have hp := insertInput_place_handed_out P h d neuron_count st0 st1 hrun
         rw [hf.1, hf.2.1] at hp
         exact hp)

theorem insertInput_loop_handed_out {R : Type} (P : InputPlacement R) (h : HICANNOnWafer) :
    ∀ (dncs : List DNCMergerOnHICANN) (st st1 : InsertState R),
      P.insertInput_loop h dncs st = .ok st1 →
      handed_out h st.neuron_placement st.address_assignment st1.neuron_placement
        st1.address_assignment := by
  intro dncs
  induction dncs with
  | nil =>
      intro st st1 hrun
      simp only [InputPlacement.insertInput_loop, Except.ok.injEq] at hrun
      subst hrun
      exact handed_out_refl _ _ _
  | cons d rest ih =>
      intro st st1 hrun
      simp only [InputPlacement.insertInput_loop] at hrun
      cases hb : P.insertInput_body h d st with
      | error e => simp [hb] at hrun
      | ok c =>
          cases c with
          | next s =>
              simp only [hb] at hrun
              exact handed_out_trans h _ _ _ _ _ _
                (insertInput_body_handed_out P h d st s (Or.inl hb)) (ih s st1 hrun)
          | done s =>
              simp only [hb, Except.ok.injEq] at hrun
              subst hrun
              exact insertInput_body_handed_out P h d st s (Or.inr hb)

end placement

namespace placement

theorem popAddresses_perm (d : DNCMergerOnHICANN) (strategy : Strategy) :
    ∀ (n : Nat) (a : L1AddressAssignment) (addresses : List Nat) (a1 : L1AddressAssignment),
      popAddresses d strategy n a = .ok (addresses, a1) →
      (∀ d1, d1 ≠ d → a1.m_address_pools d1 = a.m_address_pools d1) ∧
      (addresses ++ (a1.m_address_pools d).addresses).Perm (a.m_address_pools d).addresses := by
  intro n
  induction n with
  | zero =>
      intro a addresses a1 hrun
      simp only [popAddresses, Except.ok.injEq, Prod.mk.injEq] at hrun
      obtain ⟨h1, h2⟩ := hrun
      subst h1
      subst h2
      exact ⟨fun _ _ => rfl, List.Perm.refl _⟩
  | succ n ih =>
      intro a addresses a1 hrun
      simp only [popAddresses] at hrun
      cases hpop : (a.available_addresses d).pop strategy with
      | error e => simp [hpop] at hrun
      | ok res =>
          obtain ⟨x, pool⟩ := res
          simp only [hpop] at hrun
          cases hrec : popAddresses d strategy n (a.set_available_addresses d pool) with
          | error e => simp [hrec] at hrun
          | ok res2 =>
              obtain ⟨rest, a2⟩ := res2
              simp only [hrec, Except.ok.injEq, Prod.mk.injEq] at hrun
              obtain ⟨h1, h2⟩ := hrun
              subst h1
              subst h2
              have hi := ih _ _ _ hrec
              have hperm := L1AddressPool.pop_perm _ _ _ _ hpop
              refine ⟨?_, ?_⟩
              · intro d1 hne
                rw [hi.1 d1 hne]
                simp [L1AddressAssignment.set_available_addresses, Function.update_noteq hne]
              · have h3 := hi.2
                simp only [L1AddressAssignment.set_available_addresses, Function.update_same]
                  at h3
                exact (List.Perm.cons x h3).trans hperm

theorem addresses_on_insert (h : HICANNOnWafer) (nb : NeuronBlockOnHICANN)
    (d : DNCMergerOnHICANN) (bio : PopulationSlice) :
    ∀ (addresses : List Nat) (k : Nat) (p : List PlacementItem) (h1 : HICANNOnWafer)
      (d1 : DNCMergerOnHICANN),
      addresses_on (insert_address_mapping h nb d bio addresses k p) h1 d1
        = addresses_on p h1 d1 ++ (if h1 = h ∧ d1 = d then addresses else []) := by
  intro addresses
  induction addresses with
  | nil =>
      intro k p h1 d1
      simp [insert_address_mapping]
  | cons x rest ih =>
      intro k p h1 d1
      simp only [insert_address_mapping]
      rw [ih, addresses_on_add]
      by_cases hc : h1 = h ∧ d1 = d
      · simp [hc]
      · simp [hc]

theorem run_populations_handed_out (M : MergerRouting) (h : HICANNOnWafer)
    (nb : NeuronBlockOnHICANN) (d : DNCMergerOnHICANN) :
    ∀ (assigns : List NeuronPlacement) (p : List PlacementItem) (a : L1AddressAssignment)
      (p1 : List PlacementItem) (a1 : L1AddressAssignment),
      M.run_populations h nb d assigns p a = .ok (p1, a1) → handed_out h p a p1 a1 := by
  intro assigns
  induction assigns with
  | nil =>
      intro p a p1 a1 hrun
      simp only [MergerRouting.run_populations, Except.ok.injEq, Prod.mk.injEq] at hrun
      obtain ⟨h1, h2⟩ := hrun
      subst h1
      subst h2
      exact handed_out_refl _ _ _
  | cons assign rest ih =>
      intro p a p1 a1 hrun
      simp only [MergerRouting.run_populations] at hrun
      cases hpop : popAddresses d M.l1_address_assignment assign.population_slice.size a with
      | error e => simp [hpop] at hrun
      | ok res =>
          obtain ⟨addresses, a2⟩ := res
          simp only [hpop] at hrun
          have hpp := popAddresses_perm d _ _ _ _ _ hpop
          refine handed_out_trans h _ _ _ _ _ _ ?_ (ih _ _ _ _ hrun)
          refine ⟨?_, ?_⟩
          · intro h1 d1 hne
            rw [addresses_on_insert]
            simp [hne]
          · intro d1
            rw [addresses_on_insert]
            by_cases hd : d1 = d
            · subst hd
              simp only [true_and, if_true, List.append_assoc]
              exact List.Perm.append_left _ hpp.2
            · simp [hd, hpp.1 d1 hd]

theorem run_mapping_handed_out (M : MergerRouting) (h : HICANNOnWafer)
    (nbmap : NeuronBlockOnHICANN → List NeuronPlacement) :
    ∀ (mapping : List (NeuronBlockOnHICANN × DNCMergerOnHICANN)) (p : List PlacementItem)
      (a : L1AddressAssignment) (p1 : List PlacementItem) (a1 : L1AddressAssignment),
      M.run_mapping h nbmap mapping p a = .ok (p1, a1) → handed_out h p a p1 a1 := by
  intro mapping
  induction mapping with
  | nil =>
      intro p a p1 a1 hrun
      simp only [MergerRouting.run_mapping, Except.ok.injEq, Prod.mk.injEq] at hrun
      obtain ⟨h1, h2⟩ := hrun
      subst h1
      subst h2
      exact handed_out_refl _ _ _
  | cons entry rest ih =>
      intro p a p1 a1 hrun
      obtain ⟨nb, d⟩ := entry
      simp only [MergerRouting.run_mapping] at hrun
      cases hpop : M.run_populations h nb d (nbmap nb) p (a.set_mode d Mode.output) with
      | error e => simp [hpop] at hrun
      | ok res =>
          obtain ⟨p2, a2⟩ := res
          simp only [hpop] at hrun
          exact handed_out_trans h _ _ _ _ _ _
            (handed_out_trans h _ _ _ _ _ _ (handed_out_set_mode h p a d Mode.output)
              (run_populations_handed_out M h nb d _ _ _ _ _ hpop))
            (ih _ _ _ _ hrun)

/-- Handing out addresses of one chip keeps the addresses of every DNC merger of
the wafer pairwise different and between 1 and 63. -/
theorem addresses_consistent_of_handed_out {R : Type} (w w1 : WaferState R)
    (h : HICANNOnWafer) (a1 : L1AddressAssignment)
    (hc : addresses_consistent w)
    (ha : w1.address_assignment = Function.update w.address_assignment h a1)
    (hd : handed_out h w.neuron_placement (w.address_assignment h) w1.neuron_placement a1) :
    addresses_consistent w1 := by
  intro h1 d
  by_cases hh : h1 = h
  · subst hh
    have hperm := hd.2 d
    rw [ha, Function.update_same]
    refine ⟨(List.Perm.nodup_iff hperm).mpr (hc h1 d).1, ?_⟩
    intro x hx
    exact (hc h1 d).2 x ((List.Perm.mem_iff hperm).mp hx)
  · rw [ha, Function.update_noteq hh, hd.1 h1 d hh]
    exact hc h1 d

end placement

namespace placement

theorem addresses_on_of_no_address (p : List PlacementItem) (h : HICANNOnWafer)
    (d : DNCMergerOnHICANN) (hp : ∀ item ∈ p, item.address = none) :
    addresses_on p h d = [] := by
  unfold addresses_on
  rw [List.filterMap_eq_nil_iff]
  intro item hitem
  rw [hp item hitem]

theorem mem_addresses_on (p : List PlacementItem) (item : PlacementItem)
    (a : L1AddressOnWafer) (hitem : item ∈ p) (ha : item.address = some a) :
    a.address ∈ addresses_on p a.merger.hicann a.merger.dnc := by
  unfold addresses_on
  rw [List.mem_filterMap]
  exact ⟨item, hitem, by simp [ha]⟩

theorem placed_addresses_consistent {R : Type} (P : InputPlacement R) (M : MergerRouting)
    (w : WaferState R) (hw : WaferState.Placed P M w) : addresses_consistent w := by
  induction hw with
  | start p mgr hp =>
      intro h d
      simp only [addresses_on_of_no_address p h d hp, List.nil_append, L1AddressAssignment.init,
        L1AddressPool.full]
      refine ⟨List.nodup_range' 1 63, ?_⟩
      intro x hx
      rw [List.mem_range'_1] at hx
      omega
  | merger_routing w w1 h nbmap _ hrun ih =>
      unfold WaferState.merger_routing at hrun
      cases hr : M.run h nbmap w.neuron_placement (w.address_assignment h) with
      | error e => simp [hr] at hrun
      | ok res =>
          obtain ⟨p1, a1⟩ := res
          simp only [hr, Except.ok.injEq] at hrun
          subst hrun
          exact addresses_consistent_of_handed_out w _ h a1 ih rfl
            (run_mapping_handed_out M h nbmap _ _ _ _ _ hr)
  | insert_input w w1 h bio bio1 _ hrun ih =>
      unfold WaferState.insertInput at hrun
      cases hr : P.insertInput h ⟨w.neuron_placement, w.address_assignment h, bio,
          w.mUsedRateHICANN, w.mUsedRateFPGA, w.mMgr⟩ with
      | error e => simp [hr] at hrun
      | ok st =>
          simp only [hr, Except.ok.injEq, Prod.mk.injEq] at hrun
          obtain ⟨hw1, _⟩ := hrun
          subst hw1
          exact addresses_consistent_of_handed_out w _ h st.address_assignment ih rfl
            (insertInput_loop_handed_out P h _ _ _ hr)

theorem pairwise_of_addresses_on_nodup :
    ∀ (p : List PlacementItem), (∀ h d, (addresses_on p h d).Nodup) →
      p.Pairwise fun i j => ∀ a b, i.address = some a → j.address = some b →
        a.merger = b.merger → a.address ≠ b.address := by
  intro p
  induction p with
  | nil => intro _; exact List.Pairwise.nil
  | cons x l ih =>
      intro hnd
      have hsplit : ∀ h d, addresses_on (x :: l) h d
          = addresses_on [x] h d ++ addresses_on l h d := fun h d =>
        addresses_on_append [x] l h d
      refine List.Pairwise.cons ?_ (ih ?_)
      · intro y hy a b hxa hyb hm
        have hn := hnd b.merger.hicann b.merger.dnc
        rw [hsplit] at hn
        have hx : addresses_on [x] b.merger.hicann b.merger.dnc = [a.address] := by
          simp [addresses_on, hxa, hm]
        rw [hx] at hn
        have hmem := mem_addresses_on l y b hy hyb
        intro heq
        rw [← heq] at hmem
        simp only [List.singleton_append, List.nodup_cons] at hn
        exact hn.1 hmem
      · intro h d
        have hn := hnd h d
        rw [hsplit] at hn
        exact (List.nodup_append.mp hn).2.1

/-- C3: after any sequence of merger-routing runs and `insertInput` calls, no two
placement items on the same DNC merger of the wafer carry the same L1 address,
no item carries address 0, and the address of an item is no longer in the pool
of its merger. The address pool is modelled from the specification. -/
theorem address_uniqueness {R : Type} (P : InputPlacement R) (M : MergerRouting)
    (w : WaferState R) (hw : WaferState.Placed P M w) :
    (w.neuron_placement.Pairwise fun i j => ∀ a b, i.address = some a → j.address = some b →
        a.merger = b.merger → a.address ≠ b.address) ∧
    (∀ item ∈ w.neuron_placement, ∀ a, item.address = some a →
      a.address ≠ 0 ∧
      a.address ∉ ((w.address_assignment a.merger.hicann).available_addresses
        a.merger.dnc).addresses) := by
  have hc := placed_addresses_consistent P M w hw
  refine ⟨pairwise_of_addresses_on_nodup _ ?_, ?_⟩
  · intro h d
    exact (List.nodup_append.mp (hc h d).1).1
  · intro item hitem a ha
    have hmem := mem_addresses_on _ item a hitem ha
    refine ⟨?_, ?_⟩
    · have := (hc a.merger.hicann a.merger.dnc).2 a.address (List.mem_append_left _ hmem)
      omega
    · intro hpool
      exact (List.nodup_append.mp (hc a.merger.hicann a.merger.dnc).1).2.2 hmem hpool

/-- Witness for C3: two external neurons inserted on chip (0,0) get the addresses
1 and 2 of DNC merger 7. -/
theorem address_uniqueness_witness :
    WaferState.Placed sampleInputPlacement sampleMergerRouting sampleInserted ∧
    addresses_on sampleInserted.neuron_placement ⟨0, 0⟩ 7 = [1, 2] ∧
    (sampleInserted.neuron_placement.Pairwise fun i j => ∀ a b, i.address = some a →
      j.address = some b → a.merger = b.merger → a.address ≠ b.address) :=
  have hp : WaferState.Placed sampleInputPlacement sampleMergerRouting sampleInserted :=
    WaferState.Placed.insert_input sampleStart sampleInserted ⟨0, 0⟩ ⟨0, 0, 2⟩ ⟨0, 0, 0⟩
      (WaferState.Placed.start [] ⟨[⟨0, 0⟩], []⟩ (by simp)) rfl
  ⟨hp, by decide, (address_uniqueness sampleInputPlacement sampleMergerRouting sampleInserted hp).1⟩

end placement

/-! ## Bandwidth -/

namespace placement

theorem ratRateOps_min_le (a b : ℚ) : ratRateOps.min a b ≤ a ∧ ratRateOps.min a b ≤ b := by
  unfold RateOps.min ratRateOps
  simp only [decide_eq_true_eq]
  split_ifs with h
  · exact ⟨le_of_lt h, le_refl _⟩
  · exact ⟨le_refl _, not_lt.mp h⟩

/-- The rate summed up by `neuronsFittingIntoAvailableRate` stays below the
available rate as soon as one neuron was admitted. -/
theorem neuronsFitting_loop_lt (P : InputPlacement ℚ) (hq : P.arith = ratRateOps)
    (bio : PopulationSlice) (available_rate : ℚ) :
    ∀ (remaining i : Nat) (summed_rate : ℚ),
      P.neuronsFittingIntoAvailableRate_loop bio available_rate remaining i summed_rate
          = (i, summed_rate) ∨
        (P.neuronsFittingIntoAvailableRate_loop bio available_rate remaining i summed_rate).2
          < available_rate := by
  intro remaining
  induction remaining with
  | zero =>
      intro i s
      left
      rfl
  | succ n ih =>
      intro i s
      simp only [InputPlacement.neuronsFittingIntoAvailableRate_loop]
      split_ifs with hlt
      · right
        rcases ih (i + 1) (P.arith.add s
            (P.firing_rate bio.population (bio.offset + (bio.size - i - 1)))) with h | h
        · rw [h]
          simp only [hq, ratRateOps, decide_eq_true_eq] at hlt ⊢
          rw [add_comm]
          exact hlt
        · exact h
      · left
        rfl

theorem insertInput_rate_within (P : InputPlacement ℚ) (hq : P.arith = ratRateOps)
    (h : HICANNOnWafer) (n n1 : Nat) (st st1 : InsertState ℚ)
    (hw : rates_within P st.mUsedRateHICANN st.mUsedRateFPGA)
    (hr : P.insertInput_rate h n st = some (n1, st1)) :
    rates_within P st1.mUsedRateHICANN st1.mUsedRateFPGA := by
  unfold InputPlacement.insertInput_rate at hr
  by_cases hc : P.consider_firing_rate = true
  · simp only [hc, if_true] at hr
    split_ifs at hr with h0
    simp only [Option.some.injEq, Prod.mk.injEq] at hr
    rw [← hr.2]
    have hfit := neuronsFitting_loop_lt P hq st.bio (P.availableRate st h) n 0 (P.arith.ofNat 0)
    have hlt : (P.neuronsFittingIntoAvailableRate st.bio n (P.availableRate st h)).2
        < P.availableRate st h := by
      rcases hfit with hf | hf
      · exfalso
        apply h0
        unfold InputPlacement.neuronsFittingIntoAvailableRate
        rw [hf]
      · exact hf
    have hmin := ratRateOps_min_le
      (P.bandwidth_utilization * 17800000 - st.mUsedRateHICANN h)
      (P.bandwidth_utilization * 125000000 - st.mUsedRateFPGA (P.toFPGAOnWafer h))
    have havail : P.availableRate st h = ratRateOps.min
        (P.bandwidth_utilization * 17800000 - st.mUsedRateHICANN h)
        (P.bandwidth_utilization * 125000000 - st.mUsedRateFPGA (P.toFPGAOnWafer h)) := by
      simp [InputPlacement.availableRate, InputPlacement.max_rate_HICANN,
        InputPlacement.max_rate_FPGA, hq, ratRateOps]
    have hlt2 := lt_of_lt_of_eq hlt havail
    refine ⟨?_, ?_⟩
    · intro c
      by_cases hch : c = h
      · subst hch
        simp only [InputPlacement.allocateRate, Function.update_same, hq, ratRateOps]
        linarith [hmin.1, hlt2]
      · simp only [InputPlacement.allocateRate, Function.update_noteq hch]
        exact hw.1 c
    · intro f
      by_cases hf : f = P.toFPGAOnWafer h
      · subst hf
        simp only [InputPlacement.allocateRate, Function.update_same, hq, ratRateOps]
        linarith [hmin.2, hlt2]
      · simp only [InputPlacement.allocateRate, Function.update_noteq hf]
        exact hw.2 f
  · simp only [hc, Bool.false_eq_true, if_false, Option.some.injEq, Prod.mk.injEq] at hr
    rw [← hr.2]
    exact hw

end placement

namespace placement

theorem insertInput_place_rates {R : Type} (P : InputPlacement R) (h : HICANNOnWafer)
    (d : DNCMergerOnHICANN) (n : Nat) (st st1 : InsertState R)
    (hrun : P.insertInput_place h d n st = .ok (.next st1) ∨
      P.insertInput_place h d n st = .ok (.done st1)) :
    st1.mUsedRateHICANN = st.mUsedRateHICANN ∧ st1.mUsedRateFPGA = st.mUsedRateFPGA := by
  unfold InputPlacement.insertInput_place at hrun
  simp only at hrun
  cases hadd : P.insertInput_addresses h d (st.bio.slice_back n).1 n 0 st.neuron_placement
      (st.address_assignment.set_mode d Mode.input) with
  | error e =>
      rw [hadd] at hrun
      rcases hrun with hr | hr <;> simp at hr
  | ok res =>
      obtain ⟨p1, a1⟩ := res
      rw [hadd] at hrun
      simp only at hrun
      split_ifs at hrun
      all_goals
        rcases hrun with hr | hr <;> simp at hr
        subst hr
        exact ⟨rfl, rfl⟩

theorem insertInput_body_within (P : InputPlacement ℚ) (hq : P.arith = ratRateOps)
    (h : HICANNOnWafer) (d : DNCMergerOnHICANN) (st st1 : InsertState ℚ)
    (hw : rates_within P st.mUsedRateHICANN st.mUsedRateFPGA)
    (hrun : P.insertInput_body h d st = .ok (.next st1) ∨
      P.insertInput_body h d st = .ok (.done st1)) :
    rates_within P st1.mUsedRateHICANN st1.mUsedRateFPGA := by
  unfold InputPlacement.insertInput_body at hrun
  simp only at hrun
  have hstay : ∀ s : InsertState ℚ,
      (Except.ok (LoopControl.next s) = (Except.ok (LoopControl.next st1) :
          Except PlacementError (LoopControl (InsertState ℚ))) ∨
        Except.ok (LoopControl.next s) = (Except.ok (LoopControl.done st1) :
          Except PlacementError (LoopControl (InsertState ℚ)))) → s = st1 := by
    intro s hs
    rcases hs with hr | hr <;> simp at hr
    exact hr
  split_ifs at hrun with h1 h2 h3 h4
  all_goals first
    | (rw [← hstay st hrun]
       exact hw)
    | (split at hrun
       · rcases hrun with hr | hr <;> simp at hr
         subst hr
         exact hw
       · rename_i neuron_count st0 hrated
         have hf := insertInput_rate_within P hq h _ _ _ _ hw hrated
         have hp := insertInput_place_rates P h d neuron_count st0 st1 hrun
         rw [hp.1, hp.2]
         exact hf)

theorem insertInput_loop_within (P : InputPlacement ℚ) (hq : P.arith = ratRateOps)
    (h : HICANNOnWafer) :
    ∀ (dncs : List DNCMergerOnHICANN) (st st1 : InsertState ℚ),
      rates_within P st.mUsedRateHICANN st.mUsedRateFPGA →
      P.insertInput_loop h dncs st = .ok st1 →
      rates_within P st1.mUsedRateHICANN st1.mUsedRateFPGA := by
  intro dncs
  induction dncs with
  | nil =>
      intro st st1 hw hrun
      simp only [InputPlacement.insertInput_loop, Except.ok.injEq] at hrun
      subst hrun
      exact hw
  | cons d rest ih =>
      intro st st1 hw hrun
      simp only [InputPlacement.insertInput_loop] at hrun
      cases hb : P.insertInput_body h d st with
      | error e => simp [hb] at hrun
      | ok c =>
          cases c with
          | next s =>
              simp only [hb] at hrun
              exact ih s st1 (insertInput_body_within P hq h d st s hw (Or.inl hb)) hrun
          | done s =>
              simp only [hb, Except.ok.injEq] at hrun
              subst hrun
              exact insertInput_body_within P hq h d st s hw (Or.inr hb)

theorem availableRate_nonneg (P : InputPlacement ℚ) (hq : P.arith = ratRateOps)
    (st : InsertState ℚ) (h : HICANNOnWafer)
    (hw : rates_within P st.mUsedRateHICANN st.mUsedRateFPGA) :
    0 ≤ P.availableRate st h := by
  have havail : P.availableRate st h = ratRateOps.min
      (P.bandwidth_utilization * 17800000 - st.mUsedRateHICANN h)
      (P.bandwidth_utilization * 125000000 - st.mUsedRateFPGA (P.toFPGAOnWafer h)) := by
    simp [InputPlacement.availableRate, InputPlacement.max_rate_HICANN,
      InputPlacement.max_rate_FPGA, hq, ratRateOps]
  rw [havail]
  unfold RateOps.min ratRateOps
  simp only [decide_eq_true_eq]
  have h1 := hw.1 h
  have h2 := hw.2 (P.toFPGAOnWafer h)
  split_ifs <;> linarith

theorem placed_rates_within (P : InputPlacement ℚ) (M : MergerRouting) (w : WaferState ℚ)
    (hq : P.arith = ratRateOps) (hu : 0 < P.bandwidth_utilization)
    (hw : WaferState.Placed P M w) :
    rates_within P w.mUsedRateHICANN w.mUsedRateFPGA := by
  induction hw with
  | start p mgr hp =>
      simp only [rates_within, hq, ratRateOps, Nat.cast_zero]
      constructor <;> intro _ <;> positivity
  | merger_routing w w1 h nbmap _ hrun ih =>
      unfold WaferState.merger_routing at hrun
      cases hr : M.run h nbmap w.neuron_placement (w.address_assignment h) with
      | error e => simp [hr] at hrun
      | ok res =>
          obtain ⟨p1, a1⟩ := res
          simp only [hr, Except.ok.injEq] at hrun
          subst hrun
          exact ih
  | insert_input w w1 h bio bio1 _ hrun ih =>
      unfold WaferState.insertInput at hrun
      cases hr : P.insertInput h ⟨w.neuron_placement, w.address_assignment h, bio,
          w.mUsedRateHICANN, w.mUsedRateFPGA, w.mMgr⟩ with
      | error e => simp [hr] at hrun
      | ok st =>
          simp only [hr, Except.ok.injEq, Prod.mk.injEq] at hrun
          obtain ⟨hw1, _⟩ := hrun
          subst hw1
          exact insertInput_loop_within P hq h _ _ _ ih hr

/-- C4: in exact rational arithmetic and with a positive `bandwidth_utilization`
`u`, after any sequence of merger-routing runs and `insertInput` calls the rate
allocated to every chip is at most `u * 1.78e7` and the rate allocated to every
FPGA is at most `u * 1.25e8`; the same holds in every state `insertInput`
passes through on its way over the DNC mergers, and `availableRate` is never
negative there. With `consider_firing_rate` disabled no rate is allocated at
all, so the bound does not need that flag. -/
theorem bandwidth_invariant (P : InputPlacement ℚ) (M : MergerRouting) (w : WaferState ℚ)
    (hq : P.arith = ratRateOps) (hu : 0 < P.bandwidth_utilization)
    (hw : WaferState.Placed P M w) :
    (∀ h, w.mUsedRateHICANN h ≤ P.bandwidth_utilization * 17800000) ∧
    (∀ f, w.mUsedRateFPGA f ≤ P.bandwidth_utilization * 125000000) ∧
    (∀ target bio dncs st1,
      P.insertInput_loop target dncs
          ⟨w.neuron_placement, w.address_assignment target, bio, w.mUsedRateHICANN,
            w.mUsedRateFPGA, w.mMgr⟩ = .ok st1 →
      (∀ h, st1.mUsedRateHICANN h ≤ P.bandwidth_utilization * 17800000) ∧
      (∀ f, st1.mUsedRateFPGA f ≤ P.bandwidth_utilization * 125000000) ∧
      ∀ h, 0 ≤ P.availableRate st1 h) := by
  have hr := placed_rates_within P M w hq hu hw
  refine ⟨hr.1, hr.2, ?_⟩
  intro target bio dncs st1 hrun
  have h1 := insertInput_loop_within P hq target dncs _ st1 hr hrun
  exact ⟨h1.1, h1.2, fun h => availableRate_nonneg P hq st1 h h1⟩

end placement

/-! ## Chip boundaries -/

/-- C11: with current chip `c` (the chip of the visitor state), HLine(h) ->
ChipId(c1) is admissible exactly when `c1.x` differs from `c.x`, and then the
only segment admissible directly after ChipId(c1) is HLine(h.east()) when
`c1.x > c.x` and HLine(h.west()) when `c1.x < c.x`; VLine(v) -> ChipId(c1) is
admissible exactly when `c1.y` differs from `c.y`, and is then followed only by
VLine(v.south()) when `c1.y > c.y` and VLine(v.north()) when `c1.y < c.y`;
DNCMerger(m) -> ChipId(c1) is admissible exactly when `c1.x < c.x` and is then
the crossing of the HLine of the sending repeater of `m`. -/
theorem chip_boundary_crossing (T : Topology) (v : IsValidSuccessor) (h : HLineOnHICANN)
    (vl : VLineOnHICANN) (m : DNCMergerOnHICANN) (c1 : HICANNOnWafer) :
    ((call T v (.HLineOnHICANN h) (.HICANNOnWafer c1)).1 = true ↔
      c1.x ≠ v.m_current_hicann.x) ∧
    (c1.x ≠ v.m_current_hicann.x → ∀ s,
      (call T (call T v (.HLineOnHICANN h) (.HICANNOnWafer c1)).2 (.HICANNOnWafer c1) s).1 = true
        ↔ s = .HLineOnHICANN (if v.m_current_hicann.x < c1.x then T.east h else T.west h)) ∧
    ((call T v (.VLineOnHICANN vl) (.HICANNOnWafer c1)).1 = true ↔
      c1.y ≠ v.m_current_hicann.y) ∧
    (c1.y ≠ v.m_current_hicann.y → ∀ s,
      (call T (call T v (.VLineOnHICANN vl) (.HICANNOnWafer c1)).2 (.HICANNOnWafer c1) s).1 = true
        ↔ s = .VLineOnHICANN (if v.m_current_hicann.y < c1.y then T.south vl else T.north vl)) ∧
    ((call T v (.DNCMergerOnHICANN m) (.HICANNOnWafer c1)).1 = true ↔
      c1.x < v.m_current_hicann.x) ∧
    (c1.x < v.m_current_hicann.x →
      call T v (.DNCMergerOnHICANN m) (.HICANNOnWafer c1)
        = call T v (.HLineOnHICANN (T.toSendingRepeaterHLine m)) (.HICANNOnWafer c1) ∧
      ∀ s,
        (call T (call T v (.DNCMergerOnHICANN m) (.HICANNOnWafer c1)).2 (.HICANNOnWafer c1) s).1
            = true
          ↔ s = .HLineOnHICANN (T.west (T.toSendingRepeaterHLine m))) := by
  refine ⟨?_, ?_, ?_, ?_, ?_, ?_⟩
  · simp only [call, call_hline_hicann]
    split_ifs <;> simp <;> omega
  · intro hne s
    have h0 : ¬ ((v.m_current_hicann.x : Int) - (c1.x : Int) = 0) := by omega
    have hlt : ((v.m_current_hicann.x : Int) - (c1.x : Int) < 0) ↔ v.m_current_hicann.x < c1.x := by
      omega
    cases s <;> simp [call, call_hline_hicann, h0, hlt]
  · simp only [call, call_vline_hicann]
    split_ifs <;> simp <;> omega
  · intro hne s
    have h0 : ¬ ((v.m_current_hicann.y : Int) - (c1.y : Int) = 0) := by omega
    have hlt : ((v.m_current_hicann.y : Int) - (c1.y : Int) < 0) ↔ v.m_current_hicann.y < c1.y := by
      omega
    cases s <;> simp [call, call_vline_hicann, h0, hlt]
  · simp only [call, call_hline_hicann]
    split_ifs <;> simp <;> omega
  · intro hlt
    have h0 : ¬ (v.m_current_hicann.x ≤ c1.x) := by omega
    have h1 : ¬ ((v.m_current_hicann.x : Int) - (c1.x : Int) = 0) := by omega
    have h2 : ¬ ((v.m_current_hicann.x : Int) - (c1.x : Int) < 0) := by omega
    refine ⟨by simp [call, h0], ?_⟩
    intro s
    cases s <;> simp [call, call_hline_hicann, h0, h1, h2]

/-! ## Seed scenario 5 -/

/-- C12, as stated, fails: in a topology with a sparse crossbar the route of
seed scenario 5 with h = 0 and v = 0 is rejected by the verifying constructor
although HLine 2 is the east continuation of HLine 0 and the synapse switch at
(v, row of d) exists; the crossbar switch between VLine 0 and HLine 2 is
missing. -/
theorem scenario5_needs_crossbar :
    L1Route.of_segments sparseTopology (scenario5_route sparseTopology 0 0 ⟨0, 0⟩)
      = .error .InvalidRouteError ∧
    sparseTopology.synapse_switch_exists 0 (sparseTopology.toSynapseSwitchRowY ⟨0, 0⟩) = true ∧
    sparseTopology.crossbar_exists 0 (sparseTopology.east 0) = false :=
  ⟨rfl, rfl, rfl⟩

/-- C12, amended: the route of seed scenario 5 is accepted by the verifying
constructor exactly when the crossbar switch between VLine `v` and HLine
`h.east()` exists and the synapse switch at (`v`, synapse-switch row of `d`)
exists. -/
theorem scenario5_accepted_iff (T : Topology) (h : HLineOnHICANN) (v : VLineOnHICANN)
    (d : SynapseDriverOnHICANN) :
    (∃ r, L1Route.of_segments T (scenario5_route T h v d) = .ok r) ↔
      (T.crossbar_exists v (T.east h) = true ∧
        T.synapse_switch_exists v (T.toSynapseSwitchRowY d) = true) := by
  cases hc : T.crossbar_exists v (T.east h) <;>
    cases hs : T.synapse_switch_exists v (T.toSynapseSwitchRowY d) <;>
    simp [L1Route.of_segments, L1Route.verify, L1Route.find_invalid, scenario5_route,
      IsValidSuccessor.find_invalid, call, call_hline_hicann, init, hc, hs]

/-! ## Gbit links -/

namespace placement

theorem configureGbitLinks_body_other (a : L1AddressAssignment) (d n : DNCMergerOnHICANN)
    (l : Layer1) (hne : n ≠ d) :
    (configureGbitLinks_body a d l).gbit_link n = l.gbit_link n ∧
    (configureGbitLinks_body a d l).dnc_merger n = l.dnc_merger n ∧
    (configureGbitLinks_body a d l).merger0 n = l.merger0 n := by
  unfold configureGbitLinks_body
  cases a.mode d <;> simp [Function.update_noteq hne]

theorem configureGbitLinks_body_self (a : L1AddressAssignment) (n : DNCMergerOnHICANN)
    (l : Layer1) :
    (configureGbitLinks_body a n l).gbit_link n
      = (if a.mode n = Mode.output then Direction.TO_DNC else Direction.TO_HICANN) ∧
    (configureGbitLinks_body a n l).dnc_merger n
      = (if a.mode n = Mode.unused then ⟨MergerConfig.LEFT_ONLY, false⟩
          else ⟨MergerConfig.MERGE, true⟩) ∧
    (configureGbitLinks_body a n l).merger0 n
      = (if a.mode n = Mode.input then Merger.of_config MergerConfig.LEFT_ONLY
          else l.merger0 n) := by
  unfold configureGbitLinks_body
  cases hm : a.mode n <;> simp [Merger.of_config]

theorem configureGbitLinks_loop_other (a : L1AddressAssignment) (n : DNCMergerOnHICANN) :
    ∀ (ds : List DNCMergerOnHICANN) (l : Layer1), n ∉ ds →
      (configureGbitLinks_loop a ds l).gbit_link n = l.gbit_link n ∧
      (configureGbitLinks_loop a ds l).dnc_merger n = l.dnc_merger n ∧
      (configureGbitLinks_loop a ds l).merger0 n = l.merger0 n := by
  intro ds
  induction ds with
  | nil => intro l _; exact ⟨rfl, rfl, rfl⟩
  | cons d rest ih =>
      intro l hn
      simp only [List.mem_cons, not_or] at hn
      have h1 := ih (configureGbitLinks_body a d l) hn.2
      have h2 := configureGbitLinks_body_other a d n l hn.1
      simp only [configureGbitLinks_loop]
      exact ⟨h1.1.trans h2.1, h1.2.1.trans h2.2.1, h1.2.2.trans h2.2.2⟩

theorem configureGbitLinks_loop_mem (a : L1AddressAssignment) (n : DNCMergerOnHICANN) :
    ∀ (ds : List DNCMergerOnHICANN) (l : Layer1), ds.Nodup → n ∈ ds →
      (configureGbitLinks_loop a ds l).gbit_link n
        = (configureGbitLinks_body a n l).gbit_link n ∧
      (configureGbitLinks_loop a ds l).dnc_merger n
        = (configureGbitLinks_body a n l).dnc_merger n ∧
      (configureGbitLinks_loop a ds l).merger0 n
        = (configureGbitLinks_body a n l).merger0 n := by
  intro ds
  induction ds with
  | nil => intro l _ hn; simp at hn
  | cons d rest ih =>
      intro l hnd hn
      simp only [List.nodup_cons] at hnd
      simp only [configureGbitLinks_loop]
      by_cases hd : n = d
      · subst hd
        exact configureGbitLinks_loop_other a n rest _ hnd.1
      · have hmem : n ∈ rest := by
          rcases List.mem_cons.mp hn with h | h
          · exact absurd h hd
          · exact h
        have h1 := ih (configureGbitLinks_body a d l) hnd.2 hmem
        have h2 := configureGbitLinks_body_other a d n l hd
        have h3 := configureGbitLinks_body_self a n (configureGbitLinks_body a d l)
        have h4 := configureGbitLinks_body_self a n l
        refine ⟨h1.1.trans ?_, h1.2.1.trans ?_, h1.2.2.trans ?_⟩
        · rw [h3.1, h4.1]
        · rw [h3.2.1, h4.2.1]
        · rw [h3.2.2, h4.2.2, h2.2.2]

/-- C14: after `configureGbitLinks`, for every DNC merger `n` of the chip the
gbit-link direction, the DNC merger configuration and the slow flag are
(TO_DNC, MERGE, true) if the mode of `n` is output, (TO_HICANN, MERGE, true)
with Merger0(n) set to LEFT_ONLY if it is input, and (TO_HICANN, LEFT_ONLY,
false) if it is unused; Merger0(n) is written only in mode input, and slow is
set only together with MERGE. -/
theorem configureGbitLinks_by_mode (a : L1AddressAssignment) (l : Layer1)
    (n : DNCMergerOnHICANN) :
    (a.mode n = Mode.output →
      (configureGbitLinks a l).gbit_link n = Direction.TO_DNC ∧
      (configureGbitLinks a l).dnc_merger n = ⟨MergerConfig.MERGE, true⟩ ∧
      (configureGbitLinks a l).merger0 n = l.merger0 n) ∧
    (a.mode n = Mode.input →
      (configureGbitLinks a l).gbit_link n = Direction.TO_HICANN ∧
      (configureGbitLinks a l).dnc_merger n = ⟨MergerConfig.MERGE, true⟩ ∧
      ((configureGbitLinks a l).merger0 n).config = MergerConfig.LEFT_ONLY) ∧
    (a.mode n = Mode.unused →
      (configureGbitLinks a l).gbit_link n = Direction.TO_HICANN ∧
      (configureGbitLinks a l).dnc_merger n = ⟨MergerConfig.LEFT_ONLY, false⟩ ∧
      (configureGbitLinks a l).merger0 n = l.merger0 n) ∧
    (((configureGbitLinks a l).dnc_merger n).slow = true →
      ((configureGbitLinks a l).dnc_merger n).config = MergerConfig.MERGE) := by
  have h := configureGbitLinks_loop_mem a n (List.finRange 8) l (List.nodup_finRange 8)
    (List.mem_finRange n)
  have hs := configureGbitLinks_body_self a n l
  unfold configureGbitLinks
  rw [h.1, h.2.1, h.2.2, hs.1, hs.2.1, hs.2.2]
  cases hm : a.mode n <;> simp [Merger.of_config]

end placement

/-! ## Unused mergers -/

namespace placement

theorem unused_kept_refl (a : L1AddressAssignment) : unused_kept a a :=
  fun _ h => ⟨h, rfl⟩

theorem unused_kept_trans (a a1 a2 : L1AddressAssignment) (h1 : unused_kept a a1)
    (h2 : unused_kept a1 a2) : unused_kept a a2 := by
  intro d hd
  have h3 := h2 d hd
  have h4 := h1 d h3.1
  exact ⟨h4.1, h3.2.trans h4.2⟩

/-- The address loop of `insertInput` leaves the modes and the pools of the
other mergers as they are. -/
theorem insertInput_addresses_frame {R : Type} (P : InputPlacement R) (h : HICANNOnWafer)
    (d : DNCMergerOnHICANN) (slice : PopulationSlice) :
    ∀ (remaining ii : Nat) (p : List PlacementItem) (a : L1AddressAssignment)
      (p1 : List PlacementItem) (a1 : L1AddressAssignment),
      P.insertInput_addresses h d slice remaining ii p a = .ok (p1, a1) →
      a1.m_mode = a.m_mode ∧
      ∀ d1, d1 ≠ d → a1.m_address_pools d1 = a.m_address_pools d1 := by
  intro remaining
  induction remaining with
  | zero =>
      intro ii p a p1 a1 hrun
      simp only [InputPlacement.insertInput_addresses, Except.ok.injEq, Prod.mk.injEq] at hrun
      obtain ⟨_, ha⟩ := hrun
      subst ha
      exact ⟨rfl, fun _ _ => rfl⟩
  | succ n ih =>
      intro ii p a p1 a1 hrun
      simp only [InputPlacement.insertInput_addresses] at hrun
      cases hpop : (a.available_addresses d).pop P.strategy with
      | error e => simp [hpop] at hrun
      | ok res =>
          obtain ⟨x, pool⟩ := res
          simp only [hpop] at hrun
          have hi := ih _ _ _ _ _ hrun
          refine ⟨hi.1, ?_⟩
          intro d1 hne
          rw [hi.2 d1 hne]
          simp [L1AddressAssignment.set_available_addresses, Function.update_noteq hne]

theorem popAddresses_mode (d : DNCMergerOnHICANN) (strategy : Strategy) :
    ∀ (n : Nat) (a : L1AddressAssignment) (addresses : List Nat) (a1 : L1AddressAssignment),
      popAddresses d strategy n a = .ok (addresses, a1) → a1.m_mode = a.m_mode := by
  intro n
  induction n with
  | zero =>
      intro a addresses a1 hrun
      simp only [popAddresses, Except.ok.injEq, Prod.mk.injEq] at hrun
      rw [← hrun.2]
  | succ n ih =>
      intro a addresses a1 hrun
      simp only [popAddresses] at hrun
      cases hpop : (a.available_addresses d).pop strategy with
      | error e => simp [hpop] at hrun
      | ok res =>
          obtain ⟨x, pool⟩ := res
          simp only [hpop] at hrun
          cases hrec : popAddresses d strategy n (a.set_available_addresses d pool) with
          | error e => simp [hrec] at hrun
          | ok res2 =>
              obtain ⟨rest, a2⟩ := res2
              simp only [hrec, Except.ok.injEq, Prod.mk.injEq] at hrun
              rw [← hrun.2, ih _ _ _ hrec]
              rfl

/-- Drawing from the pool of a merger that is not in mode unused keeps the unused
mergers. -/
theorem unused_kept_of_frame (a a1 : L1AddressAssignment) (d : DNCMergerOnHICANN)
    (hd : a.mode d ≠ Mode.unused) (hm : a1.m_mode = a.m_mode)
    (hp : ∀ d1, d1 ≠ d → a1.m_address_pools d1 = a.m_address_pools d1) :
    unused_kept a a1 := by
  intro d1 h1
  have h2 : a.mode d1 = Mode.unused := by
    unfold L1AddressAssignment.mode at h1 ⊢
    rw [← hm]
    exact h1
  have hne : d1 ≠ d := by
    intro he
    rw [he] at h2
    exact hd h2
  exact ⟨h2, hp d1 hne⟩

theorem unused_kept_set_mode (a : L1AddressAssignment) (d : DNCMergerOnHICANN) (m : Mode)
    (hm : m ≠ Mode.unused) : unused_kept a (a.set_mode d m) := by
  intro d1 h1
  by_cases hd : d1 = d
  · subst hd
    simp [L1AddressAssignment.mode, L1AddressAssignment.set_mode] at h1
    exact absurd h1 hm
  · simp only [L1AddressAssignment.mode, L1AddressAssignment.set_mode,
      Function.update_noteq hd] at h1
    exact ⟨h1, rfl⟩

theorem insertInput_place_unused {R : Type} (P : InputPlacement R) (h : HICANNOnWafer)
    (d : DNCMergerOnHICANN) (n : Nat) (st st1 : InsertState R)
    (hrun : P.insertInput_place h d n st = .ok (.next st1) ∨
      P.insertInput_place h d n st = .ok (.done st1)) :
    unused_kept st.address_assignment st1.address_assignment := by
  unfold InputPlacement.insertInput_place at hrun
  simp only at hrun
  cases hadd : P.insertInput_addresses h d (st.bio.slice_back n).1 n 0 st.neuron_placement
      (st.address_assignment.set_mode d Mode.input) with
  | error e =>
      rw [hadd] at hrun
      rcases hrun with hr | hr <;> simp at hr
  | ok res =>
      obtain ⟨p1, a1⟩ := res
      rw [hadd] at hrun
      have hf := insertInput_addresses_frame P h d _ _ _ _ _ _ _ hadd
      have hk : unused_kept st.address_assignment a1 :=
        unused_kept_trans _ _ _
          (unused_kept_set_mode st.address_assignment d Mode.input (by decide))
          (unused_kept_of_frame _ a1 d
            (by simp [L1AddressAssignment.mode, L1AddressAssignment.set_mode]) hf.1 hf.2)
      simp only at hrun
      split_ifs at hrun
      all_goals
        rcases hrun with hr | hr <;> simp at hr
        subst hr
        exact hk

theorem insertInput_body_unused {R : Type} (P : InputPlacement R) (h : HICANNOnWafer)
    (d : DNCMergerOnHICANN) (st st1 : InsertState R)
    (hrun : P.insertInput_body h d st = .ok (.next st1) ∨
      P.insertInput_body h d st = .ok (.done st1)) :
    unused_kept st.address_assignment st1.address_assignment := by
  unfold InputPlacement.insertInput_body at hrun
  simp only at hrun
  have hstay : ∀ s : InsertState R,
      (Except.ok (LoopControl.next s) = (Except.ok (LoopControl.next st1) :
          Except PlacementError (LoopControl (InsertState R))) ∨
        Except.ok (LoopControl.next s) = (Except.ok (LoopControl.done st1) :
          Except PlacementError (LoopControl (InsertState R)))) → s = st1 := by
    intro s hs
    rcases hs with hr | hr <;> simp at hr
    exact hr
  split_ifs at hrun with h1 h2 h3 h4
  all_goals first
    | (rw [← hstay st hrun]
       exact unused_kept_refl _)
    | (split at hrun
       · rcases hrun with hr | hr <;> simp at hr
         subst hr
         exact unused_kept_refl _
       · rename_i neuron_count st0 hrated
         have hf := insertInput_rate_frame P h _ _ _ _ hrated
         have hp := insertInput_place_unused P h d neuron_count st0 st1 hrun
         rw [hf.2.1] at hp
         exact hp)

theorem insertInput_loop_unused {R : Type} (P : InputPlacement R) (h : HICANNOnWafer) :
    ∀ (dncs : List DNCMergerOnHICANN) (st st1 : InsertState R),
      P.insertInput_loop h dncs st = .ok st1 →
      unused_kept st.address_assignment st1.address_assignment := by
  intro dncs
  induction dncs with
  | nil =>
      intro st st1 hrun
      simp only [InputPlacement.insertInput_loop, Except.ok.injEq] at hrun
      subst hrun
      exact unused_kept_refl _
  | cons d rest ih =>
      intro st st1 hrun
      simp only [InputPlacement.insertInput_loop] at hrun
      cases hb : P.insertInput_body h d st with
      | error e => simp [hb] at hrun
      | ok c =>
          cases c with
          | next s =>
              simp only [hb] at hrun
              exact unused_kept_trans _ _ _
                (insertInput_body_unused P h d st s (Or.inl hb)) (ih s st1 hrun)
          | done s =>
              simp only [hb, Except.ok.injEq] at hrun
              subst hrun
              exact insertInput_body_unused P h d st s (Or.inr hb)

end placement

namespace placement

theorem run_populations_frame (M : MergerRouting) (h : HICANNOnWafer)
    (nb : NeuronBlockOnHICANN) (d : DNCMergerOnHICANN) :
    ∀ (assigns : List NeuronPlacement) (p : List PlacementItem) (a : L1AddressAssignment)
      (p1 : List PlacementItem) (a1 : L1AddressAssignment),
      M.run_populations h nb d assigns p a = .ok (p1, a1) →
      a1.m_mode = a.m_mode ∧
      ∀ d1, d1 ≠ d → a1.m_address_pools d1 = a.m_address_pools d1 := by
  intro assigns
  induction assigns with
  | nil =>
      intro p a p1 a1 hrun
      simp only [MergerRouting.run_populations, Except.ok.injEq, Prod.mk.injEq] at hrun
      rw [← hrun.2]
      exact ⟨rfl, fun _ _ => rfl⟩
  | cons assign rest ih =>
      intro p a p1 a1 hrun
      simp only [MergerRouting.run_populations] at hrun
      cases hpop : popAddresses d M.l1_address_assignment assign.population_slice.size a with
      | error e => simp [hpop] at hrun
      | ok res =>
          obtain ⟨addresses, a2⟩ := res
          simp only [hpop] at hrun
          have hi := ih _ _ _ _ hrun
          have hm := popAddresses_mode d _ _ _ _ _ hpop
          have hp := popAddresses_perm d _ _ _ _ _ hpop
          refine ⟨hi.1.trans hm, ?_⟩
          intro d1 hne
          rw [hi.2 d1 hne, hp.1 d1 hne]

theorem run_mapping_unused (M : MergerRouting) (h : HICANNOnWafer)
    (nbmap : NeuronBlockOnHICANN → List NeuronPlacement) :
    ∀ (mapping : List (NeuronBlockOnHICANN × DNCMergerOnHICANN)) (p : List PlacementItem)
      (a : L1AddressAssignment) (p1 : List PlacementItem) (a1 : L1AddressAssignment),
      M.run_mapping h nbmap mapping p a = .ok (p1, a1) → unused_kept a a1 := by
  intro mapping
  induction mapping with
  | nil =>
      intro p a p1 a1 hrun
      simp only [MergerRouting.run_mapping, Except.ok.injEq, Prod.mk.injEq] at hrun
      rw [← hrun.2]
      exact unused_kept_refl _
  | cons entry rest ih =>
      intro p a p1 a1 hrun
      obtain ⟨nb, d⟩ := entry
      simp only [MergerRouting.run_mapping] at hrun
      cases hpop : M.run_populations h nb d (nbmap nb) p (a.set_mode d Mode.output) with
      | error e => simp [hpop] at hrun
      | ok res =>
          obtain ⟨p2, a2⟩ := res
          simp only [hpop] at hrun
          have hf := run_populations_frame M h nb d _ _ _ _ _ hpop
          exact unused_kept_trans _ _ _
            (unused_kept_trans _ _ _ (unused_kept_set_mode a d Mode.output (by decide))
              (unused_kept_of_frame _ a2 d
                (by simp [L1AddressAssignment.mode, L1AddressAssignment.set_mode]) hf.1 hf.2))
            (ih _ _ _ _ hrun)

/-- C18: a freshly constructed `L1AddressAssignment` has all eight DNC mergers in
mode unused with a full pool, and after any sequence of merger-routing runs and
`insertInput` calls every DNC merger of the wafer that is still in mode unused
has exactly its initial address pool: no address was drawn from it. -/
theorem unused_pool_untouched {R : Type} (P : InputPlacement R) (M : MergerRouting)
    (w : WaferState R) (hw : WaferState.Placed P M w) :
    (∀ d, L1AddressAssignment.init.mode d = Mode.unused ∧
      L1AddressAssignment.init.available_addresses d = L1AddressPool.full) ∧
    (∀ h d, (w.address_assignment h).mode d = Mode.unused →
      (w.address_assignment h).available_addresses d = L1AddressPool.full) := by
  refine ⟨fun _ => ⟨rfl, rfl⟩, ?_⟩
  induction hw with
  | start p mgr hp =>
      intro h d _
      rfl
  | merger_routing w w1 h nbmap _ hrun ih =>
      unfold WaferState.merger_routing at hrun
      cases hr : M.run h nbmap w.neuron_placement (w.address_assignment h) with
      | error e => simp [hr] at hrun
      | ok res =>
          obtain ⟨p1, a1⟩ := res
          simp only [hr, Except.ok.injEq] at hrun
          subst hrun
          intro c d hd
          by_cases hc : c = h
          · subst hc
            simp only [Function.update_same] at hd ⊢
            have hk := run_mapping_unused M c nbmap _ _ _ _ _ hr d hd
            rw [hk.2]
            exact ih c d hk.1
          · simp only [Function.update_noteq hc] at hd ⊢
            exact ih c d hd
  | insert_input w w1 h bio bio1 _ hrun ih =>
      unfold WaferState.insertInput at hrun
      cases hr : P.insertInput h ⟨w.neuron_placement, w.address_assignment h, bio,
          w.mUsedRateHICANN, w.mUsedRateFPGA, w.mMgr⟩ with
      | error e => simp [hr] at hrun
      | ok st =>
          simp only [hr, Except.ok.injEq, Prod.mk.injEq] at hrun
          obtain ⟨hw1, _⟩ := hrun
          subst hw1
          intro c d hd
          by_cases hc : c = h
          · subst hc
            simp only [Function.update_same] at hd ⊢
            have hk := insertInput_loop_unused P c _ _ _ hr d hd
            rw [hk.2]
            exact ih c d hk.1
          · simp only [Function.update_noteq hc] at hd ⊢
            exact ih c d hd

/-- Witness for C18: after two external neurons were inserted on chip (0,0),
DNC merger 6 of that chip is still unused and has its full pool. -/
theorem unused_pool_untouched_witness :
    WaferState.Placed sampleInputPlacement sampleMergerRouting sampleInserted ∧
    (sampleInserted.address_assignment ⟨0, 0⟩).mode 6 = Mode.unused ∧
    (sampleInserted.address_assignment ⟨0, 0⟩).available_addresses 6 = L1AddressPool.full :=
  have hp : WaferState.Placed sampleInputPlacement sampleMergerRouting sampleInserted :=
    WaferState.Placed.insert_input sampleStart sampleInserted ⟨0, 0⟩ ⟨0, 0, 2⟩ ⟨0, 0, 0⟩
      (WaferState.Placed.start [] ⟨[⟨0, 0⟩], []⟩ (by simp)) rfl
  ⟨hp, by decide,
   (unused_pool_untouched sampleInputPlacement sampleMergerRouting sampleInserted hp).2
     ⟨0, 0⟩ 6 (by decide)⟩

end placement

/-! ## The one-to-one merger mapping -/

namespace placement

theorem popAddresses_length (d : DNCMergerOnHICANN) (strategy : Strategy) :
    ∀ (n : Nat) (a : L1AddressAssignment) (addresses : List Nat) (a1 : L1AddressAssignment),
      popAddresses d strategy n a = .ok (addresses, a1) → addresses.length = n := by
  intro n
  induction n with
  | zero =>
      intro a addresses a1 hrun
      simp only [popAddresses, Except.ok.injEq, Prod.mk.injEq] at hrun
      rw [← hrun.1]
      rfl
  | succ n ih =>
      intro a addresses a1 hrun
      simp only [popAddresses] at hrun
      cases hpop : (a.available_addresses d).pop strategy with
      | error e => simp [hpop] at hrun
      | ok res =>
          obtain ⟨x, pool⟩ := res
          simp only [hpop] at hrun
          cases hrec : popAddresses d strategy n (a.set_available_addresses d pool) with
          | error e => simp [hrec] at hrun
          | ok res2 =>
              obtain ⟨rest, a2⟩ := res2
              simp only [hrec, Except.ok.injEq, Prod.mk.injEq] at hrun
              rw [← hrun.1, List.length_cons, ih _ _ _ hrec]

/-- The items `insert_address_mapping` appends: one item per address, for the
neurons of the slice from position `k` on, each on the given neuron block and
with an address of the given DNC merger. -/
theorem insert_address_mapping_items (h : HICANNOnWafer) (nb : NeuronBlockOnHICANN)
    (d : DNCMergerOnHICANN) (bio : PopulationSlice) :
    ∀ (addresses : List Nat) (k : Nat) (p : List PlacementItem),
      ∃ new, insert_address_mapping h nb d bio addresses k p = p ++ new ∧
        (∀ item ∈ new, ∃ pos x, item.logical_neuron = .on_chip ⟨nb, h⟩ pos ∧
          item.address = some ⟨⟨d, h⟩, x⟩) ∧
        ∀ i, k ≤ i → i < k + addresses.length →
          ∃ item ∈ new,
            item.bio_neuron = ⟨bio.population, bio.offset + i⟩ ∧
            ∃ x, item.address = some ⟨⟨d, h⟩, x⟩ := by
  intro addresses
  induction addresses with
  | nil =>
      intro k p
      refine ⟨[], by simp [insert_address_mapping], by simp, ?_⟩
      intro i h1 h2
      simp at h2
      omega
  | cons x rest ih =>
      intro k p
      simp only [insert_address_mapping]
      obtain ⟨new, hnew, hshape, hex⟩ := ih (k + 1)
        (add_with_address p ⟨bio.population, bio.offset + k⟩
          (.on_chip ⟨nb, h⟩ (bio.offset + k)) ⟨⟨d, h⟩, x⟩)
      refine ⟨(⟨⟨bio.population, bio.offset + k⟩, .on_chip ⟨nb, h⟩ (bio.offset + k),
        some ⟨⟨d, h⟩, x⟩⟩ : PlacementItem) :: new, ?_, ?_, ?_⟩
      · rw [hnew]
        simp [add_with_address]
      · intro item hitem
        rcases List.mem_cons.mp hitem with hi | hi
        · subst hi
          exact ⟨_, _, rfl, rfl⟩
        · exact hshape item hi
      · intro i h1 h2
        by_cases hik : i = k
        · subst hik
          exact ⟨⟨⟨bio.population, bio.offset + i⟩, .on_chip ⟨nb, h⟩ (bio.offset + i),
            some ⟨⟨d, h⟩, x⟩⟩, List.mem_cons_self _ _, rfl, x, rfl⟩
        · simp only [List.length_cons] at h2
          obtain ⟨item, hitem, hb, hx⟩ := hex i (by omega) (by omega)
          exact ⟨item, List.mem_cons_of_mem _ hitem, hb, hx⟩

theorem run_populations_items (M : MergerRouting) (h : HICANNOnWafer)
    (nb : NeuronBlockOnHICANN) (d : DNCMergerOnHICANN) :
    ∀ (assigns : List NeuronPlacement) (p : List PlacementItem) (a : L1AddressAssignment)
      (p1 : List PlacementItem) (a1 : L1AddressAssignment),
      M.run_populations h nb d assigns p a = .ok (p1, a1) →
      ∃ new, p1 = p ++ new ∧
        (∀ item ∈ new, ∃ pos x, item.logical_neuron = .on_chip ⟨nb, h⟩ pos ∧
          item.address = some ⟨⟨d, h⟩, x⟩) ∧
        ∀ assign ∈ assigns, ∀ k, k < assign.population_slice.size →
          ∃ item ∈ new,
            item.bio_neuron = ⟨assign.population_slice.population,
              assign.population_slice.offset + k⟩ ∧
            ∃ x, item.address = some ⟨⟨d, h⟩, x⟩ := by
  intro assigns
  induction assigns with
  | nil =>
      intro p a p1 a1 hrun
      simp only [MergerRouting.run_populations, Except.ok.injEq, Prod.mk.injEq] at hrun
      rw [← hrun.1]
      exact ⟨[], by simp, by simp, by simp⟩
  | cons assign rest ih =>
      intro p a p1 a1 hrun
      simp only [MergerRouting.run_populations] at hrun
      cases hpop : popAddresses d M.l1_address_assignment assign.population_slice.size a with
      | error e => simp [hpop] at hrun
      | ok res =>
          obtain ⟨addresses, a2⟩ := res
          simp only [hpop] at hrun
          have hlen := popAddresses_length d _ _ _ _ _ hpop
          obtain ⟨new1, hnew1, hshape1, hex1⟩ :=
            insert_address_mapping_items h nb d assign.population_slice addresses 0 p
          obtain ⟨new2, hnew2, hshape2, hex2⟩ := ih _ _ _ _ hrun
          refine ⟨new1 ++ new2, ?_, ?_, ?_⟩
          · rw [hnew2, hnew1, List.append_assoc]
          · intro item hitem
            rcases List.mem_append.mp hitem with hi | hi
            · exact hshape1 item hi
            · exact hshape2 item hi
          · intro as2 has k hk
            rcases List.mem_cons.mp has with he | he
            · subst he
              obtain ⟨item, hitem, hb, hx⟩ := hex1 k (Nat.zero_le k) (by omega)
              exact ⟨item, List.mem_append_left _ hitem, hb, hx⟩
            · obtain ⟨item, hitem, hb, hx⟩ := hex2 as2 he k hk
              exact ⟨item, List.mem_append_right _ hitem, hb, hx⟩

end placement

namespace placement

theorem run_mapping_items (M : MergerRouting) (h : HICANNOnWafer)
    (nbmap : NeuronBlockOnHICANN → List NeuronPlacement) :
    ∀ (mapping : List (NeuronBlockOnHICANN × DNCMergerOnHICANN)) (p : List PlacementItem)
      (a : L1AddressAssignment) (p1 : List PlacementItem) (a1 : L1AddressAssignment),
      M.run_mapping h nbmap mapping p a = .ok (p1, a1) →
      (∀ d, (a.mode d = Mode.output ∨ d ∈ mapping.map Prod.snd) → a1.mode d = Mode.output) ∧
      (∀ d, d ∉ mapping.map Prod.snd →
        a1.mode d = a.mode d ∧ a1.available_addresses d = a.available_addresses d) ∧
      ∃ new, p1 = p ++ new ∧
        (∀ item ∈ new, ∃ e ∈ mapping, ∃ pos x,
          item.logical_neuron = .on_chip ⟨e.1, h⟩ pos ∧
          item.address = some ⟨⟨e.2, h⟩, x⟩) ∧
        ∀ e ∈ mapping, ∀ assign ∈ nbmap e.1, ∀ k, k < assign.population_slice.size →
          ∃ item ∈ new,
            item.bio_neuron = ⟨assign.population_slice.population,
              assign.population_slice.offset + k⟩ ∧
            ∃ x, item.address = some ⟨⟨e.2, h⟩, x⟩ := by
  intro mapping
  induction mapping with
  | nil =>
      intro p a p1 a1 hrun
      simp only [MergerRouting.run_mapping, Except.ok.injEq, Prod.mk.injEq] at hrun
      rw [← hrun.1, ← hrun.2]
      refine ⟨?_, fun _ _ => ⟨rfl, rfl⟩, [], by simp, by simp, by simp⟩
      intro d hd
      rcases hd with hd | hd
      · exact hd
      · simp at hd
  | cons entry rest ih =>
      intro p a p1 a1 hrun
      obtain ⟨nb, d⟩ := entry
      simp only [MergerRouting.run_mapping] at hrun
      cases hpop : M.run_populations h nb d (nbmap nb) p (a.set_mode d Mode.output) with
      | error e => simp [hpop] at hrun
      | ok res =>
          obtain ⟨p2, a2⟩ := res
          simp only [hpop] at hrun
          have hf := run_populations_frame M h nb d _ _ _ _ _ hpop
          obtain ⟨new1, hnew1, hshape1, hex1⟩ := run_populations_items M h nb d _ _ _ _ _ hpop
          obtain ⟨hout, hkeep, new2, hnew2, hshape2, hex2⟩ := ih _ _ _ _ hrun
          have hmode2 : ∀ c, a2.mode c = (a.set_mode d Mode.output).mode c := by
            intro c
            unfold L1AddressAssignment.mode
            rw [hf.1]
          refine ⟨?_, ?_, new1 ++ new2, ?_, ?_, ?_⟩
          · intro c hc
            apply hout c
            by_cases hcd : c = d
            · left
              rw [hmode2, hcd]
              simp [L1AddressAssignment.mode, L1AddressAssignment.set_mode]
            · rcases hc with hc | hc
              · left
                rw [hmode2]
                simp only [L1AddressAssignment.mode, L1AddressAssignment.set_mode,
                  Function.update_noteq hcd]
                exact hc
              · right
                simp only [List.map_cons, List.mem_cons] at hc
                rcases hc with hc | hc
                · exact absurd hc hcd
                · exact hc
          · intro c hc
            simp only [List.map_cons, List.mem_cons, not_or] at hc
            have h1 := hkeep c hc.2
            refine ⟨?_, ?_⟩
            · rw [h1.1, hmode2]
              simp [L1AddressAssignment.mode, L1AddressAssignment.set_mode,
                Function.update_noteq hc.1]
            · rw [h1.2]
              unfold L1AddressAssignment.available_addresses
              rw [hf.2 c hc.1]
              rfl
          · rw [hnew2, hnew1, List.append_assoc]
          · intro item hitem
            rcases List.mem_append.mp hitem with hi | hi
            · obtain ⟨pos, x, h1, h2⟩ := hshape1 item hi
              exact ⟨(nb, d), List.mem_cons_self _ _, pos, x, h1, h2⟩
            · obtain ⟨e, he, pos, x, h1, h2⟩ := hshape2 item hi
              exact ⟨e, List.mem_cons_of_mem _ he, pos, x, h1, h2⟩
          · intro e he assign hassign k hk
            rcases List.mem_cons.mp he with h1 | h1
            · subst h1
              obtain ⟨item, hitem, hb, hx⟩ := hex1 assign hassign k hk
              exact ⟨item, List.mem_append_left _ hitem, hb, hx⟩
            · obtain ⟨item, hitem, hb, hx⟩ := hex2 e h1 assign hassign k hk
              exact ⟨item, List.mem_append_right _ hitem, hb, hx⟩

/-- C17, as stated, fails: under the maxSPL1 strategy the merger mapping has no
entry for neuron block 7, so a neuron placed on block 7 receives no address and
DNC merger 7 stays in mode unused. -/
theorem maxSPL1_leaves_block7 :
    sampleMergerRouting.merger_tree_strategy = MergerTreeStrategy.maxSPL1 ∧
    (∀ d, (7, d) ∉ sampleMergerRouting.chosen_mapping ⟨0, 0⟩ sampleBlock7) ∧
    ∃ a1, sampleMergerRouting.run ⟨0, 0⟩ sampleBlock7 [] L1AddressAssignment.init = .ok ([], a1) ∧
      a1.mode 7 = Mode.unused :=
  ⟨rfl, by decide, ⟨_, rfl, rfl⟩⟩

/-- C17, amended: under the maxSPL1 strategy the merger mapping sends each of the
neuron blocks 0 to 6 to the DNC merger of the same index and has no entry for
neuron block 7. When merger routing of the chip returns, DNC mergers 0 to 6 are
in mode output and DNC merger 7 has the mode and the pool it had. Every item
added is a neuron on one of the blocks 0 to 6 and carries an address of the DNC
merger with its block's index that was in the pool of that merger before the
run; for every DNC merger, the addresses of the added items together with the
pool after the run are the pool before the run, so every address was drawn
from the pool and removed from it. Every neuron placed on the blocks 0 to 6
has such an item. -/
theorem maxSPL1_mapping (M : MergerRouting) (hicann : HICANNOnWafer)
    (nbmap : NeuronBlockOnHICANN → List NeuronPlacement)
    (hs : M.merger_tree_strategy = MergerTreeStrategy.maxSPL1) :
    M.chosen_mapping hicann nbmap
      = [(0, 0), (1, 1), (2, 2), (3, 3), (4, 4), (5, 5), (6, 6)] ∧
    ∀ p a p1 a1, M.run hicann nbmap p a = .ok (p1, a1) →
      (∀ n : DNCMergerOnHICANN, n.val < 7 → a1.mode n = Mode.output) ∧
      a1.mode 7 = a.mode 7 ∧
      a1.available_addresses 7 = a.available_addresses 7 ∧
      ∃ new, p1 = p ++ new ∧
        (∀ item ∈ new, ∃ (nb : NeuronBlockOnHICANN) (pos x : Nat), nb.val < 7 ∧
          item.logical_neuron = .on_chip ⟨nb, hicann⟩ pos ∧
          item.address = some ⟨⟨nb, hicann⟩, x⟩ ∧
          x ∈ (a.available_addresses nb).addresses) ∧
        (∀ d : DNCMergerOnHICANN,
          (addresses_on new hicann d ++ (a1.available_addresses d).addresses).Perm
            (a.available_addresses d).addresses) ∧
        (∀ nb : NeuronBlockOnHICANN, nb.val < 7 → ∀ assign ∈ nbmap nb,
          ∀ k, k < assign.population_slice.size →
            ∃ item ∈ new,
              item.bio_neuron = ⟨assign.population_slice.population,
                assign.population_slice.offset + k⟩ ∧
              ∃ x, item.address = some ⟨⟨nb, hicann⟩, x⟩ ∧
                x ∈ (a.available_addresses nb).addresses) := by
  have hmap : M.chosen_mapping hicann nbmap
      = [(0, 0), (1, 1), (2, 2), (3, 3), (4, 4), (5, 5), (6, 6)] := by
    simp [MergerRouting.chosen_mapping, hs]
  refine ⟨hmap, ?_⟩
  intro p a p1 a1 hrun
  unfold MergerRouting.run at hrun
  rw [hmap] at hrun
  obtain ⟨hout, hkeep, new, hnew, hshape, hex⟩ :=
    run_mapping_items M hicann nbmap _ _ _ _ _ hrun
  have hhand := (run_mapping_handed_out M hicann nbmap _ _ _ _ _ hrun).2
  have hperm : ∀ d : DNCMergerOnHICANN,
      (addresses_on new hicann d ++ (a1.available_addresses d).addresses).Perm
        (a.available_addresses d).addresses := by
    intro d
    have h1 := hhand d
    rw [hnew, addresses_on_append, List.append_assoc] at h1
    exact (List.perm_append_left_iff _).mp h1
  have hpool : ∀ item ∈ new, ∀ (nb : NeuronBlockOnHICANN) (x : Nat),
      item.address = some ⟨⟨nb, hicann⟩, x⟩ → x ∈ (a.available_addresses nb).addresses := by
    intro item hitem nb x hx
    have hmem := mem_addresses_on new item ⟨⟨nb, hicann⟩, x⟩ hitem hx
    simp only at hmem
    exact (hperm nb).subset (List.mem_append_left _ hmem)
  have hmem : ∀ n : Fin 8, n.val < 7 →
      ((n, n) : NeuronBlockOnHICANN × DNCMergerOnHICANN)
        ∈ [(0, 0), (1, 1), (2, 2), (3, 3), (4, 4), (5, 5), (6, 6)] := by
    decide
  have hall : ∀ e ∈ ([(0, 0), (1, 1), (2, 2), (3, 3), (4, 4), (5, 5), (6, 6)] :
      List (NeuronBlockOnHICANN × DNCMergerOnHICANN)), e.1.val < 7 ∧ e.2 = e.1 := by
    decide
  refine ⟨?_, (hkeep 7 (by decide)).1, (hkeep 7 (by decide)).2, new, hnew, ?_, hperm, ?_⟩
  · intro n hn
    apply hout n
    right
    exact List.mem_map.mpr ⟨(n, n), hmem n hn, rfl⟩
  · intro item hitem
    obtain ⟨e, he, pos, x, h1, h2⟩ := hshape item hitem
    have h3 := hall e he
    rw [h3.2] at h2
    exact ⟨e.1, pos, x, h3.1, h1, h2, hpool item hitem e.1 x h2⟩
  · intro nb hnb assign hassign k hk
    obtain ⟨item, hitem, hb, x, hx⟩ := hex (nb, nb) (hmem nb hnb) assign hassign k hk
    exact ⟨item, hitem, hb, x, hx, hpool item hitem nb x hx⟩

/-- Witness for the amended C17: the sample merger routing uses maxSPL1; with one
neuron on block 2 of chip (0,0) DNC merger 2 ends in mode output and the neuron
has an address of DNC merger 2 that was in the pool of that merger. -/
theorem maxSPL1_mapping_witness :
    sampleMergerRouting.merger_tree_strategy = MergerTreeStrategy.maxSPL1 ∧
    sampleMergerRouting.chosen_mapping ⟨0, 0⟩ sampleBlock2
      = [(0, 0), (1, 1), (2, 2), (3, 3), (4, 4), (5, 5), (6, 6)] ∧
    ∃ p1 a1, sampleMergerRouting.run ⟨0, 0⟩ sampleBlock2 [] L1AddressAssignment.init
        = .ok (p1, a1) ∧ a1.mode 2 = Mode.output ∧
      ∃ new, p1 = [] ++ new ∧ ∃ item ∈ new, item.bio_neuron = ⟨0, 0⟩ ∧
        ∃ x, item.address = some ⟨⟨2, ⟨0, 0⟩⟩, x⟩ ∧
          x ∈ (L1AddressAssignment.init.available_addresses 2).addresses := by
  have h := maxSPL1_mapping sampleMergerRouting ⟨0, 0⟩ sampleBlock2 rfl
  refine ⟨rfl, h.1, _, _, rfl, ?_, ?_⟩
  · exact (h.2 [] L1AddressAssignment.init _ _ rfl).1 2 (by decide)
  · obtain ⟨new, hnew, _, _, hex⟩ := (h.2 [] L1AddressAssignment.init _ _ rfl).2.2.2
    obtain ⟨item, hitem, hb, hx⟩ := hex 2 (by decide) ⟨⟨0, 0, 1⟩, 4⟩ (by decide) 0 (by decide)
    exact ⟨new, hnew, item, hitem, hb, hx⟩

end placement

/-! ## Eligible mergers -/

namespace placement

theorem insertInput_addresses_items {R : Type} (P : InputPlacement R) (h : HICANNOnWafer)
    (d : DNCMergerOnHICANN) (slice : PopulationSlice) :
    ∀ (remaining ii : Nat) (p : List PlacementItem) (a : L1AddressAssignment)
      (p1 : List PlacementItem) (a1 : L1AddressAssignment),
      P.insertInput_addresses h d slice remaining ii p a = .ok (p1, a1) →
      ∃ new, p1 = p ++ new ∧
        ∀ item ∈ new, ∃ id idx x, item.logical_neuron = .external id idx ∧
          item.address = some ⟨⟨d, h⟩, x⟩ := by
  intro remaining
  induction remaining with
  | zero =>
      intro ii p a p1 a1 hrun
      simp only [InputPlacement.insertInput_addresses, Except.ok.injEq, Prod.mk.injEq] at hrun
      exact ⟨[], by simp [hrun.1], by simp⟩
  | succ n ih =>
      intro ii p a p1 a1 hrun
      simp only [InputPlacement.insertInput_addresses] at hrun
      cases hpop : (a.available_addresses d).pop P.strategy with
      | error e => simp [hpop] at hrun
      | ok res =>
          obtain ⟨x, pool⟩ := res
          simp only [hpop] at hrun
          obtain ⟨new, hnew, hshape⟩ := ih _ _ _ _ _ hrun
          refine ⟨(⟨⟨slice.population, slice.offset + ii⟩,
            .external (P.population_id slice.population) (slice.offset + ii),
            some ⟨⟨d, h⟩, x⟩⟩ : PlacementItem) :: new, ?_, ?_⟩
          · rw [hnew]
            simp [add_with_address]
          · intro item hitem
            rcases List.mem_cons.mp hitem with hi | hi
            · subst hi
              exact ⟨_, _, _, rfl, rfl⟩
            · exact hshape item hi

/-- What one pass through the end of the loop body of `insertInput` changes: the
mode and the pool of its own merger, and the placement by external neurons on
that merger. -/
theorem insertInput_place_changes {R : Type} (P : InputPlacement R) (h : HICANNOnWafer)
    (d : DNCMergerOnHICANN) (n : Nat) (st st1 : InsertState R)
    (hrun : P.insertInput_place h d n st = .ok (.next st1) ∨
      P.insertInput_place h d n st = .ok (.done st1)) :
    (∀ d1, d1 ≠ d → st1.address_assignment.mode d1 = st.address_assignment.mode d1 ∧
      st1.address_assignment.available_addresses d1
        = st.address_assignment.available_addresses d1) ∧
    ∃ new, st1.neuron_placement = st.neuron_placement ++ new ∧
      ∀ item ∈ new, ∃ id idx x, item.logical_neuron = .external id idx ∧
        item.address = some ⟨⟨d, h⟩, x⟩ := by
  unfold InputPlacement.insertInput_place at hrun
  simp only at hrun
  cases hadd : P.insertInput_addresses h d (st.bio.slice_back n).1 n 0 st.neuron_placement
      (st.address_assignment.set_mode d Mode.input) with
  | error e =>
      rw [hadd] at hrun
      rcases hrun with hr | hr <;> simp at hr
  | ok res =>
      obtain ⟨p1, a1⟩ := res
      rw [hadd] at hrun
      have hf := insertInput_addresses_frame P h d _ _ _ _ _ _ _ hadd
      have hi := insertInput_addresses_items P h d _ _ _ _ _ _ _ hadd
      have hframe : ∀ d1, d1 ≠ d → a1.mode d1 = st.address_assignment.mode d1 ∧
          a1.available_addresses d1 = st.address_assignment.available_addresses d1 := by
        intro d1 hne
        refine ⟨?_, ?_⟩
        · unfold L1AddressAssignment.mode
          rw [hf.1]
          simp [L1AddressAssignment.set_mode, Function.update_noteq hne]
        · unfold L1AddressAssignment.available_addresses
          rw [hf.2 d1 hne]
          rfl
      simp only at hrun
      split_ifs at hrun
      all_goals
        rcases hrun with hr | hr <;> simp at hr
        subst hr
        exact ⟨hframe, hi⟩

theorem insertInput_body_changes {R : Type} (P : InputPlacement R) (h : HICANNOnWafer)
    (d : DNCMergerOnHICANN) (st st1 : InsertState R)
    (hrun : P.insertInput_body h d st = .ok (.next st1) ∨
      P.insertInput_body h d st = .ok (.done st1)) :
    (∀ d1, d1 ≠ d → st1.address_assignment.mode d1 = st.address_assignment.mode d1 ∧
      st1.address_assignment.available_addresses d1
        = st.address_assignment.available_addresses d1) ∧
    (st.address_assignment.mode d = Mode.output →
      st1.address_assignment.mode d = Mode.output ∧
      st1.address_assignment.available_addresses d
        = st.address_assignment.available_addresses d) ∧
    ∃ new, st1.neuron_placement = st.neuron_placement ++ new ∧
      ∀ item ∈ new, eligible P h st d ∧ ∃ id idx x, item.logical_neuron = .external id idx ∧
        item.address = some ⟨⟨d, h⟩, x⟩ := by
  unfold InputPlacement.insertInput_body at hrun
  simp only at hrun
  have hstay : ∀ s : InsertState R,
      (Except.ok (LoopControl.next s) = (Except.ok (LoopControl.next st1) :
          Except PlacementError (LoopControl (InsertState R))) ∨
        Except.ok (LoopControl.next s) = (Except.ok (LoopControl.done st1) :
          Except PlacementError (LoopControl (InsertState R)))) → s = st1 := by
    intro s hs
    rcases hs with hr | hr <;> simp at hr
    exact hr
  have hsame : st = st1 →
      (∀ d1, d1 ≠ d → st1.address_assignment.mode d1 = st.address_assignment.mode d1 ∧
        st1.address_assignment.available_addresses d1
          = st.address_assignment.available_addresses d1) ∧
      (st.address_assignment.mode d = Mode.output →
        st1.address_assignment.mode d = Mode.output ∧
        st1.address_assignment.available_addresses d
          = st.address_assignment.available_addresses d) ∧
      ∃ new, st1.neuron_placement = st.neuron_placement ++ new ∧
        ∀ item ∈ new, eligible P h st d ∧ ∃ id idx x, item.logical_neuron = .external id idx ∧
          item.address = some ⟨⟨d, h⟩, x⟩ := by
    intro he
    subst he
    exact ⟨fun _ _ => ⟨rfl, rfl⟩, fun hm => ⟨hm, rfl⟩, [], by simp, by simp⟩
  by_cases h1 : st.address_assignment.mode d = Mode.output
  · rw [if_pos h1] at hrun
    exact hsame (hstay st hrun)
  · rw [if_neg h1] at hrun
    by_cases h2 : (st.address_assignment.available_addresses d).size = 0
    · rw [if_pos h2] at hrun
      exact hsame (hstay st hrun)
    · rw [if_neg h2] at hrun
      by_cases h3 : P.merger_mapping h d ≠ d
      · rw [if_pos h3] at hrun
        exact hsame (hstay st hrun)
      · rw [if_neg h3] at hrun
        have helig : eligible P h st d := ⟨h1, h2, not_not.mp h3⟩
        split_ifs at hrun with h4
        · split at hrun
          · rcases hrun with hr | hr <;> simp at hr
            exact hsame hr
          · rename_i neuron_count st0 hrated
            have hf := insertInput_rate_frame P h _ _ _ _ hrated
            obtain ⟨hfr, new, hnew, hshape⟩ :=
              insertInput_place_changes P h d neuron_count st0 st1 hrun
            rw [hf.2.1] at hfr
            rw [hf.1] at hnew
            exact ⟨hfr, fun hm => absurd hm h1, new, hnew,
              fun item hitem => ⟨helig, hshape item hitem⟩⟩
        · exact hsame (hstay st hrun)

end placement

namespace placement

theorem insertInput_loop_changes {R : Type} (P : InputPlacement R) (h : HICANNOnWafer) :
    ∀ (dncs : List DNCMergerOnHICANN) (st st1 : InsertState R), dncs.Nodup →
      P.insertInput_loop h dncs st = .ok st1 →
      (∀ n, n ∉ dncs → st1.address_assignment.mode n = st.address_assignment.mode n ∧
        st1.address_assignment.available_addresses n
          = st.address_assignment.available_addresses n) ∧
      (∀ n, st.address_assignment.mode n = Mode.output →
        st1.address_assignment.mode n = Mode.output ∧
        st1.address_assignment.available_addresses n
          = st.address_assignment.available_addresses n) ∧
      ∃ new, st1.neuron_placement = st.neuron_placement ++ new ∧
        ∀ item ∈ new, ∃ n ∈ dncs, eligible P h st n ∧
          ∃ id idx x, item.logical_neuron = .external id idx ∧
            item.address = some ⟨⟨n, h⟩, x⟩ := by
  intro dncs
  induction dncs with
  | nil =>
      intro st st1 _ hrun
      simp only [InputPlacement.insertInput_loop, Except.ok.injEq] at hrun
      subst hrun
      exact ⟨fun _ _ => ⟨rfl, rfl⟩, fun _ hm => ⟨hm, rfl⟩, [], by simp, by simp⟩
  | cons d rest ih =>
      intro st st1 hnd hrun
      simp only [List.nodup_cons] at hnd
      simp only [InputPlacement.insertInput_loop] at hrun
      cases hb : P.insertInput_body h d st with
      | error e => simp [hb] at hrun
      | ok c =>
          cases c with
          | next s =>
              simp only [hb] at hrun
              obtain ⟨hb1, hb2, new1, hnew1, hshape1⟩ :=
                insertInput_body_changes P h d st s (Or.inl hb)
              obtain ⟨hl1, hl2, new2, hnew2, hshape2⟩ := ih s st1 hnd.2 hrun
              refine ⟨?_, ?_, new1 ++ new2, ?_, ?_⟩
              · intro n hn
                simp only [List.mem_cons, not_or] at hn
                have h1 := hl1 n hn.2
                have h2 := hb1 n hn.1
                exact ⟨h1.1.trans h2.1, h1.2.trans h2.2⟩
              · intro n hm
                have h2 : s.address_assignment.mode n = Mode.output ∧
                    s.address_assignment.available_addresses n
                      = st.address_assignment.available_addresses n := by
                  by_cases hnd2 : n = d
                  · subst hnd2
                    exact hb2 hm
                  · have := hb1 n hnd2
                    exact ⟨this.1.trans hm, this.2⟩
                have h1 := hl2 n h2.1
                exact ⟨h1.1, h1.2.trans h2.2⟩
              · rw [hnew2, hnew1, List.append_assoc]
              · intro item hitem
                rcases List.mem_append.mp hitem with hi | hi
                · exact ⟨d, List.mem_cons_self _ _, hshape1 item hi⟩
                · obtain ⟨n, hn, helig, hx⟩ := hshape2 item hi
                  have hne : n ≠ d := by
                    intro he
                    rw [he] at hn
                    exact hnd.1 hn
                  have hfr := hb1 n hne
                  refine ⟨n, List.mem_cons_of_mem _ hn, ?_, hx⟩
                  unfold eligible at helig ⊢
                  rw [hfr.1, hfr.2] at helig
                  exact helig
          | done s =>
              simp only [hb, Except.ok.injEq] at hrun
              subst hrun
              obtain ⟨hb1, hb2, new1, hnew1, hshape1⟩ :=
                insertInput_body_changes P h d st s (Or.inr hb)
              refine ⟨?_, ?_, new1, hnew1, ?_⟩
              · intro n hn
                simp only [List.mem_cons, not_or] at hn
                exact hb1 n hn.1
              · intro n hm
                by_cases hnd2 : n = d
                · subst hnd2
                  exact hb2 hm
                · have := hb1 n hnd2
                  exact ⟨this.1.trans hm, this.2⟩
              · intro item hitem
                exact ⟨d, List.mem_cons_self _ _, hshape1 item hitem⟩

end placement

namespace placement

theorem L1AddressPool.pop_ok (pool : L1AddressPool) (strategy : Strategy) (n : Nat)
    (h : pool.size = n + 1) :
    ∃ x pool1, pool.pop strategy = .ok (x, pool1) ∧ pool1.size = n := by
  unfold L1AddressPool.size at h
  unfold L1AddressPool.pop
  cases hp : pool.addresses with
  | nil => simp [hp] at h
  | cons a rest =>
      rw [hp] at h
      simp only [List.length_cons, Nat.add_right_cancel_iff] at h
      cases strategy with
      | sequential => exact ⟨a, ⟨rest⟩, rfl, h⟩
      | pseudo_random choose =>
          refine ⟨_, _, rfl, ?_⟩
          have hlt : choose (a :: rest) % (rest.length + 1) < (a :: rest).length := by
            simp only [List.length_cons]
            exact Nat.mod_lt _ (Nat.succ_pos _)
          have hmem : (a :: rest).getD (choose (a :: rest) % (rest.length + 1)) a
              ∈ a :: rest := by
            rw [List.getD_eq_getElem _ _ hlt]
            exact List.getElem_mem _
          simp only [L1AddressPool.size]
          rw [List.length_erase_of_mem hmem]
          simp [h]

theorem insertInput_addresses_ok {R : Type} (P : InputPlacement R) (h : HICANNOnWafer)
    (d : DNCMergerOnHICANN) (slice : PopulationSlice) :
    ∀ (remaining ii : Nat) (p : List PlacementItem) (a : L1AddressAssignment),
      remaining ≤ (a.available_addresses d).size →
      ∃ p1 a1, P.insertInput_addresses h d slice remaining ii p a = .ok (p1, a1) := by
  intro remaining
  induction remaining with
  | zero =>
      intro ii p a _
      exact ⟨p, a, rfl⟩
  | succ n ih =>
      intro ii p a hle
      obtain ⟨m, hm⟩ : ∃ m, (a.available_addresses d).size = m + 1 :=
        ⟨(a.available_addresses d).size - 1, by omega⟩
      obtain ⟨x, pool1, hpop, hsize⟩ := L1AddressPool.pop_ok _ P.strategy m hm
      simp only [InputPlacement.insertInput_addresses, hpop]
      apply ih
      simp only [L1AddressAssignment.available_addresses,
        L1AddressAssignment.set_available_addresses, Function.update_same]
      omega

theorem neuronsFitting_loop_le {R : Type} (P : InputPlacement R) (bio : PopulationSlice)
    (available_rate : R) :
    ∀ (remaining i : Nat) (summed_rate : R),
      (P.neuronsFittingIntoAvailableRate_loop bio available_rate remaining i summed_rate).1
        ≤ i + remaining := by
  intro remaining
  induction remaining with
  | zero =>
      intro i s
      simp [InputPlacement.neuronsFittingIntoAvailableRate_loop]
  | succ n ih =>
      intro i s
      simp only [InputPlacement.neuronsFittingIntoAvailableRate_loop]
      split_ifs
      · have := ih (i + 1) (P.arith.add s (P.firing_rate bio.population
          (bio.offset + (bio.size - i - 1))))
        omega
      · simp

theorem insertInput_rate_le {R : Type} (P : InputPlacement R) (h : HICANNOnWafer)
    (neuron_count n : Nat) (st st1 : InsertState R)
    (hrun : P.insertInput_rate h neuron_count st = some (n, st1)) : n ≤ neuron_count := by
  unfold InputPlacement.insertInput_rate at hrun
  by_cases hc : P.consider_firing_rate = true
  · simp only [hc, if_true] at hrun
    split_ifs at hrun
    simp only [Option.some.injEq, Prod.mk.injEq] at hrun
    rw [← hrun.1]
    have := neuronsFitting_loop_le P st.bio (P.availableRate st h) neuron_count 0
      (P.arith.ofNat 0)
    simpa [InputPlacement.neuronsFittingIntoAvailableRate] using this
  · simp only [hc, Bool.false_eq_true, if_false, Option.some.injEq, Prod.mk.injEq] at hrun
    omega

end placement

namespace placement

theorem insertInput_place_ok {R : Type} (P : InputPlacement R) (h : HICANNOnWafer)
    (d : DNCMergerOnHICANN) (n : Nat) (st : InsertState R)
    (hle : n ≤ (st.address_assignment.available_addresses d).size) :
    ∃ c, P.insertInput_place h d n st = .ok c := by
  unfold InputPlacement.insertInput_place
  simp only
  obtain ⟨p1, a1, hadd⟩ := insertInput_addresses_ok P h d (st.bio.slice_back n).1 n 0
    st.neuron_placement (st.address_assignment.set_mode d Mode.input) hle
  rw [hadd]
  simp only
  split_ifs <;> exact ⟨_, rfl⟩

theorem insertInput_body_ok {R : Type} (P : InputPlacement R) (h : HICANNOnWafer)
    (d : DNCMergerOnHICANN) (st : InsertState R) :
    ∃ c, P.insertInput_body h d st = .ok c := by
  unfold InputPlacement.insertInput_body
  by_cases h1 : st.address_assignment.mode d = Mode.output
  · rw [if_pos h1]
    exact ⟨_, rfl⟩
  · rw [if_neg h1]
    simp only
    by_cases h2 : (st.address_assignment.available_addresses d).size = 0
    · rw [if_pos h2]
      exact ⟨_, rfl⟩
    · rw [if_neg h2]
      by_cases h3 : P.merger_mapping h d ≠ d
      · rw [if_pos h3]
        exact ⟨_, rfl⟩
      · rw [if_neg h3]
        by_cases h4 : ¬ (find_neuron_block st.neuron_placement ⟨d, h⟩).isEmpty
        · rw [if_pos h4]
          exact ⟨_, rfl⟩
        · rw [if_neg h4]
          cases hr : P.insertInput_rate h
              (Nat.min st.bio.size (st.address_assignment.available_addresses d).size) st with
          | none => exact ⟨_, rfl⟩
          | some r =>
              obtain ⟨n, st1⟩ := r
              simp only
              apply insertInput_place_ok
              have hle := insertInput_rate_le P h _ n st st1 hr
              have hfr := insertInput_rate_frame P h _ n st st1 hr
              rw [hfr.2.1]
              exact le_trans hle (Nat.min_le_right _ _)

theorem insertInput_loop_ok {R : Type} (P : InputPlacement R) (h : HICANNOnWafer) :
    ∀ (dncs : List DNCMergerOnHICANN) (st : InsertState R),
      ∃ st1, P.insertInput_loop h dncs st = .ok st1 := by
  intro dncs
  induction dncs with
  | nil =>
      intro st
      exact ⟨st, rfl⟩
  | cons d rest ih =>
      intro st
      obtain ⟨c, hc⟩ := insertInput_body_ok P h d st
      simp only [InputPlacement.insertInput_loop, hc]
      cases c with
      | next s => exact ih s
      | done s => exact ⟨s, rfl⟩

theorem WaferState.insertInput_ok {R : Type} (P : InputPlacement R) (h : HICANNOnWafer)
    (bio : PopulationSlice) (w : WaferState R) :
    ∃ w1 bio1, w.insertInput P h bio = .ok (w1, bio1) := by
  unfold WaferState.insertInput
  obtain ⟨st1, hst⟩ := insertInput_loop_ok P h [7, 6, 5, 4, 3, 2, 1, 0]
    ⟨w.neuron_placement, w.address_assignment h, bio, w.mUsedRateHICANN,
      w.mUsedRateFPGA, w.mMgr⟩
  simp only [InputPlacement.insertInput, hst]
  exact ⟨_, _, rfl⟩

theorem run_manual_loop_ok {R : Type} (P : InputPlacement R) :
    ∀ (l : List HICANNOnWafer) (bio : PopulationSlice) (w : WaferState R),
      ∃ w1 bio1, P.run_manual_loop l bio w = .ok (w1, bio1) := by
  intro l
  induction l with
  | nil =>
      intro bio w
      exact ⟨w, bio, rfl⟩
  | cons h rest ih =>
      intro bio w
      obtain ⟨w1, bio1, hins⟩ := WaferState.insertInput_ok P h bio w
      simp only [InputPlacement.run_manual_loop, hins]
      exact ih bio1 w1

end placement

namespace placement

theorem insertInput_addresses_length {R : Type} (P : InputPlacement R) (h : HICANNOnWafer)
    (d : DNCMergerOnHICANN) (slice : PopulationSlice) :
    ∀ (remaining ii : Nat) (p : List PlacementItem) (a : L1AddressAssignment)
      (p1 : List PlacementItem) (a1 : L1AddressAssignment),
      P.insertInput_addresses h d slice remaining ii p a = .ok (p1, a1) →
      p1.length = p.length + remaining := by
  intro remaining
  induction remaining with
  | zero =>
      intro ii p a p1 a1 hrun
      simp only [InputPlacement.insertInput_addresses, Except.ok.injEq, Prod.mk.injEq] at hrun
      rw [← hrun.1]
      rfl
  | succ n ih =>
      intro ii p a p1 a1 hrun
      simp only [InputPlacement.insertInput_addresses] at hrun
      cases hpop : (a.available_addresses d).pop P.strategy with
      | error e => simp [hpop] at hrun
      | ok r =>
          obtain ⟨x, pool⟩ := r
          simp only [hpop] at hrun
          have := ih _ _ _ _ _ hrun
          rw [this]
          simp only [add_with_address, List.length_append, List.length_singleton]
          omega

theorem insertInput_place_count {R : Type} (P : InputPlacement R) (h : HICANNOnWafer)
    (d : DNCMergerOnHICANN) (n : Nat) (st st1 : InsertState R) (hn : n ≤ st.bio.size)
    (hrun : P.insertInput_place h d n st = .ok (.next st1) ∨
      P.insertInput_place h d n st = .ok (.done st1)) :
    st1.neuron_placement.length + st1.bio.size
      = st.neuron_placement.length + st.bio.size := by
  unfold InputPlacement.insertInput_place at hrun
  simp only at hrun
  cases hadd : P.insertInput_addresses h d (st.bio.slice_back n).1 n 0 st.neuron_placement
      (st.address_assignment.set_mode d Mode.input) with
  | error e =>
      rw [hadd] at hrun
      simp at hrun
  | ok r =>
      obtain ⟨p1, a1⟩ := r
      have hlen := insertInput_addresses_length P h d _ n 0 _ _ p1 a1 hadd
      rw [hadd] at hrun
      simp only at hrun
      have hst : st1.neuron_placement = p1 ∧ st1.bio = (st.bio.slice_back n).2 := by
        split_ifs at hrun <;>
          simp only [Except.ok.injEq, LoopControl.next.injEq, LoopControl.done.injEq,
            or_false, false_or, reduceCtorEq] at hrun <;>
          (rw [← hrun]; exact ⟨rfl, rfl⟩)
      rw [hst.1, hst.2, hlen]
      simp only [PopulationSlice.slice_back]
      omega

theorem insertInput_body_count {R : Type} (P : InputPlacement R) (h : HICANNOnWafer)
    (d : DNCMergerOnHICANN) (st st1 : InsertState R)
    (hrun : P.insertInput_body h d st = .ok (.next st1) ∨
      P.insertInput_body h d st = .ok (.done st1)) :
    st1.neuron_placement.length + st1.bio.size
      = st.neuron_placement.length + st.bio.size := by
  have hstay : ∀ s : InsertState R,
      ((Except.ok (LoopControl.next st) : Except PlacementError (LoopControl (InsertState R)))
          = .ok (.next s) ∨
        (Except.ok (LoopControl.next st) : Except PlacementError (LoopControl (InsertState R)))
          = .ok (.done s)) → s = st := by
    intro s hs
    simp only [Except.ok.injEq, LoopControl.next.injEq, reduceCtorEq, or_false] at hs
    exact hs.symm
  unfold InputPlacement.insertInput_body at hrun
  by_cases h1 : st.address_assignment.mode d = Mode.output
  · rw [if_pos h1] at hrun
    rw [hstay st1 hrun]
  · rw [if_neg h1] at hrun
    simp only at hrun
    by_cases h2 : (st.address_assignment.available_addresses d).size = 0
    · rw [if_pos h2] at hrun
      rw [hstay st1 hrun]
    · rw [if_neg h2] at hrun
      by_cases h3 : P.merger_mapping h d ≠ d
      · rw [if_pos h3] at hrun
        rw [hstay st1 hrun]
      · rw [if_neg h3] at hrun
        by_cases h4 : ¬ (find_neuron_block st.neuron_placement ⟨d, h⟩).isEmpty
        · rw [if_pos h4] at hrun
          rw [hstay st1 hrun]
        · rw [if_neg h4] at hrun
          cases hr : P.insertInput_rate h
              (Nat.min st.bio.size (st.address_assignment.available_addresses d).size) st with
          | none =>
              rw [hr] at hrun
              simp only [Except.ok.injEq, LoopControl.done.injEq, reduceCtorEq,
                false_or] at hrun
              rw [← hrun]
          | some r =>
              obtain ⟨n, s⟩ := r
              rw [hr] at hrun
              simp only at hrun
              have hle := insertInput_rate_le P h _ n st s hr
              have hfr := insertInput_rate_frame P h _ n st s hr
              have hn : n ≤ s.bio.size := by
                rw [hfr.2.2]
                exact le_trans hle (Nat.min_le_left _ _)
              rw [insertInput_place_count P h d n s st1 hn hrun, hfr.1, hfr.2.2]

theorem insertInput_loop_count {R : Type} (P : InputPlacement R) (h : HICANNOnWafer) :
    ∀ (dncs : List DNCMergerOnHICANN) (st st1 : InsertState R),
      P.insertInput_loop h dncs st = .ok st1 →
      st1.neuron_placement.length + st1.bio.size
        = st.neuron_placement.length + st.bio.size := by
  intro dncs
  induction dncs with
  | nil =>
      intro st st1 hrun
      simp only [InputPlacement.insertInput_loop, Except.ok.injEq] at hrun
      rw [hrun]
  | cons d rest ih =>
      intro st st1 hrun
      simp only [InputPlacement.insertInput_loop] at hrun
      cases hb : P.insertInput_body h d st with
      | error e => simp [hb] at hrun
      | ok c =>
          cases c with
          | next s =>
              simp only [hb] at hrun
              rw [ih s st1 hrun, insertInput_body_count P h d st s (Or.inl hb)]
          | done s =>
              simp only [hb, Except.ok.injEq] at hrun
              rw [← hrun, insertInput_body_count P h d st s (Or.inr hb)]

theorem WaferState.insertInput_count {R : Type} (P : InputPlacement R) (h : HICANNOnWafer)
    (bio bio1 : PopulationSlice) (w w1 : WaferState R)
    (hrun : w.insertInput P h bio = .ok (w1, bio1)) :
    w1.neuron_placement.length + bio1.size = w.neuron_placement.length + bio.size := by
  unfold WaferState.insertInput at hrun
  cases hst : P.insertInput h ⟨w.neuron_placement, w.address_assignment h, bio,
      w.mUsedRateHICANN, w.mUsedRateFPGA, w.mMgr⟩ with
  | error e => simp [hst] at hrun
  | ok st =>
      simp only [hst, Except.ok.injEq, Prod.mk.injEq] at hrun
      have := insertInput_loop_count P h _ _ st hst
      rw [← hrun.1, ← hrun.2]
      exact this

theorem run_manual_loop_count {R : Type} (P : InputPlacement R) :
    ∀ (l : List HICANNOnWafer) (bio bio1 : PopulationSlice) (w w1 : WaferState R),
      P.run_manual_loop l bio w = .ok (w1, bio1) →
      w1.neuron_placement.length + bio1.size = w.neuron_placement.length + bio.size := by
  intro l
  induction l with
  | nil =>
      intro bio bio1 w w1 hrun
      simp only [InputPlacement.run_manual_loop, Except.ok.injEq, Prod.mk.injEq] at hrun
      rw [hrun.1, hrun.2]
  | cons h rest ih =>
      intro bio bio1 w w1 hrun
      simp only [InputPlacement.run_manual_loop] at hrun
      cases hins : w.insertInput P h bio with
      | error e => simp [hins] at hrun
      | ok r =>
          obtain ⟨w2, bio2⟩ := r
          simp only [hins] at hrun
          rw [ih bio2 bio1 w2 w1 hrun, WaferState.insertInput_count P h bio bio2 w w2 hins]

end placement

namespace placement

/-- C15: for a source population with a non-empty manual list of chips, `run`
calls `insertInput` on the listed chips in the given order, handing the slice
that is left from one call to the next; the calls do not fail, the number of
items they add is the number of neurons cut off the slice, and `run` fails with
the out-of-resources error if and only if the slice left after the last chip is
not empty, and succeeds otherwise. A manual entry that is an empty chip list or
not a chip list is rejected with an error. -/
theorem manual_placement_contract {R : Type} (P : InputPlacement R)
    (l : List HICANNOnWafer) (bio : PopulationSlice) (w : WaferState R) (hl : l ≠ []) :
    (∃ w1 bio1, P.run_manual_loop l bio w = .ok (w1, bio1) ∧
      w1.neuron_placement.length + bio1.size = w.neuron_placement.length + bio.size ∧
      (P.run_manual (.hicanns l) bio w = .error .out_of_resources ↔ bio1.size ≠ 0) ∧
      (P.run_manual (.hicanns l) bio w = .ok w1 ↔ bio1.size = 0)) ∧
    (∀ (h : HICANNOnWafer) (rest : List HICANNOnWafer) (b : PopulationSlice)
      (v : WaferState R),
      P.run_manual_loop (h :: rest) b v
        = (v.insertInput P h b).bind fun r => P.run_manual_loop rest r.2 r.1) ∧
    P.run_manual (.hicanns []) bio w = .error .not_implemented ∧
    P.run_manual .other bio w = .error .not_implemented := by
  refine ⟨?_, ?_, ?_, rfl⟩
  · obtain ⟨w1, bio1, hloop⟩ := run_manual_loop_ok P l bio w
    refine ⟨w1, bio1, hloop, run_manual_loop_count P l bio bio1 w w1 hloop, ?_, ?_⟩
    · simp only [InputPlacement.run_manual, hl, ne_eq, not_false_eq_true, if_true, hloop]
      by_cases hb : bio1.size = 0 <;> simp [hb]
    · simp only [InputPlacement.run_manual, hl, ne_eq, not_false_eq_true, if_true, hloop]
      by_cases hb : bio1.size = 0 <;> simp [hb]
  · intro h rest b v
    simp only [InputPlacement.run_manual_loop]
    cases v.insertInput P h b with
    | error e => rfl
    | ok r => rfl
  · simp [InputPlacement.run_manual]

/-- Witness for C15: a population of two neurons with the manual chip list
[(0,0)] is placed on the empty wafer, and runs out of resources on a wafer whose
DNC mergers are all in mode output. -/
theorem manual_placement_contract_witness :
    sampleInputPlacement.run_manual (.hicanns [⟨0, 0⟩]) ⟨0, 0, 2⟩ sampleStart
      = .ok sampleInserted ∧
    sampleInputPlacement.run_manual (.hicanns [⟨0, 0⟩]) ⟨0, 0, 2⟩ sampleAllOutput
      = .error .out_of_resources ∧
    ∃ w1 bio1, sampleInputPlacement.run_manual_loop [⟨0, 0⟩] ⟨0, 0, 2⟩ sampleStart
        = .ok (w1, bio1) ∧
      w1.neuron_placement.length + bio1.size
        = sampleStart.neuron_placement.length + (⟨0, 0, 2⟩ : PopulationSlice).size ∧
      (sampleInputPlacement.run_manual (.hicanns [⟨0, 0⟩]) ⟨0, 0, 2⟩ sampleStart
          = .error .out_of_resources ↔ bio1.size ≠ 0) ∧
      (sampleInputPlacement.run_manual (.hicanns [⟨0, 0⟩]) ⟨0, 0, 2⟩ sampleStart = .ok w1 ↔
        bio1.size = 0) :=
  ⟨rfl, rfl,
   (manual_placement_contract sampleInputPlacement [⟨0, 0⟩] ⟨0, 0, 2⟩ sampleStart
     (by simp)).1⟩

end placement

namespace placement

/-- C16, counterexample: for a source population of 64 neurons and the chip
list [(0,0), (1,0)] the run succeeds, DNC merger 7 of chip (0,0) holds the
neurons 1 to 63, neuron 0 is on DNC merger 6 of chip (0,0), and no neuron is on
chip (1,0). -/
theorem scenario4_sixty_four :
    (∃ w, sampleInputPlacement.run_manual (.hicanns scenario4_chips) ⟨0, 0, 64⟩
        scenario4_start = .ok w) ∧
    neurons_on (scenario4_placement 64) ⟨0, 0⟩ 7 = List.range' 1 63 ∧
    neurons_on (scenario4_placement 64) ⟨0, 0⟩ 6 = [0] ∧
    ∀ d, neurons_on (scenario4_placement 64) ⟨1, 0⟩ d = [] := by
  refine ⟨⟨_, rfl⟩, by decide, by decide, by decide⟩

end placement

namespace placement

theorem neurons_on_append (p q : List PlacementItem) (h : HICANNOnWafer)
    (d : DNCMergerOnHICANN) :
    neurons_on (p ++ q) h d = neurons_on p h d ++ neurons_on q h d := by
  simp [neurons_on, List.filterMap_append]

theorem neurons_on_of_other (p : List PlacementItem) (h : HICANNOnWafer)
    (d : DNCMergerOnHICANN)
    (hp : ∀ item ∈ p, ∀ a, item.address = some a → a.merger ≠ ⟨d, h⟩) :
    neurons_on p h d = [] := by
  unfold neurons_on
  rw [List.filterMap_eq_nil_iff]
  intro item hitem
  cases ha : item.address with
  | none => rfl
  | some a =>
      simp only
      rw [if_neg (hp item hitem a ha)]

theorem insertInput_addresses_neurons {R : Type} (P : InputPlacement R) (h : HICANNOnWafer)
    (d : DNCMergerOnHICANN) (slice : PopulationSlice) :
    ∀ (remaining ii : Nat) (p : List PlacementItem) (a : L1AddressAssignment)
      (p1 : List PlacementItem) (a1 : L1AddressAssignment),
      P.insertInput_addresses h d slice remaining ii p a = .ok (p1, a1) →
      neurons_on p1 h d = neurons_on p h d ++ List.range' (slice.offset + ii) remaining := by
  intro remaining
  induction remaining with
  | zero =>
      intro ii p a p1 a1 hrun
      simp only [InputPlacement.insertInput_addresses, Except.ok.injEq, Prod.mk.injEq] at hrun
      rw [← hrun.1]
      simp
  | succ n ih =>
      intro ii p a p1 a1 hrun
      simp only [InputPlacement.insertInput_addresses] at hrun
      cases hpop : (a.available_addresses d).pop P.strategy with
      | error e => simp [hpop] at hrun
      | ok r =>
          obtain ⟨x, pool⟩ := r
          simp only [hpop] at hrun
          rw [ih _ _ _ _ _ hrun]
          simp only [add_with_address, neurons_on_append, List.append_assoc]
          congr 1
          simp [neurons_on, List.range'_succ, Nat.add_assoc]

theorem insertInput_place_neurons {R : Type} (P : InputPlacement R) (h : HICANNOnWafer)
    (d : DNCMergerOnHICANN) (n : Nat) (st st1 : InsertState R)
    (hrun : P.insertInput_place h d n st = .ok (.next st1) ∨
      P.insertInput_place h d n st = .ok (.done st1)) :
    neurons_on st1.neuron_placement h d
      = neurons_on st.neuron_placement h d ++ List.range' (st.bio.offset + (st.bio.size - n)) n ∧
    st1.bio = (st.bio.slice_back n).2 ∧
    (P.insertInput_place h d n st = .ok (.next st1) → st1.bio.size ≠ 0) ∧
    (P.insertInput_place h d n st = .ok (.done st1) → st1.bio.size = 0) := by
  unfold InputPlacement.insertInput_place at hrun ⊢
  simp only at hrun ⊢
  cases hadd : P.insertInput_addresses h d (st.bio.slice_back n).1 n 0 st.neuron_placement
      (st.address_assignment.set_mode d Mode.input) with
  | error e =>
      rw [hadd] at hrun
      simp at hrun
  | ok r =>
      obtain ⟨p1, a1⟩ := r
      have hn := insertInput_addresses_neurons P h d _ n 0 _ _ p1 a1 hadd
      rw [hadd] at hrun
      simp only at hrun ⊢
      by_cases hz : (st.bio.slice_back n).2.size = 0
      · simp only [hz, if_true, Except.ok.injEq, LoopControl.done.injEq, reduceCtorEq,
          false_or] at hrun
        subst hrun
        refine ⟨?_, rfl, ?_, fun _ => hz⟩
        · simpa [PopulationSlice.slice_back] using hn
        · simp [hz]
      · simp only [hz, if_false, Except.ok.injEq, LoopControl.next.injEq, reduceCtorEq,
          or_false] at hrun
        subst hrun
        refine ⟨?_, rfl, fun _ => hz, ?_⟩
        · simpa [PopulationSlice.slice_back] using hn
        · simp [hz]

theorem find_neuron_block_of_external (p : List PlacementItem) (block : NeuronBlockOnWafer)
    (hp : ∀ item ∈ p, ∃ id idx, item.logical_neuron = .external id idx) :
    find_neuron_block p block = [] := by
  unfold find_neuron_block
  rw [List.filter_eq_nil_iff]
  intro item hitem
  obtain ⟨id, idx, hl⟩ := hp item hitem
  simp [PlacementItem.neuron_block, hl]

theorem insertInput_body_eligible {R : Type} (P : InputPlacement R) (h : HICANNOnWafer)
    (d : DNCMergerOnHICANN) (st : InsertState R)
    (hrate : P.consider_firing_rate = false)
    (hmode : st.address_assignment.mode d ≠ Mode.output)
    (hpool : (st.address_assignment.available_addresses d).size ≠ 0)
    (hmap : P.merger_mapping h d = d)
    (hext : ∀ item ∈ st.neuron_placement, ∃ id idx, item.logical_neuron = .external id idx) :
    P.insertInput_body h d st
      = P.insertInput_place h d
          (Nat.min st.bio.size (st.address_assignment.available_addresses d).size) st := by
  unfold InputPlacement.insertInput_body
  rw [if_neg hmode]
  simp only
  rw [if_neg hpool, if_neg (not_not.mpr hmap)]
  rw [find_neuron_block_of_external _ _ hext]
  simp [InputPlacement.insertInput_rate, hrate]

end placement

namespace placement

theorem insertInput_loop_exhausts {R : Type} (P : InputPlacement R) (h : HICANNOnWafer)
    (hrate : P.consider_firing_rate = false) :
    ∀ (dncs : List DNCMergerOnHICANN) (st st1 : InsertState R), dncs.Nodup →
      (∀ d ∈ dncs, st.address_assignment.mode d ≠ Mode.output ∧
        (st.address_assignment.available_addresses d).size = 63 ∧
        P.merger_mapping h d = d) →
      (∀ item ∈ st.neuron_placement, ∃ id idx, item.logical_neuron = .external id idx) →
      st.bio.size ≤ 63 * dncs.length →
      P.insertInput_loop h dncs st = .ok st1 → st1.bio.size = 0 := by
  intro dncs
  induction dncs with
  | nil =>
      intro st st1 _ _ _ hsize hrun
      simp only [InputPlacement.insertInput_loop, Except.ok.injEq] at hrun
      subst hrun
      simpa using hsize
  | cons d rest ih =>
      intro st st1 hnd helig hext hsize hrun
      simp only [List.nodup_cons] at hnd
      simp only [List.length_cons] at hsize
      obtain ⟨hmode, hpool, hmap⟩ := helig d (List.mem_cons_self _ _)
      have hbody := insertInput_body_eligible P h d st hrate hmode (by omega) hmap hext
      simp only [InputPlacement.insertInput_loop] at hrun
      cases hb : P.insertInput_body h d st with
      | error e => simp [hb] at hrun
      | ok c =>
          cases c with
          | done s =>
              simp only [hb, Except.ok.injEq] at hrun
              subst hrun
              rw [hbody] at hb
              exact (insertInput_place_neurons P h d _ st s (Or.inr hb)).2.2.2 hb
          | next s =>
              simp only [hb] at hrun
              obtain ⟨hfr, _, new, hnew, hshape⟩ :=
                insertInput_body_changes P h d st s (Or.inl hb)
              rw [hbody] at hb
              obtain ⟨_, hbio, hnz, _⟩ := insertInput_place_neurons P h d _ st s (Or.inl hb)
              have hnz1 := hnz hb
              rw [hbio, hpool] at hnz1
              simp only [PopulationSlice.slice_back] at hnz1
              have hmin : Nat.min st.bio.size 63 = min st.bio.size 63 := rfl
              rw [hmin] at hnz1
              apply ih s st1 hnd.2 _ _ _ hrun
              · intro d1 hd1
                have hne : d1 ≠ d := by
                  intro he
                  rw [he] at hd1
                  exact hnd.1 hd1
                obtain ⟨h1, h2, h3⟩ := helig d1 (List.mem_cons_of_mem _ hd1)
                rw [(hfr d1 hne).1, (hfr d1 hne).2]
                exact ⟨h1, h2, h3⟩
              · intro item hitem
                rw [hnew] at hitem
                rcases List.mem_append.mp hitem with hi | hi
                · exact hext item hi
                · obtain ⟨_, id, idx, _, hl, _⟩ := hshape item hi
                  exact ⟨id, idx, hl⟩
              · rw [hbio, hpool]
                simp only [PopulationSlice.slice_back]
                rw [hmin]
                omega

theorem WaferState.insertInput_items {R : Type} (P : InputPlacement R) (h : HICANNOnWafer)
    (bio bio1 : PopulationSlice) (w w1 : WaferState R)
    (hrun : w.insertInput P h bio = .ok (w1, bio1)) :
    ∃ new, w1.neuron_placement = w.neuron_placement ++ new ∧
      ∀ item ∈ new, ∃ n id idx x, item.logical_neuron = .external id idx ∧
        item.address = some ⟨⟨n, h⟩, x⟩ := by
  unfold WaferState.insertInput at hrun
  cases hst : P.insertInput h ⟨w.neuron_placement, w.address_assignment h, bio,
      w.mUsedRateHICANN, w.mUsedRateFPGA, w.mMgr⟩ with
  | error e => simp [hst] at hrun
  | ok st =>
      simp only [hst, Except.ok.injEq, Prod.mk.injEq] at hrun
      obtain ⟨_, _, new, hnew, hshape⟩ :=
        insertInput_loop_changes P h [7, 6, 5, 4, 3, 2, 1, 0] _ st (by decide) hst
      refine ⟨new, ?_, ?_⟩
      · rw [← hrun.1]
        exact hnew
      · intro item hitem
        obtain ⟨n, _, _, id, idx, x, h1, h2⟩ := hshape item hitem
        exact ⟨n, id, idx, x, h1, h2⟩

end placement

namespace placement

theorem insertInput_new_chip {R : Type} (P : InputPlacement R) (h : HICANNOnWafer)
    (st st1 : InsertState R) (hrate : P.consider_firing_rate = false)
    (hmr : P.m_merger_routing h = none)
    (hinit : st.address_assignment = L1AddressAssignment.init)
    (hnp : st.neuron_placement = []) (hN : 63 < st.bio.size)
    (hrun : P.insertInput h st = .ok st1) :
    neurons_on st1.neuron_placement h 7
      = List.range' (st.bio.offset + (st.bio.size - 63)) 63 ∧
    (st.bio.size ≤ 504 → st1.bio.size = 0) := by
  have hmap : ∀ d, P.merger_mapping h d = d := by
    intro d
    simp [InputPlacement.merger_mapping, hmr]
  have hmode : ∀ d, st.address_assignment.mode d ≠ Mode.output := by
    intro d
    rw [hinit]
    simp [L1AddressAssignment.mode, L1AddressAssignment.init]
  have hpool : ∀ d, (st.address_assignment.available_addresses d).size = 63 := by
    intro d
    rw [hinit]
    rfl
  have hext : ∀ item ∈ st.neuron_placement,
      ∃ id idx, item.logical_neuron = .external id idx := by
    rw [hnp]
    intro item hitem
    simp at hitem
  refine ⟨?_, ?_⟩
  · have hbody := insertInput_body_eligible P h 7 st hrate (hmode 7)
      (by rw [hpool 7]; decide) (hmap 7) hext
    simp only [InputPlacement.insertInput, InputPlacement.insertInput_loop] at hrun
    cases hb : P.insertInput_body h 7 st with
    | error e => simp [hb] at hrun
    | ok c =>
        have hmin : Nat.min st.bio.size 63 = min st.bio.size 63 := rfl
        cases c with
        | done s =>
            rw [hbody] at hb
            obtain ⟨_, hbio, _, hz⟩ := insertInput_place_neurons P h 7 _ st s (Or.inr hb)
            have hz1 := hz hb
            rw [hbio, hpool 7] at hz1
            simp only [PopulationSlice.slice_back] at hz1
            rw [hmin] at hz1
            omega
        | next s =>
            simp only [hb] at hrun
            rw [hbody] at hb
            obtain ⟨hn, _, _, _⟩ := insertInput_place_neurons P h 7 _ st s (Or.inl hb)
            rw [hpool 7, hnp, hmin, Nat.min_eq_right (le_of_lt hN)] at hn
            obtain ⟨_, _, new, hnew, hshape⟩ :=
              insertInput_loop_changes P h [6, 5, 4, 3, 2, 1, 0] s st1 (by decide) hrun
            rw [hnew, neurons_on_append, hn]
            have hnone : neurons_on new h 7 = [] := by
              apply neurons_on_of_other
              intro item hitem a ha
              obtain ⟨n, hmem, _, id, idx, x, _, haddr⟩ := hshape item hitem
              rw [haddr] at ha
              simp only [Option.some.injEq] at ha
              rw [← ha]
              simp only [ne_eq, DNCMergerOnWafer.mk.injEq, and_true]
              intro he
              rw [he] at hmem
              revert hmem
              decide
            rw [hnone]
            simp [neurons_on]
  · intro hle
    exact insertInput_loop_exhausts P h hrate [7, 6, 5, 4, 3, 2, 1, 0] st st1 (by decide)
      (fun d _ => ⟨hmode d, hpool d, hmap d⟩) hext (by simpa using hle) hrun

end placement

namespace placement

theorem WaferState.insertInput_on_new_chip {R : Type} (P : InputPlacement R) (h : HICANNOnWafer)
    (bio bio1 : PopulationSlice) (w w1 : WaferState R)
    (hrate : P.consider_firing_rate = false) (hmr : P.m_merger_routing h = none)
    (hinit : w.address_assignment h = L1AddressAssignment.init)
    (hnp : w.neuron_placement = []) (hN : 63 < bio.size)
    (hrun : w.insertInput P h bio = .ok (w1, bio1)) :
    neurons_on w1.neuron_placement h 7 = List.range' (bio.offset + (bio.size - 63)) 63 ∧
    (bio.size ≤ 504 → bio1.size = 0) := by
  unfold WaferState.insertInput at hrun
  cases hst : P.insertInput h ⟨w.neuron_placement, w.address_assignment h, bio,
      w.mUsedRateHICANN, w.mUsedRateFPGA, w.mMgr⟩ with
  | error e => simp [hst] at hrun
  | ok st =>
      simp only [hst, Except.ok.injEq, Prod.mk.injEq] at hrun
      have := placement.insertInput_new_chip P h _ st hrate hmr hinit hnp hN hst
      rw [← hrun.1, ← hrun.2]
      exact this

/-- C16, amended: for a manually placed source population of `N` neurons, more
than one pool holds, with chip list [(0,0), (1,0)], new address pools of 63
addresses, firing rates not considered and no merger-routing entry for chip
(0,0), the calls of `insertInput` succeed and DNC merger 7 of chip (0,0) gets
the last 63 neurons of the population (the highest neuron indices). If the
population has at most 504 neurons, the run succeeds, all `N` neurons are
placed on DNC mergers of chip (0,0) and no neuron is placed on chip (1,0). -/
theorem scenario4_back_first {R : Type} (P : InputPlacement R) (population offset N : Nat)
    (w : WaferState R) (hrate : P.consider_firing_rate = false)
    (hmr : P.m_merger_routing ⟨0, 0⟩ = none)
    (hinit : w.address_assignment ⟨0, 0⟩ = L1AddressAssignment.init)
    (hnp : w.neuron_placement = []) (hN : 63 < N) :
    ∃ w1 bio1,
      P.run_manual_loop scenario4_chips ⟨population, offset, N⟩ w = .ok (w1, bio1) ∧
      neurons_on w1.neuron_placement ⟨0, 0⟩ 7 = List.range' (offset + (N - 63)) 63 ∧
      (N ≤ 504 →
        P.run_manual (.hicanns scenario4_chips) ⟨population, offset, N⟩ w = .ok w1 ∧
        w1.neuron_placement.length = N ∧
        (∀ item ∈ w1.neuron_placement, ∃ n x, item.address = some ⟨⟨n, ⟨0, 0⟩⟩, x⟩) ∧
        ∀ d, neurons_on w1.neuron_placement ⟨1, 0⟩ d = []) := by
  obtain ⟨w1, bio1, h1⟩ := WaferState.insertInput_ok P ⟨0, 0⟩ ⟨population, offset, N⟩ w
  obtain ⟨w2, bio2, h2⟩ := WaferState.insertInput_ok P ⟨1, 0⟩ bio1 w1
  have hloop : P.run_manual_loop scenario4_chips ⟨population, offset, N⟩ w
      = .ok (w2, bio2) := by
    simp only [scenario4_chips, InputPlacement.run_manual_loop, h1, h2]
  obtain ⟨hseven, hzero⟩ := WaferState.insertInput_on_new_chip P ⟨0, 0⟩ _ bio1 w w1 hrate hmr
    hinit hnp hN h1
  obtain ⟨new1, hnew1, hshape1⟩ := WaferState.insertInput_items P _ _ _ _ _ h1
  obtain ⟨new2, hnew2, hshape2⟩ := WaferState.insertInput_items P _ _ _ _ _ h2
  have hc1 := WaferState.insertInput_count P _ _ _ _ _ h1
  have hc2 := WaferState.insertInput_count P _ _ _ _ _ h2
  have hother : neurons_on new2 ⟨0, 0⟩ 7 = [] := by
    apply neurons_on_of_other
    intro item hitem a ha
    obtain ⟨n, id, idx, x, _, haddr⟩ := hshape2 item hitem
    rw [haddr] at ha
    simp only [Option.some.injEq] at ha
    rw [← ha]
    simp
  refine ⟨w2, bio2, hloop, ?_, ?_⟩
  · rw [hnew2, neurons_on_append, hseven, hother, List.append_nil]
  · intro hle
    have hb1 : bio1.size = 0 := hzero hle
    have hlen : new2.length = 0 ∧ bio2.size = 0 := by
      rw [hnew2, List.length_append, hb1] at hc2
      omega
    have hnil : new2 = [] := List.length_eq_zero.mp hlen.1
    rw [hnil, List.append_nil] at hnew2
    have hitems : ∀ item ∈ w2.neuron_placement,
        ∃ n x, item.address = some ⟨⟨n, ⟨0, 0⟩⟩, x⟩ := by
      intro item hitem
      rw [hnew2, hnew1, hnp, List.nil_append] at hitem
      obtain ⟨n, _, _, x, _, haddr⟩ := hshape1 item hitem
      exact ⟨n, x, haddr⟩
    refine ⟨?_, ?_, hitems, ?_⟩
    · simp [InputPlacement.run_manual, scenario4_chips] at hloop ⊢
      rw [hloop]
      simp [hlen.2]
    · rw [hnew2]
      rw [hnp, hb1] at hc1
      simpa using hc1
    · intro d
      apply neurons_on_of_other
      intro item hitem a ha
      obtain ⟨n, x, haddr⟩ := hitems item hitem
      rw [haddr] at ha
      simp only [Option.some.injEq] at ha
      rw [← ha]
      simp

/-- Witness for C16, amended: a population of 64 neurons on the wafer of
scenario 4. -/
theorem scenario4_back_first_witness :
    ∃ w1 bio1,
      sampleInputPlacement.run_manual_loop scenario4_chips ⟨0, 0, 64⟩ scenario4_start
        = .ok (w1, bio1) ∧
      neurons_on w1.neuron_placement ⟨0, 0⟩ 7 = List.range' (0 + (64 - 63)) 63 ∧
      (64 ≤ 504 →
        sampleInputPlacement.run_manual (.hicanns scenario4_chips) ⟨0, 0, 64⟩ scenario4_start
          = .ok w1 ∧
        w1.neuron_placement.length = 64 ∧
        (∀ item ∈ w1.neuron_placement, ∃ n x, item.address = some ⟨⟨n, ⟨0, 0⟩⟩, x⟩) ∧
        ∀ d, neurons_on w1.neuron_placement ⟨1, 0⟩ d = []) :=
  scenario4_back_first sampleInputPlacement 0 0 64 scenario4_start rfl rfl rfl rfl (by decide)

end placement

namespace parameter

theorem double_to_int_of_int (n : Int) (h : -2147483648 ≤ n ∧ n ≤ 2147483647) :
    double_to_int (n : ℚ) = some n := by
  unfold double_to_int
  simp only [Int.floor_intCast, Int.ceil_intCast, ite_self]
  rw [if_pos h]

/-- C19: `get_mean_v_reset` does not return the arithmetic mean. For the single
value 0.5 it returns 0 (the mean is 0.5); for the values 1.5 and 2 it returns 1
(the mean is 1.75); for the single value -65 it returns 2^64 - 65 (the mean is
-65). -/
theorem get_mean_v_reset_truncates :
    get_mean_v_reset [1 / 2] = some 0 ∧ arithmetic_mean [1 / 2] = 1 / 2 ∧
    get_mean_v_reset [3 / 2, 2] = some 1 ∧ arithmetic_mean [3 / 2, 2] = 7 / 4 ∧
    get_mean_v_reset [-65] = some 18446744073709551551 ∧ arithmetic_mean [-65] = -65 := by
  have h1 : double_to_int ((0 : Int) + 1 / 2 : ℚ) = some 0 := by
    unfold double_to_int
    have hf : Int.floor ((0 : Int) + 1 / 2 : ℚ) = 0 := by
      rw [Int.floor_eq_iff]
      norm_num
    simp only [hf]
    norm_num
  have h2 : double_to_int ((0 : Int) + 3 / 2 : ℚ) = some 1 := by
    unfold double_to_int
    have hf : Int.floor ((0 : Int) + 3 / 2 : ℚ) = 1 := by
      rw [Int.floor_eq_iff]
      norm_num
    simp only [hf]
    norm_num
  have h3 : double_to_int ((1 : Int) + 2 : ℚ) = some 3 := by
    have := double_to_int_of_int 3 (by decide)
    have he : ((1 : Int) + 2 : ℚ) = ((3 : Int) : ℚ) := by norm_num
    rw [he]
    exact this
  have h4 : double_to_int ((0 : Int) + -65 : ℚ) = some (-65) := by
    have := double_to_int_of_int (-65) (by decide)
    have he : ((0 : Int) + -65 : ℚ) = ((-65 : Int) : ℚ) := by norm_num
    rw [he]
    exact this
  have c1 : int_to_size_t 0 = 0 := by decide
  have c2 : int_to_size_t 3 = 3 := by decide
  have c3 : int_to_size_t (-65) = 18446744073709551551 := by decide
  refine ⟨?_, ?_, ?_, ?_, ?_, ?_⟩
  · simp only [get_mean_v_reset, accumulate, h1, c1]
    norm_num
  · norm_num [arithmetic_mean]
  · simp only [get_mean_v_reset, accumulate, h2, h3, c2]
    norm_num
  · norm_num [arithmetic_mean]
  · simp only [get_mean_v_reset, accumulate, h4, c3]
    norm_num
  · norm_num [arithmetic_mean]

end parameter

namespace parameter

open placement

theorem foldl_update_const {α : Type} [DecidableEq α] (s : ℚ) :
    ∀ (l : List α) (rv : α → ℚ) (n : α),
      (l.foldl (fun rv1 c => Function.update rv1 c s) rv) n = if n ∈ l then s else rv n := by
  intro l
  induction l with
  | nil =>
      intro rv n
      simp
  | cons a rest ih =>
      intro rv n
      simp only [List.foldl_cons, ih, List.mem_cons]
      by_cases h1 : n ∈ rest
      · simp [h1]
      · by_cases h2 : n = a
        · subst h2
          simp [h1]
        · simp [h1, h2, Function.update_noteq h2]

theorem HICANNParameters.weight_scale_item_apply (H : HICANNParameters)
    (rv : NeuronOnHICANN → ℚ) (item : PlacementItem) (nrn : NeuronOnHICANN) :
    H.weight_scale_item rv item nrn
      = if nrn ∈ H.denmems item.logical_neuron then H.scale item else rv nrn := by
  unfold HICANNParameters.weight_scale_item
  exact foldl_update_const _ _ _ _

theorem HICANNParameters.cm_hw_eq_sum (H : HICANNParameters) (item : PlacementItem) :
    H.cm_hw item = ((H.denmems item.logical_neuron).map H.cap).sum := by
  unfold HICANNParameters.cm_hw
  have hgen : ∀ (l : List NeuronOnHICANN) (acc : ℚ),
      l.foldl (fun acc nrn => acc + H.cap nrn) acc = acc + (l.map H.cap).sum := by
    intro l
    induction l with
    | nil =>
        intro acc
        simp
    | cons a rest ih =>
        intro acc
        simp only [List.foldl_cons, ih, List.map_cons, List.sum_cons]
        ring
  rw [hgen, zero_add]

theorem weight_scale_fold_other (H : HICANNParameters) (nrn : NeuronOnHICANN) :
    ∀ (items : List PlacementItem) (rv : NeuronOnHICANN → ℚ),
      (∀ item ∈ items, nrn ∉ H.denmems item.logical_neuron) →
      (items.foldl H.weight_scale_item rv) nrn = rv nrn := by
  intro items
  induction items with
  | nil =>
      intro rv _
      rfl
  | cons a rest ih =>
      intro rv hno
      simp only [List.foldl_cons]
      rw [ih _ (fun item hitem => hno item (List.mem_cons_of_mem _ hitem)),
        HICANNParameters.weight_scale_item_apply,
        if_neg (hno a (List.mem_cons_self _ _))]

theorem weight_scale_fold_mem (H : HICANNParameters) (nrn : NeuronOnHICANN)
    (item : PlacementItem) (hnrn : nrn ∈ H.denmems item.logical_neuron) :
    ∀ (items : List PlacementItem) (rv : NeuronOnHICANN → ℚ),
      denmems_disjoint H items → item ∈ items →
      (items.foldl H.weight_scale_item rv) nrn = H.scale item := by
  intro items
  induction items with
  | nil =>
      intro rv _ hmem
      simp at hmem
  | cons a rest ih =>
      intro rv hdis hmem
      unfold denmems_disjoint at hdis
      rw [List.pairwise_cons] at hdis
      simp only [List.foldl_cons]
      rcases List.mem_cons.mp hmem with he | hin
      · subst he
        rw [weight_scale_fold_other H nrn rest _ (fun j hj => hdis.1 j hj nrn hnrn),
          HICANNParameters.weight_scale_item_apply, if_pos hnrn]
      · exact ih _ hdis.2 hin

end parameter

namespace parameter

open placement

/-- C20: when no denmem belongs to the logical neurons of two items placed on
the chip, `weight_scale_array` gives every denmem of the logical neuron of
every such item the value `speedup * cm_hw / cm_bio`, where `cm_hw` is the sum
of `big_cap` or `small_cap` over the denmems of that logical neuron, chosen by
the big-capacitor setting of the half the denmem is in, and `cm_bio` is the cell
capacitance of the bio neuron of the item; all denmems of one logical neuron
get the same value; a denmem that belongs to no logical neuron placed on the
chip gets 0; for a logical neuron of four denmems with small capacitors the
value is `speedup * (4 * small_cap) / cm_bio`. -/
theorem weight_scale_formula (H : HICANNParameters) (neuron_placement : List PlacementItem)
    (hdis : denmems_disjoint H (find_hicann neuron_placement H.m_chip)) :
    (∀ item ∈ find_hicann neuron_placement H.m_chip,
      ∀ nrn ∈ H.denmems item.logical_neuron,
        H.weight_scale_array neuron_placement nrn
          = H.speedup * ((H.denmems item.logical_neuron).map fun d =>
              if H.use_bigcap d.y then H.big_cap else H.small_cap).sum
            / H.cm_bio item.bio_neuron.population item.bio_neuron.neuron_index) ∧
    (∀ item ∈ find_hicann neuron_placement H.m_chip,
      ∀ a ∈ H.denmems item.logical_neuron, ∀ b ∈ H.denmems item.logical_neuron,
        H.weight_scale_array neuron_placement a = H.weight_scale_array neuron_placement b) ∧
    (∀ nrn, (∀ item ∈ find_hicann neuron_placement H.m_chip,
        nrn ∉ H.denmems item.logical_neuron) →
      H.weight_scale_array neuron_placement nrn = 0) ∧
    (∀ item ∈ find_hicann neuron_placement H.m_chip,
      (H.denmems item.logical_neuron).length = 4 →
      (∀ d ∈ H.denmems item.logical_neuron, H.use_bigcap d.y = false) →
      ∀ nrn ∈ H.denmems item.logical_neuron,
        H.weight_scale_array neuron_placement nrn
          = H.speedup * (4 * H.small_cap)
            / H.cm_bio item.bio_neuron.population item.bio_neuron.neuron_index) := by
  have hval : ∀ item ∈ find_hicann neuron_placement H.m_chip,
      ∀ nrn ∈ H.denmems item.logical_neuron,
        H.weight_scale_array neuron_placement nrn = H.scale item := by
    intro item hitem nrn hnrn
    exact weight_scale_fold_mem H nrn item hnrn _ _ hdis hitem
  refine ⟨?_, ?_, ?_, ?_⟩
  · intro item hitem nrn hnrn
    rw [hval item hitem nrn hnrn, HICANNParameters.scale, HICANNParameters.cm_hw_eq_sum]
    rfl
  · intro item hitem a ha b hb
    rw [hval item hitem a ha, hval item hitem b hb]
  · intro nrn hno
    exact weight_scale_fold_other H nrn _ _ hno
  · intro item hitem hlen hsmall nrn hnrn
    rw [hval item hitem nrn hnrn, HICANNParameters.scale, HICANNParameters.cm_hw_eq_sum]
    have hmap : (H.denmems item.logical_neuron).map H.cap
        = List.replicate 4 H.small_cap := by
      rw [List.eq_replicate_iff]
      refine ⟨by simpa using hlen, ?_⟩
      intro c hc
      obtain ⟨d, hd, hcap⟩ := List.mem_map.mp hc
      rw [← hcap]
      simp [HICANNParameters.cap, hsmall d hd]
    rw [hmap]
    have hsum : (List.replicate 4 H.small_cap).sum = 4 * H.small_cap := by
      simp only [List.replicate, List.sum_cons, List.sum_nil]
      ring
    rw [hsum]

/-- Witness for C20: two logical neurons of four denmems each on chip (0,0). -/
theorem weight_scale_formula_witness :
    denmems_disjoint sampleParameters (find_hicann sampleOnChip sampleParameters.m_chip) ∧
    ∀ item ∈ find_hicann sampleOnChip sampleParameters.m_chip,
      (sampleParameters.denmems item.logical_neuron).length = 4 →
      (∀ d ∈ sampleParameters.denmems item.logical_neuron,
        sampleParameters.use_bigcap d.y = false) →
      ∀ nrn ∈ sampleParameters.denmems item.logical_neuron,
        sampleParameters.weight_scale_array sampleOnChip nrn
          = sampleParameters.speedup * (4 * sampleParameters.small_cap)
            / sampleParameters.cm_bio item.bio_neuron.population
                item.bio_neuron.neuron_index :=
  ⟨by unfold denmems_disjoint; decide,
   (weight_scale_formula sampleParameters sampleOnChip
     (by unfold denmems_disjoint; decide)).2.2.2⟩

end parameter

namespace parameter

open placement

end parameter

namespace parameter

open placement

theorem background_generators_fold {D : Type} (isi : Nat) :
    ∀ (l : List (Fin 8)) (s : RunState D),
      (l.foldl (fun s1 addr =>
          ({ s1 with layer1 := Function.update s1.layer1 addr ⟨true, 0, 0, false, isi⟩ } :
            RunState D)) s).other = s.other ∧
      ∀ a, (l.foldl (fun s1 addr =>
          ({ s1 with layer1 := Function.update s1.layer1 addr ⟨true, 0, 0, false, isi⟩ } :
            RunState D)) s).layer1 a
        = if a ∈ l then ⟨true, 0, 0, false, isi⟩ else s.layer1 a := by
  intro l
  induction l with
  | nil =>
      intro s
      simp
  | cons b rest ih =>
      intro s
      simp only [List.foldl_cons]
      refine ⟨(ih _).1, ?_⟩
      intro a
      rw [(ih _).2 a]
      by_cases h1 : a ∈ rest
      · simp [h1]
      · by_cases h2 : a = b
        · subst h2
          simp [h1]
        · simp [h1, h2, Function.update_noteq h2]

theorem background_generators_apply {D : Type} (isi : Nat) (s : RunState D) :
    (background_generators isi s).other = s.other ∧
    ∀ a, (background_generators isi s).layer1 a = ⟨true, 0, 0, false, isi⟩ := by
  unfold background_generators
  refine ⟨(background_generators_fold isi _ s).1, ?_⟩
  intro a
  rw [(background_generators_fold isi _ s).2 a, if_pos (List.mem_finRange a)]

theorem spike_input_of_no_source {D Calib : Type} (T : Stages D Calib)
    (neuron_placement : List PlacementItem) (s : RunState D)
    (hno : ∀ dnc, ∀ item ∈ find_dnc_merger neuron_placement ⟨dnc, T.m_chip_index⟩,
      T.is_source item.bio_neuron.population = false) :
    spike_input T neuron_placement s = s := by
  unfold spike_input
  have hinner : ∀ (dnc : DNCMergerOnHICANN) (items : List PlacementItem) (s1 : RunState D),
      (∀ item ∈ items, T.is_source item.bio_neuron.population = false) →
      items.foldl
        (fun s2 item =>
          if !T.is_source item.bio_neuron.population then s2
          else
            match item.address with
            | none => s2
            | some address =>
                T.transform_input_spikes item.bio_neuron.population address.address
                  item.bio_neuron.neuron_index dnc s2)
        s1 = s1 := by
    intro dnc items
    induction items with
    | nil =>
        intro s1 _
        rfl
    | cons a rest ih =>
        intro s1 h
        simp only [List.foldl_cons, h a (List.mem_cons_self _ _), Bool.not_false, if_true]
        exact ih s1 (fun item hitem => h item (List.mem_cons_of_mem _ hitem))
  have houter : ∀ (l : List DNCMergerOnHICANN) (s1 : RunState D),
      l.foldl
        (fun s1 dnc_merger =>
          (find_dnc_merger neuron_placement ⟨dnc_merger, T.m_chip_index⟩).foldl
            (fun s2 item =>
              if !T.is_source item.bio_neuron.population then s2
              else
                match item.address with
                | none => s2
                | some address =>
                    T.transform_input_spikes item.bio_neuron.population address.address
                      item.bio_neuron.neuron_index dnc_merger s2)
            s1)
        s1 = s1 := by
    intro l
    induction l with
    | nil =>
        intro s1
        rfl
    | cons d rest ih =>
        intro s1
        simp only [List.foldl_cons]
        rw [hinner d _ s1 (hno d)]
        exact ih s1
  exact houter _ s

end parameter

namespace parameter

open placement

/-- C22, counterexample: with the ESS backend and the XML calibration backend,
`run` on a chip without placement whose background generators are switched off
raises, and background generator 0 of the chip is switched on afterwards. -/
theorem run_failure_writes_background_generators :
    sampleFailedRun.1 = some CalibrationError.ess_with_calib_backend ∧
    (sampleChipState.layer1 0).enable = false ∧
    (sampleFailedRun.2.layer1 0).enable = true ∧
    sampleFailedRun.2.layer1 ≠ sampleChipState.layer1 := by
  refine ⟨rfl, rfl, rfl, ?_⟩
  intro h
  have h0 := congrFun h 0
  have h1 : (sampleFailedRun.2.layer1 0).enable = (sampleChipState.layer1 0).enable := by
    rw [h0]
  exact absurd h1 (by decide)

/-- C22, amended: if obtaining the calibration fails in `run`, `run` raises
that error after spike input and background generators were configured and
before any stage that uses the calibration: the state is the one that
`spike_input` and `background_generators` leave behind, every background
generator of the chip is enabled with seed 0, address 0 and the period
`bkg_gen_isi`, and when no source item is found on a DNC merger of the chip all
other settings are unchanged. Obtaining the calibration fails for the ESS
backend combined with a calibration backend other than the default one, and,
with the XML calibration backend, when the backend cannot be loaded, when the
environment variable and `calib_path` are both set, and when the file cannot be
loaded. -/
theorem run_calibration_failure {D Calib : Type} (T : Stages D Calib)
    (m_pymarocco : PyMarocco) (param_trafo : ParamTrafo) (lib : Calibtic Calib)
    (calib_file_string : String) (neuron_placement : List PlacementItem) (s : RunState D) :
    (∀ e, getCalibrationData m_pymarocco lib calib_file_string = .error e →
      run T m_pymarocco param_trafo lib calib_file_string neuron_placement s
        = (some e, background_generators m_pymarocco.bkg_gen_isi
            (spike_input T neuron_placement s)) ∧
      (∀ addr,
        (run T m_pymarocco param_trafo lib calib_file_string neuron_placement s).2.layer1 addr
          = ⟨true, 0, 0, false, m_pymarocco.bkg_gen_isi⟩) ∧
      ((∀ dnc, ∀ item ∈ find_dnc_merger neuron_placement ⟨dnc, T.m_chip_index⟩,
          T.is_source item.bio_neuron.population = false) →
        (run T m_pymarocco param_trafo lib calib_file_string neuron_placement s).2.other
          = s.other)) ∧
    (m_pymarocco.backend = Backend.ESS → m_pymarocco.calib_backend ≠ CalibBackend.Default →
      getCalibrationData m_pymarocco lib calib_file_string
        = .error .ess_with_calib_backend) ∧
    (m_pymarocco.backend ≠ Backend.ESS → m_pymarocco.calib_backend = CalibBackend.XML →
      (lib.loadBackend = false →
        getCalibrationData m_pymarocco lib calib_file_string
          = .error .unable_to_load_backend) ∧
      (lib.loadBackend = true → lib.getenv_MAROCCO_CALIB_PATH ≠ none →
        m_pymarocco.calib_path.isEmpty = false →
        getCalibrationData m_pymarocco lib calib_file_string = .error .colliding_settings) ∧
      (∀ path, getCalibticBackend m_pymarocco lib = .ok path →
        lib.load path calib_file_string = none →
        getCalibrationData m_pymarocco lib calib_file_string = .error .load_failed)) := by
  refine ⟨?_, ?_, ?_⟩
  · intro e he
    have hrun : run T m_pymarocco param_trafo lib calib_file_string neuron_placement s
        = (some e, background_generators m_pymarocco.bkg_gen_isi
            (spike_input T neuron_placement s)) := by
      simp only [run, he]
    refine ⟨hrun, ?_, ?_⟩
    · intro addr
      rw [hrun]
      exact (background_generators_apply _ _).2 addr
    · intro hno
      rw [hrun]
      simp only
      rw [(background_generators_apply _ _).1, spike_input_of_no_source T _ s hno]
  · intro hb hc
    simp [getCalibrationData, hb, hc]
  · intro hb hc
    refine ⟨?_, ?_, ?_⟩
    · intro hl
      simp [getCalibrationData, getCalibticBackend, hb, hc, hl]
    · intro hl henv hpath
      cases hv : lib.getenv_MAROCCO_CALIB_PATH with
      | none => exact absurd hv henv
      | some env => simp [getCalibrationData, getCalibticBackend, hb, hc, hl, hv, hpath]
    · intro path hp hload
      simp [getCalibrationData, hb, hc, hp, hload]

end parameter

namespace placement

namespace parameters

/-- C23: the setter `default_neuron_size(size)` succeeds if and only if `size`
is even and at most 64; then the getter returns `size` and the other members
are unchanged; otherwise it raises `invalid_argument` and the object is
unchanged. A new `NeuronPlacement` has `default_neuron_size` 4. -/
theorem default_neuron_size_validation (p : NeuronPlacement) (size : Nat) :
    ((p.set_default_neuron_size size).1 = .ok () ↔ size % 2 = 0 ∧ size ≤ 64) ∧
    ((p.set_default_neuron_size size).1 = .ok () →
      (p.set_default_neuron_size size).2.default_neuron_size = size ∧
      (p.set_default_neuron_size size).2.m_restrict_rightmost_neuron_blocks
        = p.m_restrict_rightmost_neuron_blocks ∧
      (p.set_default_neuron_size size).2.m_minimize_number_of_sending_repeaters
        = p.m_minimize_number_of_sending_repeaters) ∧
    ((p.set_default_neuron_size size).1 ≠ .ok () →
      p.set_default_neuron_size size = (.error .invalid_argument, p)) ∧
    NeuronPlacement.init.default_neuron_size = 4 := by
  by_cases h : size % 2 ≠ 0 ∨ size > NeuronOnNeuronBlock_size
  · have hset : p.set_default_neuron_size size = (.error .invalid_argument, p) := by
      simp only [NeuronPlacement.set_default_neuron_size, check_neuron_size, if_pos h]
    rw [hset]
    refine ⟨?_, ?_, fun _ => rfl, rfl⟩
    · constructor
      · intro hc
        simp at hc
      · intro hc
        unfold NeuronOnNeuronBlock_size at h
        omega
    · intro hc
      simp at hc
  · have hset : p.set_default_neuron_size size
        = (.ok (), { p with m_default_neuron_size := size }) := by
      simp only [NeuronPlacement.set_default_neuron_size, check_neuron_size, if_neg h]
    rw [hset]
    refine ⟨?_, fun _ => ⟨rfl, rfl, rfl⟩, ?_, rfl⟩
    · constructor
      · intro _
        unfold NeuronOnNeuronBlock_size at h
        omega
      · intro _
        rfl
    · intro hc
      exact absurd rfl hc

end parameters

end placement

namespace routing

open placement parameter

namespace SynapseTargetMapping

variable {S : Type}

theorem map_targets_assign_apply (eL eR oL oR : S) :
    ∀ (neurons : List NeuronOnHICANN) (m : SynapseTargetMapping S) (n : NeuronOnHICANN),
      map_targets_assign eL eR oL oR neurons m n
        = if n ∈ neurons then targets_of_column eL eR oL oR n else m n := by
  intro neurons
  induction neurons with
  | nil =>
      intro m n
      simp [map_targets_assign]
  | cons a rest ih =>
      intro m n
      have hstep : map_targets_assign eL eR oL oR (a :: rest) m
          = map_targets_assign eL eR oL oR rest
              (if a.x.val % 2 ≠ 0 then m.assign a oL oR else m.assign a eL eR) := by
        simp [map_targets_assign]
      rw [hstep, ih]
      by_cases h1 : n ∈ rest
      · simp [h1]
      · by_cases h2 : n = a
        · subst h2
          simp only [h1, if_false, List.mem_cons, true_or, if_true]
          funext side
          by_cases hp : n.x.val % 2 ≠ 0
          · rw [if_pos hp]
            cases side <;> simp [assign, targets_of_column, hp]
          · rw [if_neg hp]
            cases side <;> simp [assign, targets_of_column, hp]
        · simp only [h1, if_false, List.mem_cons, h2, false_or]
          split_ifs <;> simp [assign, Function.update_noteq h2]

theorem map_targets_result (required_targets : List S) (neurons : List NeuronOnHICANN)
    (m m1 : SynapseTargetMapping S)
    (hrun : map_targets required_targets neurons m = .ok m1) :
    m1 = m ∨ ∃ eL eR oL oR, m1 = map_targets_assign eL eR oL oR neurons m := by
  unfold map_targets at hrun
  by_cases hk : required_targets.length = 0
  · rw [if_pos hk] at hrun
    simp only [Except.ok.injEq] at hrun
    exact Or.inl hrun.symm
  · rw [if_neg hk] at hrun
    cases hc : check_connected_block neurons with
    | error e => simp [hc] at hrun
    | ok top_size =>
        simp only [hc] at hrun
        by_cases h2 : required_targets.length > top_size * 2
        · rw [if_pos h2] at hrun
          simp at hrun
        · rw [if_neg h2] at hrun
          cases ht : choose_targets required_targets with
          | error e => simp [ht] at hrun
          | ok t =>
              obtain ⟨eL, eR, oL, oR⟩ := t
              simp only [ht, Except.ok.injEq] at hrun
              exact Or.inr ⟨eL, eR, oL, oR, hrun.symm⟩

end SynapseTargetMapping

end routing

namespace routing

open placement parameter

namespace SynapseTargetMapping

variable {S : Type}

theorem simple_mapping_item_result (P : Parameters S) (item : PlacementItem)
    (m m1 : SynapseTargetMapping S) (hrun : simple_mapping_item P item m = .ok m1) :
    m1 = m ∨ ∃ eL eR oL oR,
      m1 = map_targets_assign eL eR oL oR (P.denmems item.logical_neuron) m := by
  unfold simple_mapping_item at hrun
  simp only at hrun
  split_ifs at hrun
  exact map_targets_result _ _ _ _ hrun

theorem simple_mapping_item_frame (P : Parameters S) (item : PlacementItem)
    (m m1 : SynapseTargetMapping S) (hrun : simple_mapping_item P item m = .ok m1)
    (n : NeuronOnHICANN) (hn : n ∉ P.denmems item.logical_neuron) : m1 n = m n := by
  rcases simple_mapping_item_result P item m m1 hrun with h | ⟨eL, eR, oL, oR, h⟩
  · rw [h]
  · rw [h, map_targets_assign_apply, if_neg hn]

theorem simple_mapping_item_rows (P : Parameters S) (item : PlacementItem)
    (m m1 : SynapseTargetMapping S) (hrun : simple_mapping_item P item m = .ok m1)
    (hrect : spans_both_rows P item)
    (hm : ∀ (x : Fin 256) (side : SideHorizontal), m ⟨x, 0⟩ side = m ⟨x, 1⟩ side) :
    ∀ (x : Fin 256) (side : SideHorizontal), m1 ⟨x, 0⟩ side = m1 ⟨x, 1⟩ side := by
  rcases simple_mapping_item_result P item m m1 hrun with h | ⟨eL, eR, oL, oR, h⟩
  · rw [h]
    exact hm
  · intro x side
    rw [h, map_targets_assign_apply, map_targets_assign_apply]
    by_cases h0 : (⟨x, 0⟩ : NeuronOnHICANN) ∈ P.denmems item.logical_neuron
    · have h1 : (⟨x, 1⟩ : NeuronOnHICANN) ∈ P.denmems item.logical_neuron := hrect _ h0 1
      rw [if_pos h0, if_pos h1]
      cases side <;> rfl
    · have h1 : (⟨x, 1⟩ : NeuronOnHICANN) ∉ P.denmems item.logical_neuron := by
        intro hc
        exact h0 (hrect _ hc 0)
      rw [if_neg h0, if_neg h1]
      exact hm x side

theorem simple_mapping_item_parity (P : Parameters S) (item : PlacementItem)
    (m m1 : SynapseTargetMapping S) (hrun : simple_mapping_item P item m = .ok m1)
    (a b : NeuronOnHICANN) (ha : a ∈ P.denmems item.logical_neuron)
    (hb : b ∈ P.denmems item.logical_neuron) (hpar : a.x.val % 2 = b.x.val % 2)
    (hm : m a = m b) : m1 a = m1 b := by
  rcases simple_mapping_item_result P item m m1 hrun with h | ⟨eL, eR, oL, oR, h⟩
  · rw [h]
    exact hm
  · rw [h, map_targets_assign_apply, map_targets_assign_apply, if_pos ha, if_pos hb]
    funext side
    cases side <;> simp [targets_of_column, hpar]

theorem simple_mapping_loop_frame (P : Parameters S) (n : NeuronOnHICANN) :
    ∀ (items : List PlacementItem) (m m1 : SynapseTargetMapping S),
      simple_mapping_loop P items m = .ok m1 →
      (∀ item ∈ items, n ∉ P.denmems item.logical_neuron) → m1 n = m n := by
  intro items
  induction items with
  | nil =>
      intro m m1 hrun _
      simp only [simple_mapping_loop, Except.ok.injEq] at hrun
      rw [hrun]
  | cons i rest ih =>
      intro m m1 hrun hno
      simp only [simple_mapping_loop] at hrun
      cases hi : simple_mapping_item P i m with
      | error e => simp [hi] at hrun
      | ok m2 =>
          simp only [hi] at hrun
          rw [ih m2 m1 hrun (fun item hitem => hno item (List.mem_cons_of_mem _ hitem)),
            simple_mapping_item_frame P i m m2 hi n (hno i (List.mem_cons_self _ _))]

theorem simple_mapping_loop_rows (P : Parameters S) :
    ∀ (items : List PlacementItem) (m m1 : SynapseTargetMapping S),
      simple_mapping_loop P items m = .ok m1 →
      (∀ item ∈ items, spans_both_rows P item) →
      (∀ (x : Fin 256) (side : SideHorizontal), m ⟨x, 0⟩ side = m ⟨x, 1⟩ side) →
      ∀ (x : Fin 256) (side : SideHorizontal), m1 ⟨x, 0⟩ side = m1 ⟨x, 1⟩ side := by
  intro items
  induction items with
  | nil =>
      intro m m1 hrun _ hm
      simp only [simple_mapping_loop, Except.ok.injEq] at hrun
      rw [← hrun]
      exact hm
  | cons i rest ih =>
      intro m m1 hrun hrect hm
      simp only [simple_mapping_loop] at hrun
      cases hi : simple_mapping_item P i m with
      | error e => simp [hi] at hrun
      | ok m2 =>
          simp only [hi] at hrun
          exact ih m2 m1 hrun (fun item hitem => hrect item (List.mem_cons_of_mem _ hitem))
            (simple_mapping_item_rows P i m m2 hi (hrect i (List.mem_cons_self _ _)) hm)

theorem simple_mapping_loop_parity (P : Parameters S) :
    ∀ (items : List PlacementItem) (m m1 : SynapseTargetMapping S),
      simple_mapping_loop P items m = .ok m1 →
      logical_neurons_disjoint P items →
      (∀ item ∈ items, ∀ a ∈ P.denmems item.logical_neuron,
        ∀ b ∈ P.denmems item.logical_neuron, a.x.val % 2 = b.x.val % 2 → m a = m b) →
      ∀ item ∈ items, ∀ a ∈ P.denmems item.logical_neuron,
        ∀ b ∈ P.denmems item.logical_neuron, a.x.val % 2 = b.x.val % 2 → m1 a = m1 b := by
  intro items
  induction items with
  | nil =>
      intro m m1 _ _ _ item hitem
      simp at hitem
  | cons i rest ih =>
      intro m m1 hrun hdis hm item hitem a ha b hb hpar
      unfold logical_neurons_disjoint at hdis
      rw [List.pairwise_cons] at hdis
      simp only [simple_mapping_loop] at hrun
      cases hi : simple_mapping_item P i m with
      | error e => simp [hi] at hrun
      | ok m2 =>
          simp only [hi] at hrun
          rcases List.mem_cons.mp hitem with he | hin
          · subst he
            have hfa := simple_mapping_loop_frame P a rest m2 m1 hrun
              (fun j hj => hdis.1 j hj a ha)
            have hfb := simple_mapping_loop_frame P b rest m2 m1 hrun
              (fun j hj => hdis.1 j hj b hb)
            rw [hfa, hfb]
            exact simple_mapping_item_parity P item m m2 hi a b ha hb hpar
              (hm item (List.mem_cons_self _ _) a ha b hb hpar)
          · refine ih m2 m1 hrun hdis.2 ?_ item hin a ha b hb hpar
            intro j hj c hc d hd hcd
            have hnc : c ∉ P.denmems i.logical_neuron := fun h => hdis.1 j hj c h hc
            have hnd : d ∉ P.denmems i.logical_neuron := fun h => hdis.1 j hj d h hd
            rw [simple_mapping_item_frame P i m m2 hi c hnc,
              simple_mapping_item_frame P i m m2 hi d hnd]
            exact hm j (List.mem_cons_of_mem _ hj) c hc d hd hcd

end SynapseTargetMapping

end routing

namespace routing

open placement parameter

namespace SynapseTargetMapping

/-- C24: when `simple_mapping` on a new `SynapseTargetMapping` returns, for a
placement whose logical neurons on the chip span both rows and are pairwise
disjoint, the top and the bottom denmem of every column have the same left and
the same right synapse type, `check_top_and_bottom_are_equal` returns true, and
any two denmems of one logical neuron in columns of equal parity have the same
left and the same right synapse type. -/
theorem simple_mapping_consistent {S : Type} [DecidableEq S] (P : Parameters S) (None : S)
    (neuron_placement : List PlacementItem) (m : SynapseTargetMapping S)
    (hrun : simple_mapping P neuron_placement (init None) = .ok m)
    (hrect : ∀ item ∈ find_hicann neuron_placement P.hicann, spans_both_rows P item)
    (hdis : logical_neurons_disjoint P (find_hicann neuron_placement P.hicann)) :
    (∀ (x : Fin 256) (side : SideHorizontal), m ⟨x, 0⟩ side = m ⟨x, 1⟩ side) ∧
    check_top_and_bottom_are_equal m = true ∧
    ∀ item ∈ find_hicann neuron_placement P.hicann,
      ∀ a ∈ P.denmems item.logical_neuron, ∀ b ∈ P.denmems item.logical_neuron,
        a.x.val % 2 = b.x.val % 2 → ∀ side, m a side = m b side := by
  unfold simple_mapping at hrun
  have hrows := simple_mapping_loop_rows P _ _ m hrun hrect (fun _ _ => rfl)
  refine ⟨hrows, ?_, ?_⟩
  · unfold check_top_and_bottom_are_equal
    rw [List.all_eq_true]
    intro xx _
    simp [hrows xx]
  · intro item hitem a ha b hb hpar side
    have := simple_mapping_loop_parity P _ _ m hrun hdis (fun _ _ _ _ _ _ _ => rfl)
      item hitem a ha b hb hpar
    rw [this]

/-- Witness for C24: two logical neurons of two columns each on chip (0,0). -/
theorem simple_mapping_consistent_witness :
    simple_mapping sampleMappingParameters sampleMappedPlacement (init 0) = .ok sampleMapping ∧
    sampleMapping ⟨2, 0⟩ .left = 1 ∧ sampleMapping ⟨3, 1⟩ .right = 3 ∧
    check_top_and_bottom_are_equal sampleMapping = true :=
  ⟨rfl, rfl, rfl,
   (simple_mapping_consistent sampleMappingParameters 0 sampleMappedPlacement sampleMapping rfl
     (by unfold spans_both_rows; decide)
     (by unfold logical_neurons_disjoint; decide)).2.1⟩

end SynapseTargetMapping

end routing

namespace routing

open placement parameter

namespace SynapseTargetMapping

variable {S : Type}

theorem interval_list_facts (xs : List Nat) (first width : Nat) (hw : 1 ≤ width)
    (hxs : ∀ c, c ∈ xs ↔ first ≤ c ∧ c < first + width) :
    xs.dedup.length = width ∧ xs.min? = some first ∧ xs.max? = some (first + width - 1) := by
  refine ⟨?_, ?_, ?_⟩
  · rw [← List.card_toFinset]
    have hfin : xs.toFinset = Finset.Ico first (first + width) := by
      ext c
      rw [List.mem_toFinset, Finset.mem_Ico]
      exact hxs c
    rw [hfin, Nat.card_Ico]
    omega
  · rw [List.min?_eq_some_iff']
    refine ⟨(hxs first).2 ⟨le_refl _, by omega⟩, ?_⟩
    intro b hb
    exact ((hxs b).1 hb).1
  · rw [List.max?_eq_some_iff']
    refine ⟨(hxs _).2 ⟨by omega, by omega⟩, ?_⟩
    intro b hb
    have := ((hxs b).1 hb).2
    omega

theorem columns_of_block (neurons : List NeuronOnHICANN) (first width : Nat)
    (hfit : first + width ≤ 256)
    (hblock : ∀ n, n ∈ neurons ↔ first ≤ n.x.val ∧ n.x.val < first + width) (y : Fin 2) :
    ∀ c, c ∈ columns neurons y ↔ first ≤ c ∧ c < first + width := by
  intro c
  unfold columns
  simp only [List.mem_map, List.mem_filter, decide_eq_true_eq]
  constructor
  · rintro ⟨n, ⟨hn, _⟩, hc⟩
    rw [← hc]
    exact (hblock n).1 hn
  · intro hc
    have hlt : c < 256 := by omega
    exact ⟨⟨⟨c, hlt⟩, y⟩, ⟨(hblock _).2 hc, rfl⟩, rfl⟩

theorem check_connected_block_of_block (neurons : List NeuronOnHICANN) (first width : Nat)
    (hw : 1 ≤ width) (hfit : first + width ≤ 256)
    (hblock : ∀ n, n ∈ neurons ↔ first ≤ n.x.val ∧ n.x.val < first + width) :
    check_connected_block neurons = .ok width := by
  obtain ⟨t1, t2, t3⟩ := interval_list_facts (columns neurons 0) first width hw
    (columns_of_block neurons first width hfit hblock 0)
  obtain ⟨b1, b2, b3⟩ := interval_list_facts (columns neurons 1) first width hw
    (columns_of_block neurons first width hfit hblock 1)
  unfold check_connected_block
  simp only [t1, t2, t3, b1, b2, b3]
  simp
  omega

theorem mem_of_block (neurons : List NeuronOnHICANN) (first width : Nat)
    (hfit : first + width ≤ 256)
    (hblock : ∀ n, n ∈ neurons ↔ first ≤ n.x.val ∧ n.x.val < first + width)
    (c : Nat) (hc : first ≤ c ∧ c < first + width) :
    ∃ n ∈ neurons, n.x.val = c := by
  have hlt : c < 256 := by omega
  exact ⟨⟨⟨c, hlt⟩, 0⟩, (hblock _).2 hc, rfl⟩

end SynapseTargetMapping

end routing

namespace routing

open placement parameter

namespace SynapseTargetMapping

theorem mem_block (first width : Nat) (hfit : first + width ≤ 256) (n : NeuronOnHICANN) :
    n ∈ block first width ↔ first ≤ n.x.val ∧ n.x.val < first + width := by
  have hval : ∀ x, x < 256 → (Fin.ofNat x : Fin 256).val = x := by
    intro x hx
    simp [Fin.ofNat, Nat.mod_eq_of_lt hx]
  unfold block
  simp only [List.mem_append, List.mem_map, List.mem_range'_1]
  constructor
  · rintro (⟨x, hx, rfl⟩ | ⟨x, hx, rfl⟩)
    · simp only
      rw [hval x (by omega)]
      exact hx
    · simp only
      rw [hval x (by omega)]
      exact hx
  · intro hn
    obtain ⟨x, y⟩ := n
    simp only at hn
    have hx : (Fin.ofNat x.val : Fin 256) = x := by
      apply Fin.ext
      exact hval x.val x.isLt
    have hy : y = 0 ∨ y = 1 := by
      rcases y with ⟨v, hv⟩
      have : v = 0 ∨ v = 1 := by omega
      rcases this with h | h
      · left
        exact Fin.ext h
      · right
        exact Fin.ext h
    rcases hy with h | h
    · left
      exact ⟨x.val, hn, by rw [hx, h]⟩
    · right
      exact ⟨x.val, hn, by rw [hx, h]⟩

/-- C28: for the denmems of a connected block (the columns `first` to
`first + width - 1`, top and bottom), `map_targets` with no required target
leaves the mapping unchanged; with `k` required targets, `1 ≤ k ≤ 4` and
`k ≤ 2 * width`, it succeeds, every required target is afterwards the left or
the right synapse type of a denmem of the block, and denmems outside the block
keep their mapping; with `k > 4` or `k > 2 * width` it raises an error. -/
theorem map_targets_covers {S : Type} (required_targets : List S)
    (neurons : List NeuronOnHICANN) (first width : Nat) (m : SynapseTargetMapping S)
    (hw : 1 ≤ width) (hfit : first + width ≤ 256)
    (hblock : ∀ n, n ∈ neurons ↔ first ≤ n.x.val ∧ n.x.val < first + width) :
    map_targets [] neurons m = .ok m ∧
    (1 ≤ required_targets.length → required_targets.length ≤ 4 →
      required_targets.length ≤ 2 * width →
      ∃ m1, map_targets required_targets neurons m = .ok m1 ∧
        (∀ t ∈ required_targets, ∃ n ∈ neurons, m1 n .left = t ∨ m1 n .right = t) ∧
        ∀ n, n ∉ neurons → m1 n = m n) ∧
    (2 * width < required_targets.length →
      map_targets required_targets neurons m = .error .more_time_constants_than_provided) ∧
    (4 < required_targets.length → required_targets.length ≤ 2 * width →
      map_targets required_targets neurons m = .error .more_than_four_targets) := by
  have hchk := check_connected_block_of_block neurons first width hw hfit hblock
  have hval : ∀ (eL eR oL oR : S) (n : NeuronOnHICANN), n ∈ neurons →
      map_targets_assign eL eR oL oR neurons m n = targets_of_column eL eR oL oR n := by
    intro eL eR oL oR n hn
    rw [map_targets_assign_apply, if_pos hn]
  have hout : ∀ (eL eR oL oR : S) (n : NeuronOnHICANN), n ∉ neurons →
      map_targets_assign eL eR oL oR neurons m n = m n := by
    intro eL eR oL oR n hn
    rw [map_targets_assign_apply, if_neg hn]
  obtain ⟨n0, hn0, _⟩ := mem_of_block neurons first width hfit hblock first (by omega)
  have hpar : 2 ≤ width → (∃ n ∈ neurons, n.x.val % 2 = 0) ∧ ∃ n ∈ neurons, n.x.val % 2 = 1 := by
    intro h2
    obtain ⟨a, ha, hax⟩ := mem_of_block neurons first width hfit hblock first (by omega)
    obtain ⟨b, hb, hbx⟩ := mem_of_block neurons first width hfit hblock (first + 1) (by omega)
    rcases Nat.mod_two_eq_zero_or_one first with h | h
    · exact ⟨⟨a, ha, by omega⟩, ⟨b, hb, by omega⟩⟩
    · exact ⟨⟨b, hb, by omega⟩, ⟨a, ha, by omega⟩⟩
  refine ⟨by simp [map_targets], ?_, ?_, ?_⟩
  · intro h1 h4 h2w
    rcases required_targets with _ | ⟨t0, _ | ⟨t1, _ | ⟨t2, _ | ⟨t3, _ | ⟨t4, r⟩⟩⟩⟩⟩
    · simp at h1
    · refine ⟨map_targets_assign t0 t0 t0 t0 neurons m, ?_, ?_, hout _ _ _ _⟩
      · have hk : ¬ (1 > width * 2) := by omega
        simp [map_targets, hchk, choose_targets, hk]
      · intro t ht
        simp only [List.mem_singleton] at ht
        subst ht
        exact ⟨n0, hn0, Or.inl (by rw [hval _ _ _ _ n0 hn0]; simp [targets_of_column])⟩
    · refine ⟨map_targets_assign t0 t1 t0 t1 neurons m, ?_, ?_, hout _ _ _ _⟩
      · have hk : ¬ (2 > width * 2) := by omega
        simp [map_targets, hchk, choose_targets, hk]
      · intro t ht
        simp only [List.mem_cons, List.mem_singleton, List.not_mem_nil, or_false] at ht
        rcases ht with ht | ht
        · subst ht
          exact ⟨n0, hn0, Or.inl (by rw [hval _ _ _ _ n0 hn0]; simp [targets_of_column])⟩
        · subst ht
          exact ⟨n0, hn0, Or.inr (by rw [hval _ _ _ _ n0 hn0]; simp [targets_of_column])⟩
    · simp only [List.length_cons, List.length_nil] at h2w
      obtain ⟨⟨ne, hne, hev⟩, ⟨no, hno, hod⟩⟩ := hpar (by omega)
      refine ⟨map_targets_assign t0 t1 t0 t2 neurons m, ?_, ?_, hout _ _ _ _⟩
      · have hk : ¬ (3 > width * 2) := by omega
        simp [map_targets, hchk, choose_targets, hk]
      · intro t ht
        simp only [List.mem_cons, List.mem_singleton, List.not_mem_nil, or_false] at ht
        rcases ht with ht | ht | ht
        · subst ht
          exact ⟨n0, hn0, Or.inl (by rw [hval _ _ _ _ n0 hn0]; simp [targets_of_column])⟩
        · subst ht
          exact ⟨ne, hne, Or.inr (by rw [hval _ _ _ _ ne hne]; simp [targets_of_column, hev])⟩
        · subst ht
          exact ⟨no, hno, Or.inr (by rw [hval _ _ _ _ no hno]; simp [targets_of_column, hod])⟩
    · simp only [List.length_cons, List.length_nil] at h2w
      obtain ⟨⟨ne, hne, hev⟩, ⟨no, hno, hod⟩⟩ := hpar (by omega)
      refine ⟨map_targets_assign t0 t1 t2 t3 neurons m, ?_, ?_, hout _ _ _ _⟩
      · have hk : ¬ (4 > width * 2) := by omega
        simp [map_targets, hchk, choose_targets, hk]
      · intro t ht
        simp only [List.mem_cons, List.mem_singleton, List.not_mem_nil, or_false] at ht
        rcases ht with ht | ht | ht | ht
        · subst ht
          exact ⟨ne, hne, Or.inl (by rw [hval _ _ _ _ ne hne]; simp [targets_of_column, hev])⟩
        · subst ht
          exact ⟨ne, hne, Or.inr (by rw [hval _ _ _ _ ne hne]; simp [targets_of_column, hev])⟩
        · subst ht
          exact ⟨no, hno, Or.inl (by rw [hval _ _ _ _ no hno]; simp [targets_of_column, hod])⟩
        · subst ht
          exact ⟨no, hno, Or.inr (by rw [hval _ _ _ _ no hno]; simp [targets_of_column, hod])⟩
    · simp only [List.length_cons] at h4
      omega
  · intro hk
    have hk0 : required_targets.length ≠ 0 := by omega
    have hk2 : required_targets.length > width * 2 := by omega
    simp [map_targets, hchk, hk0, hk2]
  · intro hk4 hk2
    have hk0 : required_targets.length ≠ 0 := by omega
    have hk2n : ¬ (required_targets.length > width * 2) := by omega
    have hch : choose_targets required_targets = .error .more_than_four_targets := by
      rcases required_targets with _ | ⟨t0, _ | ⟨t1, _ | ⟨t2, _ | ⟨t3, _ | ⟨t4, r⟩⟩⟩⟩⟩
      all_goals first | (simp at hk4; done) | rfl
    simp [map_targets, hchk, hk0, hk2n, hch]

/-- Witness for C28: three required targets on the block of the columns 4 and
5. -/
theorem map_targets_covers_witness :
    ∃ m1, map_targets [1, 2, 3] (block 4 2) (init 0) = .ok m1 ∧
      (∀ t ∈ [1, 2, 3], ∃ n ∈ block 4 2, m1 n .left = t ∨ m1 n .right = t) ∧
      ∀ n, n ∉ block 4 2 → m1 n = init 0 n :=
  (map_targets_covers [1, 2, 3] (block 4 2) 4 2 (init 0) (by decide) (by decide)
    (mem_block 4 2 (by decide))).2.1 (by decide) (by decide) (by decide)

end SynapseTargetMapping

end routing

namespace placement

/-- C25: `neuronsFittingIntoAvailableRate` stops one neuron before the available
rate is reached exactly. At the default utilization 1 a chip without allocated
rate has the available rate 1.78e7 Hz. For a slice of ten sources of 1.78e6 Hz
each, with up to ten neurons to check, the summed rate of the last ten neurons
is 1.78e7 Hz, which does not exceed the available rate, and the summed rate of
the last nine is 1.602e7 Hz; the method returns nine neurons and 1.602e7 Hz.
Every rate, product, difference and sum here is an integer below 2^53, so the
arithmetic and the comparisons of the program are exact and are the ones
evaluated here. -/
theorem rate_admission_stops_before_exact_budget :
    sampleFullRatePlacement.availableRate sampleFullRateState ⟨0, 0⟩ = 17800000 ∧
    min sampleFullRateState.bio.size
      (sampleFullRateState.address_assignment.available_addresses 7).size = 10 ∧
    rate_of_last sampleFullRatePlacement ⟨0, 0, 10⟩ 10 = 17800000 ∧
    rate_of_last sampleFullRatePlacement ⟨0, 0, 10⟩ 10
      ≤ sampleFullRatePlacement.availableRate sampleFullRateState ⟨0, 0⟩ ∧
    rate_of_last sampleFullRatePlacement ⟨0, 0, 10⟩ 9 = 16020000 ∧
    sampleFullRatePlacement.neuronsFittingIntoAvailableRate ⟨0, 0, 10⟩ 10 17800000
      = (9, 16020000) := by
  have havail : sampleFullRatePlacement.availableRate sampleFullRateState ⟨0, 0⟩
      = 17800000 := by
    norm_num [InputPlacement.availableRate, InputPlacement.max_rate_HICANN,
      InputPlacement.max_rate_FPGA, RateOps.min, sampleFullRatePlacement, sampleFullRateState,
      sampleRatedPlacement, sampleRatedStart, ratRateOps]
  have hten : rate_of_last sampleFullRatePlacement ⟨0, 0, 10⟩ 10 = 17800000 := by
    norm_num [rate_of_last, sampleFullRatePlacement, List.range']
  refine ⟨havail, by decide, hten, ?_, ?_, ?_⟩
  · rw [havail, hten]
  · norm_num [rate_of_last, sampleFullRatePlacement, List.range']
  · norm_num [InputPlacement.neuronsFittingIntoAvailableRate,
      InputPlacement.neuronsFittingIntoAvailableRate_loop, sampleFullRatePlacement,
      sampleRatedPlacement, ratRateOps]

theorem neuronsFitting_loop_ge {R : Type} (P : InputPlacement R) (bio : PopulationSlice)
    (available_rate : R) :
    ∀ (remaining i : Nat) (summed_rate : R),
      i ≤ (P.neuronsFittingIntoAvailableRate_loop bio available_rate remaining i
        summed_rate).1 := by
  intro remaining
  induction remaining with
  | zero =>
      intro i s
      exact le_refl _
  | succ n ih =>
      intro i s
      simp only [InputPlacement.neuronsFittingIntoAvailableRate_loop]
      split_ifs
      · have := ih (i + 1) (P.arith.add s (P.firing_rate bio.population
          (bio.offset + (bio.size - i - 1))))
        omega
      · exact le_refl _

theorem neuronsFitting_none_fits {R : Type} (P : InputPlacement R) (bio : PopulationSlice)
    (available_rate : R) (max_neurons : Nat) (hmax : max_neurons ≠ 0)
    (hzero : (P.neuronsFittingIntoAvailableRate bio max_neurons available_rate).1 = 0) :
    ∀ n, (P.neuronsFittingIntoAvailableRate bio n available_rate).1 = 0 := by
  obtain ⟨m, hm⟩ : ∃ m, max_neurons = m + 1 := ⟨max_neurons - 1, by omega⟩
  subst hm
  have htest : ¬ (P.arith.lt (P.arith.add (P.firing_rate bio.population
      (bio.offset + (bio.size - 0 - 1))) (P.arith.ofNat 0)) available_rate = true) := by
    intro hlt
    unfold InputPlacement.neuronsFittingIntoAvailableRate at hzero
    simp only [InputPlacement.neuronsFittingIntoAvailableRate_loop, hlt, if_true] at hzero
    have := neuronsFitting_loop_ge P bio available_rate m (0 + 1)
      (P.arith.add (P.arith.ofNat 0) (P.firing_rate bio.population
        (bio.offset + (bio.size - 0 - 1))))
    omega
  intro n
  unfold InputPlacement.neuronsFittingIntoAvailableRate
  cases n with
  | zero => rfl
  | succ k =>
      simp only [InputPlacement.neuronsFittingIntoAvailableRate_loop, htest, if_false,
        Bool.false_eq_true]

end placement

namespace placement

theorem insertInput_rate_none_all {R : Type} (P : InputPlacement R) (h : HICANNOnWafer)
    (st : InsertState R) (left_space : Nat) (hls : left_space ≠ 0)
    (hnone : P.insertInput_rate h (Nat.min st.bio.size left_space) st = none) :
    ∀ n, P.insertInput_rate h (Nat.min st.bio.size n) st = none := by
  unfold InputPlacement.insertInput_rate at hnone ⊢
  by_cases hc : P.consider_firing_rate = true
  · simp only [hc, if_true] at hnone ⊢
    have hz : (P.neuronsFittingIntoAvailableRate st.bio (Nat.min st.bio.size left_space)
        (P.availableRate st h)).1 = 0 := by
      by_contra hne
      rw [if_neg hne] at hnone
      simp at hnone
    intro n
    have hmin : ∀ k, Nat.min st.bio.size k = min st.bio.size k := fun _ => rfl
    have hall : (P.neuronsFittingIntoAvailableRate st.bio (Nat.min st.bio.size n)
        (P.availableRate st h)).1 = 0 := by
      by_cases hsz : st.bio.size = 0
      · have h0 : Nat.min st.bio.size n = 0 := by
          rw [hmin, hsz]
          exact Nat.zero_min n
        rw [h0]
        rfl
      · exact neuronsFitting_none_fits P st.bio (P.availableRate st h)
          (Nat.min st.bio.size left_space) (by rw [hmin]; omega) hz _
    rw [if_pos hall]
  · simp only [hc, Bool.false_eq_true, if_false] at hnone
    simp at hnone

theorem insertInput_body_skip_cases {R : Type} (P : InputPlacement R) (h : HICANNOnWafer)
    (d : DNCMergerOnHICANN) (st : InsertState R) :
    P.insertInput_body_skip h d st = P.insertInput_body h d st ∨
    (P.insertInput_body h d st = .ok (.done st) ∧
      ∀ n, P.insertInput_rate h (Nat.min st.bio.size n) st = none) := by
  unfold InputPlacement.insertInput_body_skip InputPlacement.insertInput_body
  by_cases h1 : st.address_assignment.mode d = Mode.output
  · left
    rw [if_pos h1, if_pos h1]
  · rw [if_neg h1, if_neg h1]
    simp only
    by_cases h2 : (st.address_assignment.available_addresses d).size = 0
    · left
      rw [if_pos h2, if_pos h2]
    · rw [if_neg h2, if_neg h2]
      by_cases h3 : P.merger_mapping h d ≠ d
      · left
        rw [if_pos h3, if_pos h3]
      · rw [if_neg h3, if_neg h3]
        by_cases h4 : ¬ (find_neuron_block st.neuron_placement ⟨d, h⟩).isEmpty
        · left
          rw [if_pos h4, if_pos h4]
        · rw [if_neg h4, if_neg h4]
          cases hr : P.insertInput_rate h
              (Nat.min st.bio.size (st.address_assignment.available_addresses d).size) st with
          | none =>
              right
              exact ⟨rfl, insertInput_rate_none_all P h st _ h2 hr⟩
          | some r =>
              left
              rfl

theorem insertInput_body_skip_blocked {R : Type} (P : InputPlacement R) (h : HICANNOnWafer)
    (d : DNCMergerOnHICANN) (st : InsertState R)
    (hblocked : ∀ n, P.insertInput_rate h (Nat.min st.bio.size n) st = none) :
    P.insertInput_body_skip h d st = .ok (.next st) := by
  unfold InputPlacement.insertInput_body_skip
  simp only [hblocked]
  split_ifs <;> rfl

theorem insertInput_loop_skip_blocked {R : Type} (P : InputPlacement R) (h : HICANNOnWafer)
    (st : InsertState R)
    (hblocked : ∀ n, P.insertInput_rate h (Nat.min st.bio.size n) st = none) :
    ∀ dncs : List DNCMergerOnHICANN, P.insertInput_loop_skip h dncs st = .ok st := by
  intro dncs
  induction dncs with
  | nil => rfl
  | cons d rest ih =>
      simp only [InputPlacement.insertInput_loop_skip,
        insertInput_body_skip_blocked P h d st hblocked]
      exact ih

theorem insertInput_loop_skip_eq {R : Type} (P : InputPlacement R) (h : HICANNOnWafer) :
    ∀ (dncs : List DNCMergerOnHICANN) (st : InsertState R),
      P.insertInput_loop h dncs st = P.insertInput_loop_skip h dncs st := by
  intro dncs
  induction dncs with
  | nil =>
      intro st
      rfl
  | cons d rest ih =>
      intro st
      rcases insertInput_body_skip_cases P h d st with heq | ⟨hdone, hblocked⟩
      · simp only [InputPlacement.insertInput_loop, InputPlacement.insertInput_loop_skip, heq]
        cases P.insertInput_body h d st with
        | error e => rfl
        | ok c =>
            cases c with
            | next s => exact ih s
            | done s => rfl
      · simp only [InputPlacement.insertInput_loop, InputPlacement.insertInput_loop_skip,
          hdone, insertInput_body_skip_blocked P h d st hblocked]
        exact (insertInput_loop_skip_blocked P h st hblocked rest).symm

/-- C26: `insertInput`, which returns when no neuron of the slice fits the
available rate at a DNC merger, ends in the same state (placement, address
pools, merger modes, allocated rates, remaining slice, allocated chips), or
with the same error, as the variant that skips that DNC merger and goes on to
check the remaining DNC mergers of the chip; with and without
`consider_firing_rate`. -/
theorem insertInput_skip_equivalent {R : Type} (P : InputPlacement R) (h : HICANNOnWafer)
    (st : InsertState R) :
    P.insertInput h st = P.insertInput_skip h st ∧
    ∀ (d : DNCMergerOnHICANN),
      P.insertInput_body h d st ≠ P.insertInput_body_skip h d st →
      P.consider_firing_rate = true ∧ P.insertInput_body h d st = .ok (.done st) ∧
      P.insertInput_body_skip h d st = .ok (.next st) := by
  refine ⟨insertInput_loop_skip_eq P h _ st, ?_⟩
  intro d hne
  rcases insertInput_body_skip_cases P h d st with heq | ⟨hdone, hblocked⟩
  · exact absurd heq.symm hne
  · refine ⟨?_, hdone, insertInput_body_skip_blocked P h d st hblocked⟩
    by_contra hc
    have := hblocked 0
    simp [InputPlacement.insertInput_rate, hc] at this

end placement

namespace placement

/-- C27: `insertInput` with an empty slice and without bandwidth check is not a
no-op: on chip (1,0) with a new address assignment it succeeds, adds no item
and draws no address, but sets DNC merger 7 to mode input and allocates the
chip. The manual placement of two neurons on the chip list [(0,0), (1,0)] ends
with DNC merger 7 of chip (1,0) in mode input and chip (1,0) allocated, although
both neurons are on chip (0,0). -/
theorem insertInput_empty_slice_marks_merger :
    sampleInputPlacement.insertInput ⟨1, 0⟩ sampleEmptySliceStart = .ok sampleEmptySliceDone ∧
    sampleEmptySliceStart.bio.size = 0 ∧
    sampleEmptySliceStart.address_assignment.mode 7 = Mode.unused ∧
    sampleEmptySliceDone.address_assignment.mode 7 = Mode.input ∧
    sampleEmptySliceStart.mMgr.allocated = [] ∧
    sampleEmptySliceDone.mMgr.allocated = [⟨1, 0⟩] ∧
    sampleEmptySliceDone.neuron_placement = [] ∧
    (sampleEmptySliceDone.address_assignment.available_addresses 7).size = 63 ∧
    sampleInputPlacement.run_manual (.hicanns scenario4_chips) ⟨0, 0, 2⟩ scenario4_start
      = .ok sampleTwoOnTwoChips ∧
    neurons_on sampleTwoOnTwoChips.neuron_placement ⟨0, 0⟩ 7 = [0, 1] ∧
    (sampleTwoOnTwoChips.address_assignment ⟨1, 0⟩).mode 7 = Mode.input ∧
    sampleTwoOnTwoChips.mMgr.allocated = [⟨0, 0⟩, ⟨1, 0⟩] := by
  refine ⟨rfl, rfl, rfl, rfl, rfl, rfl, rfl, rfl, rfl, by decide, rfl, rfl⟩

end placement

/-- C29: under the successor table, from every Merger0(i) the chain through
Merger1(i div 2), Merger2(i div 4) and Merger3 to DNCMerger(3) is admissible;
for every DNC merger n there is a Merger0 from which a chain of admissible
merger-tree transitions leads to DNCMerger(n); and the transition from
Merger0(i) to DNCMerger(n) is admissible exactly when n = i and i is 0, 2, 4 or
7. This holds whatever the topology and the visitor state. -/
theorem merger_tree_reachability (T : Topology) (v : IsValidSuccessor) :
    (∀ i : Fin 8,
      accepts T v
        [.Merger0OnHICANN i, .Merger1OnHICANN ⟨i.val / 2, by omega⟩,
          .Merger2OnHICANN ⟨i.val / 4, by omega⟩, .Merger3OnHICANN 0,
          .DNCMergerOnHICANN 3]) ∧
    (∀ n : Fin 8, ∃ (i : Fin 8) (l : List segment_type),
      (∀ s ∈ l, is_merger_tree_kind s = true) ∧
      accepts T v (.Merger0OnHICANN i :: (l ++ [.DNCMergerOnHICANN n]))) ∧
    (∀ i n : Fin 8,
      (call T v (.Merger0OnHICANN i) (.DNCMergerOnHICANN n)).1 = true ↔
        n = i ∧ (i = 0 ∨ i = 2 ∨ i = 4 ∨ i = 7)) := by
  refine ⟨?_, ?_, ?_⟩
  · intro i
    unfold accepts
    fin_cases i <;> rfl
  · intro n
    fin_cases n
    · exact ⟨0, [], by decide, rfl⟩
    · exact ⟨0, [.Merger1OnHICANN 0], by decide, rfl⟩
    · exact ⟨2, [], by decide, rfl⟩
    · exact ⟨0, [.Merger1OnHICANN 0, .Merger2OnHICANN 0, .Merger3OnHICANN 0], by decide, rfl⟩
    · exact ⟨4, [], by decide, rfl⟩
    · exact ⟨4, [.Merger1OnHICANN 2, .Merger2OnHICANN 1], by decide, rfl⟩
    · exact ⟨6, [.Merger1OnHICANN 3], by decide, rfl⟩
    · exact ⟨7, [], by decide, rfl⟩
  · intro i n
    simp only [call]
    revert i n
    decide

namespace experiment

open parameter

/-- C30: in exact rational arithmetic, for `alpha_v ≠ 0`, every `shift_v` and
every biological voltage `v` in mV, the conversion that `HICANNParameters::run`
applies to the shared reset voltage followed by the conversion of
`Experiment::extract_membrane` returns `v`. -/
theorem membrane_voltage_round_trip (param_trafo : ParamTrafo) (v : ℚ)
    (halpha : param_trafo.alpha_v ≠ 0) :
    extract_membrane_voltage param_trafo (shared_v_reset param_trafo v) = v := by
  unfold extract_membrane_voltage shared_v_reset
  simp only
  field_simp
  ring

/-- Witness for C30: the default transformation, `alpha_v = 10` and
`shift_v = 1200`, at -65 mV. -/
theorem membrane_voltage_round_trip_witness :
    ParamTrafo.init.alpha_v ≠ 0 ∧
    extract_membrane_voltage ParamTrafo.init (shared_v_reset ParamTrafo.init (-65)) = -65 :=
  ⟨by simp [ParamTrafo.init],
   membrane_voltage_round_trip ParamTrafo.init (-65) (by simp [ParamTrafo.init])⟩

end experiment

namespace placement

theorem sampleRatedInserted_placed :
    WaferState.Placed sampleRatedPlacement sampleMergerRouting sampleRatedInserted := by
  obtain ⟨w1, bio1, h⟩ :=
    WaferState.insertInput_ok sampleRatedPlacement ⟨0, 0⟩ ⟨0, 0, 2⟩ sampleRatedStart
  have he : sampleRatedInserted = w1 := by simp [sampleRatedInserted, h]
  rw [he]
  exact WaferState.Placed.insert_input _ _ _ _ _
    (WaferState.Placed.start [] ⟨[⟨0, 0⟩], []⟩ (by simp)) h

theorem sampleRatedInserted_rate :
    sampleRatedInserted.mUsedRateHICANN ⟨0, 0⟩ = 20 ∧
    sampleRatedInserted.mUsedRateFPGA 0 = 20 ∧
    sampleRatedInserted.neuron_placement.length = 2 := by
  have hm : ¬ (Mode.unused = Mode.output) := by decide
  norm_num [hm, sampleRatedInserted, sampleRatedStart, sampleRatedPlacement,
    WaferState.insertInput,
    InputPlacement.insertInput, InputPlacement.insertInput_loop, InputPlacement.insertInput_body,
    InputPlacement.insertInput_rate, InputPlacement.insertInput_place,
    InputPlacement.insertInput_addresses, InputPlacement.neuronsFittingIntoAvailableRate,
    InputPlacement.neuronsFittingIntoAvailableRate_loop, InputPlacement.availableRate,
    InputPlacement.allocateRate, InputPlacement.merger_mapping, InputPlacement.max_rate_HICANN,
    InputPlacement.max_rate_FPGA, RateOps.min, ratRateOps, L1AddressAssignment.init,
    L1AddressAssignment.mode, L1AddressAssignment.available_addresses,
    L1AddressAssignment.set_mode, L1AddressAssignment.set_available_addresses,
    L1AddressPool.full, L1AddressPool.size, L1AddressPool.pop, find_neuron_block,
    PopulationSlice.slice_back, add_with_address, List.range']

end placement

namespace placement

/-- Witness for C4: after two neurons of 10 Hz each were inserted on chip (0,0)
with the bandwidth check at utilization one half, 20 Hz are allocated to the
chip and to its FPGA, and both are within the bounds. -/
theorem bandwidth_invariant_witness :
    sampleRatedPlacement.arith = ratRateOps ∧
    0 < sampleRatedPlacement.bandwidth_utilization ∧
    WaferState.Placed sampleRatedPlacement sampleMergerRouting sampleRatedInserted ∧
    sampleRatedInserted.mUsedRateHICANN ⟨0, 0⟩ = 20 ∧
    sampleRatedInserted.mUsedRateFPGA 0 = 20 ∧
    (∀ h, sampleRatedInserted.mUsedRateHICANN h
      ≤ sampleRatedPlacement.bandwidth_utilization * 17800000) ∧
    (∀ f, sampleRatedInserted.mUsedRateFPGA f
      ≤ sampleRatedPlacement.bandwidth_utilization * 125000000) :=
  have hu : 0 < sampleRatedPlacement.bandwidth_utilization := by
    norm_num [sampleRatedPlacement]
  ⟨rfl, hu, sampleRatedInserted_placed, sampleRatedInserted_rate.1, sampleRatedInserted_rate.2.1,
   (bandwidth_invariant sampleRatedPlacement sampleMergerRouting sampleRatedInserted rfl hu
     sampleRatedInserted_placed).1,
   (bandwidth_invariant sampleRatedPlacement sampleMergerRouting sampleRatedInserted rfl hu
     sampleRatedInserted_placed).2.1⟩

end placement

end marocco
